import Mathlib

/-!
# Slice recycling pools

A Lean model of `recycling/pools.go` and `recycling/encode.go`.

Modelling conventions.

* A Go `[]byte` is a `Slice`: the backing array from the slice pointer up to
  its capacity (`arr`, so `cap = arr.length`) together with the length `len`.
  Bytes are natural numbers.
* Go `int` is 64 bits wide: arithmetic that can overflow goes through `wrapInt`.
* A Go run-time panic (slice bounds, index out of range, `makeslice`) is the
  result `none`.
* `sync.Pool` is a bag of stored values.  `sync.Pool.Get` may hand out any
  stored value or report an empty pool; the decision is the argument `pick`.
* The package variable `StartCap` is an argument of every `Get`.
* Pool objects are shared and mutated in place in Go; here every operation
  takes the pool state and returns the new one.
-/

namespace Recycling

/-! ## Go primitives -/

/-- Largest number of bytes `makeslice` accepts (`maxAlloc` of the Go runtime,
2^48 on the 64-bit ports); a larger capacity panics. -/
def maxAlloc : Nat := 281474976710656

/-- Two-complement wrap of an integer into the range of a 64-bit Go `int`. -/
def wrapInt (x : Int) : Int :=
  (x + 9223372036854775808) % 18446744073709551616 - 9223372036854775808

/-- Conversion `uint(x)` of a Go `int`. -/
def toUint (x : Int) : Nat := (x % 18446744073709551616).toNat

/-- Number of binary digits of `x`, counting at most `fuel` of them. -/
def bitsLenAux : Nat → Nat → Nat
  | 0, _ => 0
  | fuel + 1, x => if x = 0 then 0 else bitsLenAux fuel (x / 2) + 1

/-- Go `bits.Len` on a 64-bit `uint`: the number of bits needed to write `x`,
`0` for `x = 0`. -/
def bitsLen (x : Nat) : Nat := bitsLenAux 64 x

/-- The shift `1 << uint(p)` on a Go `int`. -/
def shiftOne (p : Nat) : Int := wrapInt (2 ^ p)

/-- A byte slice: backing array up to the capacity, and the length. -/
structure Slice where
  arr : List Nat
  len : Nat
deriving DecidableEq, Repr

/-- Go `cap(s)`. -/
def Slice.cap (s : Slice) : Nat := s.arr.length

/-- The bytes visible through the slice, `s[0:len(s)]`. -/
def Slice.bytes (s : Slice) : List Nat := s.arr.take s.len

/-- The nil slice. -/
def nilSlice : Slice := ⟨[], 0⟩

/-- Go `make([]byte, len, cap)`: zeroed storage, or a panic. -/
def make (len cap : Int) : Option Slice :=
  if 0 ≤ len ∧ len ≤ cap ∧ cap ≤ (maxAlloc : Int) then
    some ⟨List.replicate cap.toNat 0, len.toNat⟩
  else none

/-- Go reslice `s[0:size]`: same storage, new length; panics outside `0..cap`. -/
def reslice (s : Slice) (size : Int) : Option Slice :=
  if 0 ≤ size ∧ size ≤ (s.cap : Int) then some { s with len := size.toNat } else none

/-- Go `copy(dst, src)`: the first `min(len(dst), len(src))` bytes of `src`
overwrite those of `dst`. -/
def copy (dst src : Slice) : Slice :=
  { dst with arr := src.arr.take (min dst.len src.len) ++ dst.arr.drop (min dst.len src.len) }

/-- The loop `for i := range buf { buf[i] = 0 }`: zeroes the first `len(buf)` bytes. -/
def zeroRange (buf : Slice) : Slice :=
  { buf with arr := List.replicate buf.len 0 ++ buf.arr.drop buf.len }

/-- Overwrite `arr[off ..]` with `bs` (used for in-bounds stores). -/
def store (arr : List Nat) (off : Nat) (bs : List Nat) : List Nat :=
  arr.take off ++ bs ++ arr.drop (off + bs.length)

/-- Model of `sync.Pool.Get`: `pick = some i` hands out the stored value number
`i` (when there is one) and removes it; otherwise the pool reports nothing. -/
def syncGet (items : List Slice) (pick : Option Nat) : Option Slice × List Slice :=
  match pick with
  | none => (none, items)
  | some i =>
    match items[i]? with
    | none => (none, items)
    | some b => (some b, items.eraseIdx i)

/-- Model of `sync.Pool.Put`. -/
def syncPut (items : List Slice) (b : Slice) : List Slice := items ++ [b]

/-! ## pools.go -/

/-- Go `max`. -/
def max (x y : Int) : Int := if x < y then y else x

/-- Go `powerOfTwo`: `bits.Len(uint(n - 1))`. -/
def powerOfTwo (n : Int) : Nat := bitsLen (toUint (wrapInt (n - 1)))

/-- The pool without recycling. -/
structure NullPool where
deriving DecidableEq, Repr

def NewNullPool : NullPool := {}

def NullPool.Get (_np : NullPool) (StartCap : Int) : Option Slice :=
  make 0 StartCap

def NullPool.Put (np : NullPool) (_bs : Slice) : NullPool := np

def NullPool.Resize (_np : NullPool) (orig : Slice) (size : Int) : Option Slice :=
  if size < (orig.cap : Int) then reslice orig size
  else
    match make size (max size (wrapInt ((orig.cap : Int) * 2))) with
    | none => none
    | some temp => some (copy temp orig)

/-- The pool over one `sync.Pool`. -/
structure SyncPool where
  pool : List Slice
deriving DecidableEq, Repr

def NewSyncPool : SyncPool := ⟨[]⟩

def SyncPool.Get (sp : SyncPool) (StartCap : Int) (pick : Option Nat) :
    Option Slice × SyncPool :=
  match syncGet sp.pool pick with
  | (none, _) => (make 0 StartCap, sp)
  | (some buf, rest) => (reslice (zeroRange buf) 0, ⟨rest⟩)

def SyncPool.Put (sp : SyncPool) (bs : Slice) : SyncPool := ⟨syncPut sp.pool bs⟩

def SyncPool.Resize (sp : SyncPool) (orig : Slice) (size : Int) : Option Slice × SyncPool :=
  if size < (orig.cap : Int) then (reslice orig size, sp)
  else
    match make size (max size (wrapInt ((orig.cap : Int) * 2))) with
    | none => (none, sp)
    | some temp => (some (copy temp orig), sp.Put orig)

/-- The pool with one `sync.Pool` per power-of-two capacity class. -/
structure Power2Pool where
  pools : List (List Slice)
deriving DecidableEq, Repr

def NewPower2Pool : Power2Pool := ⟨List.replicate 63 []⟩

def Power2Pool.getn (sp : Power2Pool) (n : Int) (pick : Option Nat) :
    Option Slice × Power2Pool :=
  let p := powerOfTwo n
  match sp.pools[p]? with
  | none => (none, sp)
  | some bucket =>
    match syncGet bucket pick with
    | (none, _) => (make 0 (shiftOne p), sp)
    | (some buf, rest) => (reslice (zeroRange buf) 0, ⟨sp.pools.set p rest⟩)

def Power2Pool.Get (sp : Power2Pool) (StartCap : Int) (pick : Option Nat) :
    Option Slice × Power2Pool :=
  sp.getn StartCap pick

def Power2Pool.Put (sp : Power2Pool) (bs : Slice) : Option Power2Pool :=
  let p := powerOfTwo (bs.cap : Int)
  match sp.pools[p]? with
  | none => none
  | some bucket => some ⟨sp.pools.set p (syncPut bucket bs)⟩

def Power2Pool.Resize (sp : Power2Pool) (orig : Slice) (size : Int) (pick : Option Nat) :
    Option Slice × Power2Pool :=
  if size < (orig.cap : Int) then (reslice orig size, sp)
  else
    match sp.getn size pick with
    | (none, sp1) => (none, sp1)
    | (some temp, sp1) =>
      match reslice temp size with
      | none => (none, sp1)
      | some temp1 =>
        match sp1.Put orig with
        | none => (none, sp1)
        | some sp2 => (some (copy temp1 orig), sp2)

/-- The pool with 20 reserved slots and an adaptive target capacity. -/
structure ReservedPool where
  pool : List Slice
  size : Int
  targetCap : Int
deriving DecidableEq, Repr

def NewReservedPool (StartCap : Int) : ReservedPool :=
  ⟨List.replicate 20 nilSlice, 0, StartCap⟩

def ReservedPool.Get (rp : ReservedPool) : Option Slice × ReservedPool :=
  if rp.size = 0 then (make 0 rp.targetCap, rp)
  else
    let i := wrapInt (rp.size - 1)
    if 0 ≤ i ∧ i < (rp.pool.length : Int) then
      match rp.pool[i.toNat]? with
      | none => (none, rp)
      | some buf =>
        (reslice (zeroRange buf) 0,
          { rp with pool := rp.pool.set i.toNat nilSlice, size := wrapInt (rp.size - 1) })
    else (none, rp)

def ReservedPool.Put (rp : ReservedPool) (bs : Slice) : Option ReservedPool :=
  if (bs.cap : Int) < rp.targetCap ∨ rp.size = (rp.pool.length : Int) then some rp
  else if 0 ≤ rp.size ∧ rp.size < (rp.pool.length : Int) then
    some { rp with pool := rp.pool.set rp.size.toNat bs, size := wrapInt (rp.size + 1) }
  else none

def ReservedPool.Resize (rp : ReservedPool) (orig : Slice) (size : Int) :
    Option Slice × ReservedPool :=
  if size < (orig.cap : Int) then (reslice orig size, rp)
  else
    let rp1 := { rp with targetCap := max size (wrapInt (rp.targetCap * 2)) }
    match make size rp1.targetCap with
    | none => (none, rp1)
    | some temp => (some (copy temp orig), rp1)

/-- The pool over one `sync.Pool` that does not recycle on growth. -/
structure LeakySyncPool where
  pool : List Slice
deriving DecidableEq, Repr

def NewLeakySyncPool : LeakySyncPool := ⟨[]⟩

def LeakySyncPool.Get (sp : LeakySyncPool) (StartCap : Int) (pick : Option Nat) :
    Option Slice × LeakySyncPool :=
  match syncGet sp.pool pick with
  | (none, _) => (make 0 StartCap, sp)
  | (some buf, rest) => (reslice (zeroRange buf) 0, ⟨rest⟩)

def LeakySyncPool.Put (sp : LeakySyncPool) (bs : Slice) : LeakySyncPool :=
  ⟨syncPut sp.pool bs⟩

def LeakySyncPool.Resize (_sp : LeakySyncPool) (orig : Slice) (size : Int) : Option Slice :=
  if size < (orig.cap : Int) then reslice orig size
  else
    match make size (max size (wrapInt ((orig.cap : Int) * 2))) with
    | none => none
    | some temp => some (copy temp orig)

/-- The `BytePool` interface: one of the five implementations. -/
inductive BytePool where
  | null (np : NullPool)
  | sync (sp : SyncPool)
  | power2 (sp : Power2Pool)
  | reserved (rp : ReservedPool)
  | leaky (sp : LeakySyncPool)
deriving DecidableEq, Repr

/-- Interface call `pool.Get()`. -/
def BytePool.Get (pool : BytePool) (StartCap : Int) (pick : Option Nat) :
    Option Slice × BytePool :=
  match pool with
  | .null np => (np.Get StartCap, .null np)
  | .sync sp => ((sp.Get StartCap pick).1, .sync (sp.Get StartCap pick).2)
  | .power2 sp => ((sp.Get StartCap pick).1, .power2 (sp.Get StartCap pick).2)
  | .reserved rp => (rp.Get.1, .reserved rp.Get.2)
  | .leaky sp => ((sp.Get StartCap pick).1, .leaky (sp.Get StartCap pick).2)

/-- Interface call `pool.Put(bs)`; `none` is a panic. -/
def BytePool.Put (pool : BytePool) (bs : Slice) : Option BytePool :=
  match pool with
  | .null np => some (.null (np.Put bs))
  | .sync sp => some (.sync (sp.Put bs))
  | .power2 sp => (sp.Put bs).map .power2
  | .reserved rp => (rp.Put bs).map .reserved
  | .leaky sp => some (.leaky (sp.Put bs))

/-- Interface call `pool.Resize(orig, size)`. -/
def BytePool.Resize (pool : BytePool) (orig : Slice) (size : Int) (pick : Option Nat) :
    Option Slice × BytePool :=
  match pool with
  | .null np => (np.Resize orig size, .null np)
  | .sync sp => ((sp.Resize orig size).1, .sync (sp.Resize orig size).2)
  | .power2 sp => ((sp.Resize orig size pick).1, .power2 (sp.Resize orig size pick).2)
  | .reserved rp => ((rp.Resize orig size).1, .reserved (rp.Resize orig size).2)
  | .leaky sp => (sp.Resize orig size, .leaky sp)

/-! ## encode.go -/

/-- The eight bytes of `uint64(value)`, least significant first
(`binary.LittleEndian.PutUint64`). -/
def le64 (value : Int) : List Nat :=
  (List.range 8).map (fun i => toUint value / 256 ^ i % 256)

/-- Go `writeInt64`: the new array and the returned offset; panics when
`dst[offset:offset+8]` is out of bounds. -/
def writeInt64 (dst : Slice) (offset : Int) (value : Int) : Option (Slice × Int) :=
  if 0 ≤ offset ∧ wrapInt (offset + 8) ≤ (dst.cap : Int) ∧ offset ≤ wrapInt (offset + 8) then
    some ({ dst with arr := store dst.arr offset.toNat (le64 value) }, wrapInt (offset + 8))
  else none

/-- Go `writeCString`: copies the string into `dst[offset:offset+strlen]` (a
panic when that is out of bounds), then stores the terminator at
`dst[offset+strlen]`, which must be below the length. -/
def writeCString (dst : Slice) (offset : Int) (value : List Nat) : Option (Slice × Int) :=
  let strlen : Int := value.length
  let hi := wrapInt (offset + strlen)
  if 0 ≤ offset ∧ offset ≤ hi ∧ hi ≤ (dst.cap : Int) then
    let dst1 := { dst with arr := store dst.arr offset.toNat (value.take (hi - offset).toNat) }
    if 0 ≤ hi ∧ hi < (dst1.len : Int) then
      some ({ dst1 with arr := store dst1.arr hi.toNat [0] }, wrapInt (wrapInt (offset + strlen) + 1))
    else none
  else none

/-- The encoder; the pool it is attached to is shared state and is passed to
every operation. -/
structure poolEncoder where
  buf : Slice
deriving DecidableEq, Repr

/-- Go `NewPoolEncoder`; a nil pool argument (`none`) selects the null pool.
The encoder takes its buffer from `pool.Get()`. -/
def NewPoolEncoder (pool : Option BytePool) (StartCap : Int) (pick : Option Nat) :
    Option poolEncoder × BytePool :=
  (((pool.getD (BytePool.null {})).Get StartCap pick).1.map poolEncoder.mk,
    ((pool.getD (BytePool.null {})).Get StartCap pick).2)

/-- Go `EncodeKV`: `Resize` to `len(buf)+len(key)+1+8`, then `writeCString` at
the old length, then `writeInt64`, each of which may panic; the pool is left
as `Resize` left it. -/
def poolEncoder.EncodeKV (pe : poolEncoder) (pool : BytePool) (key : List Nat) (value : Int)
    (pick : Option Nat) : Option poolEncoder × BytePool :=
  ((pool.Resize pe.buf
      (wrapInt (wrapInt (wrapInt ((pe.buf.len : Int) + key.length) + 1) + 8)) pick).1.bind
    fun buf =>
      (writeCString buf (pe.buf.len : Int) key).bind fun w =>
        (writeInt64 w.1 w.2 value).map fun w2 => poolEncoder.mk w2.1,
    (pool.Resize pe.buf
      (wrapInt (wrapInt (wrapInt ((pe.buf.len : Int) + key.length) + 1) + 8)) pick).2)

/-- Go `Bytes`: the content of the encoder buffer. -/
def poolEncoder.Bytes (pe : poolEncoder) : List Nat := pe.buf.bytes

/-- Go `Release`. -/
def poolEncoder.Release (pe : poolEncoder) (pool : BytePool) : Option BytePool :=
  pool.Put pe.buf

/-! ## Clients of a pool -/

/-- The five implementations. -/
inductive Variant where
  | null | sync | power2 | reserved | leaky
deriving DecidableEq, Repr

/-- The constructor of each implementation (`NewNullPool`, ..., `NewLeakySyncPool`);
`StartCap` is the value of the package variable at that moment. -/
def Variant.new : Variant → Int → BytePool
  | .null, _ => .null NewNullPool
  | .sync, _ => .sync NewSyncPool
  | .power2, _ => .power2 NewPower2Pool
  | .reserved, StartCap => .reserved (NewReservedPool StartCap)
  | .leaky, _ => .leaky NewLeakySyncPool

/-- The implementation behind an interface value. -/
def BytePool.variant : BytePool → Variant
  | .null _ => .null
  | .sync _ => .sync
  | .power2 _ => .power2
  | .reserved _ => .reserved
  | .leaky _ => .leaky

/-- A pool together with the buffers currently owned by its callers. -/
structure Sys where
  pool : BytePool
  held : List Slice
deriving DecidableEq, Repr

/-- What a caller can do: the three interface calls on buffers it owns, and
a store `buf[pos] = v` below the length of a buffer it owns. -/
inductive Op where
  | get (StartCap : Int) (pick : Option Nat)
  | put (i : Nat)
  | resize (i : Nat) (size : Int) (pick : Option Nat)
  | write (i : Nat) (pos : Nat) (v : Nat)
deriving DecidableEq, Repr

/-- One call that returns; `none` when the call panics or is not available.
`Put` and `Resize` consume the buffer passed in. -/
def Sys.step (s : Sys) : Op → Option Sys
  | .get c pick =>
    match (s.pool.Get c pick).1 with
    | none => none
    | some b => some ⟨(s.pool.Get c pick).2, s.held ++ [b]⟩
  | .put i =>
    match s.held[i]? with
    | none => none
    | some b =>
      match s.pool.Put b with
      | none => none
      | some p => some ⟨p, s.held.eraseIdx i⟩
  | .resize i size pick =>
    match s.held[i]? with
    | none => none
    | some b =>
      match (s.pool.Resize b size pick).1 with
      | none => none
      | some r => some ⟨(s.pool.Resize b size pick).2, s.held.set i r⟩
  | .write i pos v =>
    match s.held[i]? with
    | none => none
    | some b =>
      if pos < b.len ∧ v < 256 then
        some ⟨s.pool, s.held.set i { b with arr := b.arr.set pos v }⟩
      else none

/-- A sequence of calls. -/
def Sys.run (s : Sys) : List Op → Option Sys
  | [] => some s
  | op :: ops =>
    match s.step op with
    | none => none
    | some s1 => s1.run ops

/-- States reachable from a new pool of the given implementation. -/
def Reachable (v : Variant) (s : Sys) : Prop :=
  ∃ c ops, Sys.run ⟨v.new c, []⟩ ops = some s

/-- A pool together with the encoders attached to it that are active. -/
structure EncSys where
  pool : BytePool
  encs : List poolEncoder
deriving DecidableEq, Repr

/-- Encoder use: construction, `EncodeKV` and `Release`. -/
inductive EncOp where
  | new (StartCap : Int) (pick : Option Nat)
  | encode (i : Nat) (key : List Nat) (value : Int) (pick : Option Nat)
  | release (i : Nat)
deriving DecidableEq, Repr

def EncSys.step (s : EncSys) : EncOp → Option EncSys
  | .new c pick =>
    match (NewPoolEncoder (some s.pool) c pick).1 with
    | none => none
    | some pe => some ⟨(NewPoolEncoder (some s.pool) c pick).2, s.encs ++ [pe]⟩
  | .encode i key value pick =>
    match s.encs[i]? with
    | none => none
    | some pe =>
      match (pe.EncodeKV s.pool key value pick).1 with
      | none => none
      | some pe1 => some ⟨(pe.EncodeKV s.pool key value pick).2, s.encs.set i pe1⟩
  | .release i =>
    match s.encs[i]? with
    | none => none
    | some pe =>
      match pe.Release s.pool with
      | none => none
      | some p => some ⟨p, s.encs.eraseIdx i⟩

def EncSys.run (s : EncSys) : List EncOp → Option EncSys
  | [] => some s
  | op :: ops =>
    match s.step op with
    | none => none
    | some s1 => s1.run ops

/-- States reachable from a new pool by encoder use. -/
def EncReachable (v : Variant) (s : EncSys) : Prop :=
  ∃ c ops, EncSys.run ⟨v.new c, []⟩ ops = some s

/-- `EncodeKV` of a list of records (key, value, and the decision of
`sync.Pool` during that call), in order. -/
def encodeAll (pe : poolEncoder) (pool : BytePool) :
    List (List Nat × Int × Option Nat) → Option poolEncoder × BytePool
  | [] => (some pe, pool)
  | (key, value, pick) :: rest =>
    match (pe.EncodeKV pool key value pick).1 with
    | none => (none, (pe.EncodeKV pool key value pick).2)
    | some pe1 => encodeAll pe1 (pe.EncodeKV pool key value pick).2 rest

/-- The record format as the specification words it: the key bytes, one zero
byte, the value as 8 bytes little-endian. -/
def recordFormat (key : List Nat) (value : Int) : List Nat :=
  key ++ [0] ++ le64 value

/-- The specified encoding of a list of records: the records concatenated. -/
def encodingFormat : List (List Nat × Int × Option Nat) → List Nat
  | [] => []
  | (key, value, _) :: rest => recordFormat key value ++ encodingFormat rest

/-- Calls on a `ReservedPool` with arbitrary arguments. -/
inductive ROp where
  | get
  | put (bs : Slice)
  | resize (orig : Slice) (size : Int)
deriving DecidableEq, Repr

/-- The pool after a call, also when the call panics. -/
def ReservedPool.after (rp : ReservedPool) : ROp → ReservedPool
  | .get => rp.Get.2
  | .put bs => (rp.Put bs).getD rp
  | .resize orig size => (rp.Resize orig size).2

/-! ## Well-formed values -/

/-- What holds of every Go slice value: the length is within the capacity, and
the capacity within what the runtime allocates. -/
def Slice.WF (s : Slice) : Prop := s.len ≤ s.cap ∧ s.cap ≤ maxAlloc

instance (s : Slice) : Decidable s.WF := by unfold Slice.WF; infer_instance

/-- Buckets of a `Power2Pool` as the constructor and `Put` leave them: 63
buckets, bucket `p` holding buffers of capacity `2^p`. -/
def Power2Pool.Inv (sp : Power2Pool) : Prop :=
  sp.pools.length = 63 ∧
    ∀ p bucket, sp.pools[p]? = some bucket → ∀ b ∈ bucket, b.WF ∧ b.cap = 2 ^ p

/-- Slots of a `ReservedPool`: 20 slots, the count within them, and no stored
buffer above the target capacity. -/
def ReservedPool.Inv (rp : ReservedPool) : Prop :=
  rp.pool.length = 20 ∧ 0 ≤ rp.size ∧ rp.size ≤ 20 ∧ (∀ b ∈ rp.pool, b.WF) ∧
    ∀ b ∈ rp.pool.take rp.size.toNat,
      (b.cap : Int) ≤ rp.targetCap ∧ rp.targetCap ≤ (maxAlloc : Int)

/-- Invariant of the state of a pool. -/
def BytePool.Inv : BytePool → Prop
  | .null _ => True
  | .sync sp => ∀ b ∈ sp.pool, b.WF
  | .power2 sp => sp.Inv
  | .reserved rp => rp.Inv
  | .leaky sp => ∀ b ∈ sp.pool, b.WF

/-- What holds of a buffer a caller has obtained from the pool. -/
def BytePool.Owns : BytePool → Slice → Prop
  | .power2 _, b => b.WF ∧ ∃ k : Nat, b.cap = 2 ^ k
  | .reserved rp, b =>
    b.WF ∧ (b.cap : Int) ≤ rp.targetCap ∧ rp.targetCap ≤ (maxAlloc : Int)
  | _, b => b.WF

/-- Invariant of a pool with its callers. -/
def Sys.Inv (s : Sys) : Prop :=
  s.pool.Inv ∧ ∀ b ∈ s.held, s.pool.Owns b

/-- What the interface promises of `Resize(orig, size) = r`: the length is
`size` and the first `min(len(orig), size)` bytes are those of `orig`. -/
def ResizeOK (orig : Slice) (size : Int) (r : Slice) : Prop :=
  0 ≤ size ∧ (r.len : Int) = size ∧ r.WF ∧
    r.arr.take (min orig.len size.toNat) = orig.arr.take (min orig.len size.toNat)

/-- The bytes between the length and the capacity of a slice are all zero. -/
def Slice.ZeroTail (b : Slice) : Prop := ∀ x ∈ b.arr.drop b.len, x = 0

instance (b : Slice) : Decidable b.ZeroTail := by unfold Slice.ZeroTail; infer_instance

/-- The buffers a pool holds for reuse. -/
def BytePool.stored : BytePool → List Slice
  | .null _ => []
  | .sync sp => sp.pool
  | .power2 sp => sp.pools.flatten
  | .reserved rp => rp.pool
  | .leaky sp => sp.pool

/-- Invariant of a pool with its encoders. -/
def EncSys.Inv (s : EncSys) : Prop :=
  s.pool.Inv ∧ ∀ pe ∈ s.encs, s.pool.Owns pe.buf

/-- Head room of a `ReservedPool` for the buffer of one encoder: doubling the
target capacity stays within what the runtime allocates, or the buffer already
has the target capacity. -/
def BytePool.Roomy : BytePool → Slice → Prop
  | .reserved rp, b => rp.targetCap * 2 ≤ (maxAlloc : Int) ∨ rp.targetCap ≤ (b.cap : Int)
  | _, _ => True

/-- Doubling the target capacity of a `ReservedPool` stays within what the
runtime allocates (nothing to ask of the other variants). -/
def BytePool.CanDouble : BytePool → Prop
  | .reserved rp => rp.targetCap * 2 ≤ (maxAlloc : Int)
  | _ => True

/-- The capacity a growing `Resize` asks the runtime for is one it grants
(for `Power2Pool`, which allocates the power of two above `size`: `size` is). -/
def BytePool.CanGrow : BytePool → Slice → Int → Prop
  | .null _, orig, size => max size (wrapInt ((orig.cap : Int) * 2)) ≤ (maxAlloc : Int)
  | .sync _, orig, size => max size (wrapInt ((orig.cap : Int) * 2)) ≤ (maxAlloc : Int)
  | .leaky _, orig, size => max size (wrapInt ((orig.cap : Int) * 2)) ≤ (maxAlloc : Int)
  | .reserved rp, _, size => max size (wrapInt (rp.targetCap * 2)) ≤ (maxAlloc : Int)
  | .power2 _, _, size => size ≤ (maxAlloc : Int)

/-- The allocation `Get` makes when it has nothing to recycle is one the
runtime grants, and the pool has the shape its constructor gave it. -/
def BytePool.CanGet : BytePool → Int → Prop
  | .null _, StartCap => 0 ≤ StartCap ∧ StartCap ≤ (maxAlloc : Int)
  | .sync _, StartCap => 0 ≤ StartCap ∧ StartCap ≤ (maxAlloc : Int)
  | .leaky _, StartCap => 0 ≤ StartCap ∧ StartCap ≤ (maxAlloc : Int)
  | .power2 sp, StartCap =>
    sp.pools.length = 63 ∧ 1 ≤ StartCap ∧ StartCap ≤ (maxAlloc : Int)
  | .reserved rp, _ =>
    rp.pool.length = 20 ∧ 0 ≤ rp.size ∧ rp.size ≤ 20 ∧
      0 ≤ rp.targetCap ∧ rp.targetCap ≤ (maxAlloc : Int)

instance (pool : BytePool) (orig : Slice) (size : Int) : Decidable (pool.CanGrow orig size) := by
  cases pool <;> unfold BytePool.CanGrow <;> infer_instance

instance (pool : BytePool) : Decidable pool.CanDouble := by
  cases pool <;> unfold BytePool.CanDouble <;> infer_instance

instance (pool : BytePool) (StartCap : Int) : Decidable (pool.CanGet StartCap) := by
  cases pool <;> unfold BytePool.CanGet <;> infer_instance

/-- One call, whether it returns or panics. A call that panics leaves the pool
in the state the code had written by then (`ReservedPool.Resize` has stored the
new `targetCap` before it allocates) and the caller with the buffers it had; a
call on a buffer the caller does not have, or a store outside the length,
changes nothing. -/
def Sys.after (s : Sys) : Op → Sys
  | .get c pick =>
    match (s.pool.Get c pick).1 with
    | none => ⟨(s.pool.Get c pick).2, s.held⟩
    | some b => ⟨(s.pool.Get c pick).2, s.held ++ [b]⟩
  | .put i =>
    match s.held[i]? with
    | none => s
    | some b =>
      match s.pool.Put b with
      | none => s
      | some p => ⟨p, s.held.eraseIdx i⟩
  | .resize i size pick =>
    match s.held[i]? with
    | none => s
    | some b =>
      match (s.pool.Resize b size pick).1 with
      | none => ⟨(s.pool.Resize b size pick).2, s.held⟩
      | some r => ⟨(s.pool.Resize b size pick).2, s.held.set i r⟩
  | .write i pos v =>
    match s.held[i]? with
    | none => s
    | some b =>
      if pos < b.len ∧ v < 256 then
        ⟨s.pool, s.held.set i { b with arr := b.arr.set pos v }⟩
      else s

/-- A sequence of calls, each returning or panicking. -/
def Sys.afterAll (s : Sys) : List Op → Sys
  | [] => s
  | op :: ops => (s.after op).afterAll ops

/-- The target capacity of a `ReservedPool` is below `2^62`, so that the product
`targetCap * 2` that `Resize` computes does not exceed the largest 64-bit `int`
(the other variants keep no such number in their state). -/
def BytePool.Fits : BytePool → Prop
  | .reserved rp => rp.targetCap < 4611686018427387904
  | _ => True

instance (pool : BytePool) : Decidable pool.Fits := by
  cases pool <;> unfold BytePool.Fits <;> infer_instance

/-- The pool satisfies `BytePool.Fits` in every state a sequence of calls passes
through, the first and the last included. -/
def Sys.FitsAlong (s : Sys) : List Op → Prop
  | [] => s.pool.Fits
  | op :: ops => s.pool.Fits ∧ (s.after op).FitsAlong ops

/-- Invariant of `Power2Pool` and `ReservedPool` states that calls which panic
keep as well: the buckets of a `Power2Pool` as in `Power2Pool.Inv`; for a
`ReservedPool` 20 slots, the count within them, and no stored buffer above the
target capacity (which may itself be above what the runtime allocates). -/
def BytePool.LooseInv : BytePool → Prop
  | .power2 sp => sp.Inv
  | .reserved rp =>
    rp.pool.length = 20 ∧ 0 ≤ rp.size ∧ rp.size ≤ 20 ∧ (∀ b ∈ rp.pool, b.WF) ∧
      ∀ b ∈ rp.pool.take rp.size.toNat, (b.cap : Int) ≤ rp.targetCap
  | _ => True

/-- What holds of a buffer obtained from a `Power2Pool` or a `ReservedPool`,
also after calls that panicked. -/
def BytePool.LooseOwns : BytePool → Slice → Prop
  | .power2 _, b => b.WF ∧ ∃ k : Nat, b.cap = 2 ^ k
  | .reserved rp, b => b.WF ∧ (b.cap : Int) ≤ rp.targetCap
  | _, _ => True

/-- The invariant `BytePool.LooseInv` of a pool with its callers. -/
def Sys.LooseInv (s : Sys) : Prop :=
  s.pool.LooseInv ∧ ∀ b ∈ s.held, s.pool.LooseOwns b

instance Sys.decFitsAlong : (ops : List Op) → (s : Sys) → Decidable (s.FitsAlong ops)
  | [], s => inferInstanceAs (Decidable s.pool.Fits)
  | op :: ops, s =>
    @instDecidableAnd _ _ (inferInstanceAs (Decidable s.pool.Fits))
      (Sys.decFitsAlong ops (s.after op))

/-! ## Facts about the primitives -/

theorem wrapInt_of_range (x : Int) (h1 : -9223372036854775808 ≤ x)
    (h2 : x < 9223372036854775808) : wrapInt x = x := by
  unfold wrapInt; omega

theorem max_eq (x y : Int) : max x y = Max.max x y := by
  unfold max; split <;> omega

theorem make_eq_some (len cap : Int) (s : Slice) (h : make len cap = some s) :
    0 ≤ len ∧ len ≤ cap ∧ cap ≤ (maxAlloc : Int) ∧
      s = ⟨List.replicate cap.toNat 0, len.toNat⟩ := by
  unfold make at h
  split at h
  · rename_i hc
    simp only [Option.some.injEq] at h
    exact ⟨hc.1, hc.2.1, hc.2.2, h.symm⟩
  · simp at h

theorem make_of_le (len cap : Int) (h0 : 0 ≤ len) (h1 : len ≤ cap)
    (h2 : cap ≤ (maxAlloc : Int)) :
    make len cap = some ⟨List.replicate cap.toNat 0, len.toNat⟩ := by
  unfold make; rw [if_pos ⟨h0, h1, h2⟩]

theorem reslice_eq_some (s : Slice) (size : Int) (r : Slice) (h : reslice s size = some r) :
    0 ≤ size ∧ size ≤ (s.cap : Int) ∧ r = { s with len := size.toNat } := by
  unfold reslice at h
  split at h
  · rename_i hc
    simp only [Option.some.injEq] at h
    exact ⟨hc.1, hc.2, h.symm⟩
  · simp at h

theorem reslice_of_le (s : Slice) (size : Int) (h0 : 0 ≤ size) (h1 : size ≤ (s.cap : Int)) :
    reslice s size = some { s with len := size.toNat } := by
  unfold reslice; rw [if_pos ⟨h0, h1⟩]

theorem copy_len (dst src : Slice) : (copy dst src).len = dst.len := rfl

theorem copy_cap (dst src : Slice) (hd : dst.len ≤ dst.cap) (hs : src.len ≤ src.cap) :
    (copy dst src).cap = dst.cap := by
  unfold copy Slice.cap at *
  simp only [List.length_append, List.length_take, List.length_drop]
  omega

theorem zeroRange_len (b : Slice) : (zeroRange b).len = b.len := rfl

theorem zeroRange_cap (b : Slice) (h : b.len ≤ b.cap) : (zeroRange b).cap = b.cap := by
  unfold zeroRange Slice.cap at *
  simp only [List.length_append, List.length_replicate, List.length_drop]
  omega

theorem store_length (arr : List Nat) (off : Nat) (bs : List Nat)
    (h : off + bs.length ≤ arr.length) : (store arr off bs).length = arr.length := by
  unfold store
  simp only [List.length_append, List.length_take, List.length_drop]
  omega

theorem store_take (arr : List Nat) (off : Nat) (bs : List Nat) (h : off ≤ arr.length) :
    (store arr off bs).take (off + bs.length) = arr.take off ++ bs := by
  unfold store
  have h1 : (arr.take off ++ bs).length = off + bs.length := by
    simp only [List.length_append, List.length_take]; omega
  rw [← h1, List.take_left]

/-! ## `powerOfTwo` -/

theorem bitsLenAux_spec (fuel : Nat) : ∀ x : Nat, x < 2 ^ fuel →
    x < 2 ^ bitsLenAux fuel x ∧ (0 < x → 2 ^ bitsLenAux fuel x ≤ 2 * x) := by
  induction fuel with
  | zero =>
    intro x hx
    have : x = 0 := by simpa using hx
    subst this
    simp [bitsLenAux]
  | succ n ih =>
    intro x hx
    unfold bitsLenAux
    by_cases h0 : x = 0
    · subst h0; simp
    · rw [if_neg h0]
      have hlt : x / 2 < 2 ^ n := by
        rw [Nat.pow_succ] at hx; omega
      obtain ⟨h1, h2⟩ := ih (x / 2) hlt
      rw [Nat.pow_succ]
      constructor
      · omega
      · intro _
        by_cases hh : 0 < x / 2
        · have := h2 hh; omega
        · have hx1 : x / 2 = 0 := by omega
          have hz : bitsLenAux n 0 = 0 := by cases n <;> simp [bitsLenAux]
          rw [hx1, hz]; simp; omega

theorem toUint_pred (n : Int) (h1 : 1 ≤ n) (h2 : n ≤ 9223372036854775808) :
    toUint (wrapInt (n - 1)) = (n - 1).toNat := by
  rw [wrapInt_of_range _ (by omega) (by omega)]
  unfold toUint
  congr 1
  omega

/-- For `1 ≤ n ≤ 2^63` the result `p` is the least exponent with `n ≤ 2^p`. -/
theorem powerOfTwo_spec (n : Int) (h1 : 1 ≤ n) (h2 : n ≤ 9223372036854775808) :
    n ≤ 2 ^ powerOfTwo n ∧ (2 ≤ n → (2 : Int) ^ powerOfTwo n < 2 * n) ∧
      (n = 1 → powerOfTwo n = 0) := by
  unfold powerOfTwo bitsLen
  rw [toUint_pred n h1 h2]
  have hlt : (n - 1).toNat < 2 ^ 64 := by omega
  obtain ⟨ha, hb⟩ := bitsLenAux_spec 64 _ hlt
  refine ⟨?_, ?_, ?_⟩
  rotate_right
  · intro h
    subst h
    simp [bitsLenAux]
  all_goals generalize bitsLenAux 64 (n - 1).toNat = p at ha hb
  · have : ((n - 1).toNat : Int) < ((2 ^ p : Nat) : Int) := by exact_mod_cast ha
    push_cast at this
    omega
  · intro h
    have h3 := hb (by omega)
    have : ((2 ^ p : Nat) : Int) ≤ ((2 * (n - 1).toNat : Nat) : Int) := by exact_mod_cast h3
    push_cast at this
    omega

/-! ## In-place and growing `Resize` -/

theorem BytePool.Resize_of_lt (pool : BytePool) (orig : Slice) (size : Int)
    (pick : Option Nat) (h0 : 0 ≤ size) (h1 : size < (orig.cap : Int)) :
    pool.Resize orig size pick = (some { orig with len := size.toNat }, pool) := by
  have hr := reslice_of_le orig size h0 (by omega)
  cases pool <;>
    simp [BytePool.Resize, NullPool.Resize, SyncPool.Resize, Power2Pool.Resize,
      ReservedPool.Resize, LeakySyncPool.Resize, h1, hr]

/-- C6 (amended): for every pool variant and pool state, every buffer `orig`
and every `size` with `0 ≤ size < cap(orig)`, `Resize(orig, size)` does not
reallocate: it returns the same backing storage with only the length changed
to `size`, and it leaves the state of the pool unchanged. -/
theorem Resize_in_place (pool : BytePool) (orig : Slice) (size : Int) (pick : Option Nat)
    (h0 : 0 ≤ size) (h1 : size < (orig.cap : Int)) :
    pool.Resize orig size pick = (some { orig with len := size.toNat }, pool) :=
  BytePool.Resize_of_lt pool orig size pick h0 h1

/-- Witness of `Resize_in_place`: shrinking a buffer of capacity 4 held with
length 3 to length 2 on a `SyncPool`. -/
theorem Resize_in_place_witness :
    (BytePool.sync NewSyncPool).Resize ⟨[1, 2, 3, 0], 3⟩ 2 none =
      (some ⟨[1, 2, 3, 0], 2⟩, BytePool.sync NewSyncPool) :=
  Resize_in_place (BytePool.sync NewSyncPool) ⟨[1, 2, 3, 0], 3⟩ 2 none (by decide) (by decide)

/-- C6 (counterexample): at `size = cap(orig)` the call is not served in place.
A full buffer of capacity 4 resized to 4 comes back on new storage of capacity
8, and on a `SyncPool` the old buffer has entered the pool. -/
theorem Resize_at_cap_reallocates :
    (4 : Int) ≤ ((Slice.cap ⟨[7, 7, 7, 7], 4⟩ : Nat) : Int) ∧
    (BytePool.null NewNullPool).Resize ⟨[7, 7, 7, 7], 4⟩ 4 none =
      (some ⟨[7, 7, 7, 7, 0, 0, 0, 0], 4⟩, BytePool.null NewNullPool) ∧
    (BytePool.sync NewSyncPool).Resize ⟨[7, 7, 7, 7], 4⟩ 4 none =
      (some ⟨[7, 7, 7, 7, 0, 0, 0, 0], 4⟩, BytePool.sync ⟨[⟨[7, 7, 7, 7], 4⟩]⟩) := by
  decide

theorem grow_cap_exact (orig : Slice) (size : Int) (r : Slice) (hwf : orig.WF)
    (h : (match make size (max size (wrapInt ((orig.cap : Int) * 2))) with
      | none => none
      | some temp => some (copy temp orig)) = some r) :
    (r.cap : Int) = Max.max size (2 * (orig.cap : Int)) := by
  have hcap : (orig.cap : Int) ≤ 281474976710656 := by
    have := hwf.2; unfold maxAlloc at this; exact_mod_cast this
  rw [wrapInt_of_range _ (by omega) (by omega), max_eq] at h
  cases hm : make size (Max.max size ((orig.cap : Int) * 2)) with
  | none => rw [hm] at h; simp at h
  | some temp =>
    rw [hm] at h
    simp only [Option.some.injEq] at h
    obtain ⟨h0, h1, _, ht⟩ := make_eq_some _ _ _ hm
    subst h
    rw [copy_cap _ _ (by subst ht; simp [Slice.cap]; omega) hwf.1]
    subst ht
    simp only [Slice.cap, List.length_replicate]
    omega

theorem grow_returns (orig : Slice) (size : Int) (hwf : orig.WF)
    (hge : (orig.cap : Int) ≤ size)
    (halloc : Max.max size (2 * (orig.cap : Int)) ≤ (maxAlloc : Int)) :
    ∃ temp, make size (max size (wrapInt ((orig.cap : Int) * 2))) = some temp := by
  have hcap : (orig.cap : Int) ≤ 281474976710656 := by
    have := hwf.2; unfold maxAlloc at this; exact_mod_cast this
  rw [wrapInt_of_range _ (by omega) (by omega), max_eq]
  exact ⟨_, make_of_le _ _ (by omega) (by omega) (by omega)⟩

/-- C7: for `NullPool`, `SyncPool` and `LeakySyncPool`, every buffer `orig` and
every `size` that `Resize` does not serve in place (`cap(orig) ≤ size`): the
buffer returned has capacity exactly `max(size, 2 * cap(orig))`; and the call
does return whenever that capacity is one the runtime allocates. -/
theorem Resize_grow_cap_exact (sp : SyncPool) (orig : Slice) (size : Int) (hwf : orig.WF)
    (hge : (orig.cap : Int) ≤ size) :
    (∀ r, NewNullPool.Resize orig size = some r →
        (r.cap : Int) = Max.max size (2 * (orig.cap : Int))) ∧
    (∀ r, (sp.Resize orig size).1 = some r →
        (r.cap : Int) = Max.max size (2 * (orig.cap : Int))) ∧
    (∀ r, (LeakySyncPool.mk sp.pool).Resize orig size = some r →
        (r.cap : Int) = Max.max size (2 * (orig.cap : Int))) ∧
    (Max.max size (2 * (orig.cap : Int)) ≤ (maxAlloc : Int) →
      ∃ r, NewNullPool.Resize orig size = some r ∧ (sp.Resize orig size).1 = some r ∧
        (LeakySyncPool.mk sp.pool).Resize orig size = some r) := by
  have hnlt : ¬ size < (orig.cap : Int) := by omega
  refine ⟨?_, ?_, ?_, ?_⟩
  · intro r h
    unfold NullPool.Resize at h
    rw [if_neg hnlt] at h
    exact grow_cap_exact orig size r hwf h
  · intro r h
    unfold SyncPool.Resize at h
    rw [if_neg hnlt] at h
    apply grow_cap_exact orig size r hwf
    cases hm : make size (max size (wrapInt ((orig.cap : Int) * 2))) with
    | none => rw [hm] at h; simp at h
    | some temp => rw [hm] at h; simpa using h
  · intro r h
    unfold LeakySyncPool.Resize at h
    rw [if_neg hnlt] at h
    exact grow_cap_exact orig size r hwf h
  · intro halloc
    obtain ⟨temp, ht⟩ := grow_returns orig size hwf hge halloc
    refine ⟨copy temp orig, ?_, ?_, ?_⟩
    · unfold NullPool.Resize; rw [if_neg hnlt, ht]
    · unfold SyncPool.Resize; rw [if_neg hnlt, ht]
    · unfold LeakySyncPool.Resize; rw [if_neg hnlt, ht]

/-- Witness of `Resize_grow_cap_exact`: a full buffer of capacity 4 resized to
5 comes back with capacity 8. -/
theorem Resize_grow_cap_exact_witness :
    ∃ r, NewNullPool.Resize ⟨[1, 2, 3, 4], 4⟩ 5 = some r ∧ (r.cap : Int) = 8 := by
  have h := Resize_grow_cap_exact ⟨[]⟩ ⟨[1, 2, 3, 4], 4⟩ 5 (by decide) (by decide)
  obtain ⟨r, h1, _, _⟩ := h.2.2.2 (by decide)
  exact ⟨r, h1, by have := h.1 r h1; simpa [Slice.cap] using this⟩

/-! ## `ReservedPool`: the number of stored buffers -/

theorem ReservedPool.Get_bounds (rp : ReservedPool)
    (h : rp.pool.length = 20 ∧ 0 ≤ rp.size ∧ rp.size ≤ 20) :
    rp.Get.2.pool.length = 20 ∧ 0 ≤ rp.Get.2.size ∧ rp.Get.2.size ≤ 20 := by
  obtain ⟨hl, h0, h20⟩ := h
  unfold ReservedPool.Get
  by_cases hz : rp.size = 0
  · simp [hz, hl]
  · have hw : wrapInt (rp.size - 1) = rp.size - 1 :=
      wrapInt_of_range _ (by omega) (by omega)
    simp only [hz, if_false, hw, hl]
    split
    · split
      · exact ⟨hl, h0, h20⟩
      · simp only [List.length_set]
        exact ⟨hl, by omega, by omega⟩
    · exact ⟨hl, h0, h20⟩

theorem ReservedPool.Put_bounds (rp : ReservedPool) (bs : Slice)
    (h : rp.pool.length = 20 ∧ 0 ≤ rp.size ∧ rp.size ≤ 20) :
    ((rp.Put bs).getD rp).pool.length = 20 ∧ 0 ≤ ((rp.Put bs).getD rp).size ∧
      ((rp.Put bs).getD rp).size ≤ 20 := by
  obtain ⟨hl, h0, h20⟩ := h
  unfold ReservedPool.Put
  by_cases hc : (bs.cap : Int) < rp.targetCap ∨ rp.size = (rp.pool.length : Int)
  · rw [if_pos hc]; exact ⟨hl, h0, h20⟩
  · rw [if_neg hc]
    have hne : rp.size ≠ 20 := by
      intro he; apply hc; right; rw [hl]; exact_mod_cast he
    have hw : wrapInt (rp.size + 1) = rp.size + 1 :=
      wrapInt_of_range _ (by omega) (by omega)
    have hlt : 0 ≤ rp.size ∧ rp.size < (rp.pool.length : Int) := by
      rw [hl]; exact ⟨h0, by omega⟩
    rw [if_pos hlt]
    simp only [Option.getD_some, List.length_set, hw]
    exact ⟨hl, by omega, by omega⟩

theorem ReservedPool.Resize_bounds (rp : ReservedPool) (orig : Slice) (size : Int) :
    (rp.Resize orig size).2.pool = rp.pool ∧ (rp.Resize orig size).2.size = rp.size := by
  unfold ReservedPool.Resize
  split
  · exact ⟨rfl, rfl⟩
  · dsimp only
    split <;> exact ⟨rfl, rfl⟩

theorem ReservedPool.after_bounds (rp : ReservedPool) (op : ROp)
    (h : rp.pool.length = 20 ∧ 0 ≤ rp.size ∧ rp.size ≤ 20) :
    (rp.after op).pool.length = 20 ∧ 0 ≤ (rp.after op).size ∧ (rp.after op).size ≤ 20 := by
  cases op with
  | get => exact ReservedPool.Get_bounds rp h
  | put bs => exact ReservedPool.Put_bounds rp bs h
  | resize orig size =>
    show (rp.Resize orig size).2.pool.length = 20 ∧ 0 ≤ (rp.Resize orig size).2.size ∧
      (rp.Resize orig size).2.size ≤ 20
    rw [(ReservedPool.Resize_bounds rp orig size).1, (ReservedPool.Resize_bounds rp orig size).2]
    exact h

theorem ReservedPool.foldl_bounds (ops : List ROp) : ∀ rp : ReservedPool,
    (rp.pool.length = 20 ∧ 0 ≤ rp.size ∧ rp.size ≤ 20) →
    0 ≤ (ops.foldl ReservedPool.after rp).size ∧ (ops.foldl ReservedPool.after rp).size ≤ 20 := by
  induction ops with
  | nil => intro rp h; exact h.2
  | cons op ops ih => intro rp h; exact ih _ (ReservedPool.after_bounds rp op h)

/-- C10: in every state reached from `NewReservedPool` by any sequence of
`Get`, `Put` and `Resize` calls with any buffers and sizes (a call that panics
included), the `size` field is between 0 and the slot count 20. -/
theorem ReservedPool_size_bounds (StartCap : Int) (ops : List ROp) :
    0 ≤ (ops.foldl ReservedPool.after (NewReservedPool StartCap)).size ∧
      (ops.foldl ReservedPool.after (NewReservedPool StartCap)).size ≤ 20 :=
  ReservedPool.foldl_bounds ops _ (by simp [NewReservedPool])

/-! ## `Get` -/

theorem syncGet_cases (items : List Slice) (pick : Option Nat) :
    syncGet items pick = (none, items) ∨
      ∃ i b, items[i]? = some b ∧ syncGet items pick = (some b, items.eraseIdx i) := by
  unfold syncGet
  cases pick with
  | none => left; rfl
  | some i =>
    cases h : items[i]? with
    | none => left; simp only [h]
    | some b => right; exact ⟨i, b, h, by simp only [h]⟩

theorem make_zero_len (c : Int) (b : Slice) (h : make 0 c = some b) :
    b.len = 0 ∧ (b.cap : Int) = c ∧ b.WF ∧ ∀ x ∈ b.arr, x = 0 := by
  obtain ⟨_, h1, h2, hb⟩ := make_eq_some _ _ _ h
  subst hb
  refine ⟨rfl, ?_, ⟨?_, ?_⟩, ?_⟩
  · simp only [Slice.cap, List.length_replicate]; omega
  · simp [Slice.cap]
  · simp only [Slice.cap, List.length_replicate]
    have : (c.toNat : Int) ≤ (maxAlloc : Int) := by omega
    exact_mod_cast this
  · intro x hx
    exact (List.mem_replicate.mp hx).2

theorem recycle_eq (buf : Slice) :
    reslice (zeroRange buf) 0 = some { zeroRange buf with len := 0 } := by
  unfold reslice
  rw [if_pos ⟨le_refl _, by omega⟩]
  rfl

theorem powerOfTwo_le (n : Int) (k : Nat) (h1 : 1 ≤ n) (hk : k ≤ 62) (h2 : n ≤ 2 ^ k) :
    powerOfTwo n ≤ k := by
  have hk2 : (2 : Int) ^ k ≤ 2 ^ 62 := by
    have : (2 : Nat) ^ k ≤ 2 ^ 62 := Nat.pow_le_pow_right (by omega) hk
    exact_mod_cast this
  obtain ⟨_, hb, hc⟩ := powerOfTwo_spec n h1 (by norm_num at hk2; omega)
  by_cases hn : n = 1
  · rw [hc hn]; omega
  · by_contra hlt
    have h3 := hb (by omega)
    have h4 : (2 : Int) ^ (k + 1) ≤ 2 ^ powerOfTwo n := by
      have : (2 : Nat) ^ (k + 1) ≤ 2 ^ powerOfTwo n := Nat.pow_le_pow_right (by omega) (by omega)
      exact_mod_cast this
    rw [pow_succ] at h4
    omega

theorem powerOfTwo_gt (n : Int) (k : Nat) (h1 : 2 ^ k < n) (h2 : n ≤ 9223372036854775808) :
    k < powerOfTwo n := by
  have hpos : (0 : Int) < 2 ^ k := by positivity
  obtain ⟨ha, _, _⟩ := powerOfTwo_spec n (by omega) h2
  by_contra hle
  have : (2 : Int) ^ powerOfTwo n ≤ 2 ^ k := by
    have : (2 : Nat) ^ powerOfTwo n ≤ 2 ^ k := Nat.pow_le_pow_right (by omega) (by omega)
    exact_mod_cast this
  omega

theorem powerOfTwo_pow (k : Nat) (hk : k ≤ 62) : powerOfTwo (2 ^ k) = k := by
  have hpos : (1 : Int) ≤ 2 ^ k := by
    have : (1 : Nat) ≤ 2 ^ k := Nat.one_le_two_pow
    exact_mod_cast this
  have h1 := powerOfTwo_le (2 ^ k) k hpos hk (le_refl _)
  have hk2 : (2 : Int) ^ k ≤ 2 ^ 62 := by
    have : (2 : Nat) ^ k ≤ 2 ^ 62 := Nat.pow_le_pow_right (by omega) hk
    exact_mod_cast this
  obtain ⟨ha, _, _⟩ := powerOfTwo_spec (2 ^ k) hpos (by norm_num at hk2; omega)
  have h2 : k ≤ powerOfTwo (2 ^ k) := by
    by_contra hlt
    have : (2 : Int) ^ (powerOfTwo (2 ^ k) + 1) ≤ 2 ^ k := by
      have : (2 : Nat) ^ (powerOfTwo (2 ^ k) + 1) ≤ 2 ^ k :=
        Nat.pow_le_pow_right (by omega) (by omega)
      exact_mod_cast this
    rw [pow_succ] at this
    have hp : (0 : Int) < 2 ^ powerOfTwo (2 ^ k) := by positivity
    omega
  omega

theorem shiftOne_eq (p : Nat) (hp : p ≤ 62) : shiftOne p = 2 ^ p := by
  unfold shiftOne
  have h1 : (2 : Int) ^ p ≤ 2 ^ 62 := by
    have : (2 : Nat) ^ p ≤ 2 ^ 62 := Nat.pow_le_pow_right (by omega) hp
    exact_mod_cast this
  have h2 : (0 : Int) < 2 ^ p := by positivity
  exact wrapInt_of_range _ (by omega) (by norm_num at h1; omega)

theorem SyncPool.sync_Get_cases (sp : SyncPool) (c : Int) (pick : Option Nat) :
    sp.Get c pick = (make 0 c, sp) ∨
      ∃ i buf, sp.pool[i]? = some buf ∧
        sp.Get c pick = (some { zeroRange buf with len := 0 }, ⟨sp.pool.eraseIdx i⟩) := by
  unfold SyncPool.Get
  rcases syncGet_cases sp.pool pick with h | ⟨i, b, hb, h⟩
  · left; simp only [h]
  · right; exact ⟨i, b, hb, by simp only [h, recycle_eq]⟩

theorem LeakySyncPool.leaky_Get_cases (sp : LeakySyncPool) (c : Int) (pick : Option Nat) :
    sp.Get c pick = (make 0 c, sp) ∨
      ∃ i buf, sp.pool[i]? = some buf ∧
        sp.Get c pick = (some { zeroRange buf with len := 0 }, ⟨sp.pool.eraseIdx i⟩) := by
  unfold LeakySyncPool.Get
  rcases syncGet_cases sp.pool pick with h | ⟨i, b, hb, h⟩
  · left; simp only [h]
  · right; exact ⟨i, b, hb, by simp only [h, recycle_eq]⟩

theorem Power2Pool.getn_cases (sp : Power2Pool) (n : Int) (pick : Option Nat) :
    (sp.pools[powerOfTwo n]? = none ∧ sp.getn n pick = (none, sp)) ∨
      ∃ bucket, sp.pools[powerOfTwo n]? = some bucket ∧
        (sp.getn n pick = (make 0 (shiftOne (powerOfTwo n)), sp) ∨
          ∃ i buf, bucket[i]? = some buf ∧
            sp.getn n pick = (some { zeroRange buf with len := 0 },
              ⟨sp.pools.set (powerOfTwo n) (bucket.eraseIdx i)⟩)) := by
  cases hb : sp.pools[powerOfTwo n]? with
  | none => left; exact ⟨rfl, by simp only [Power2Pool.getn, hb]⟩
  | some bucket =>
    right
    refine ⟨bucket, rfl, ?_⟩
    rcases syncGet_cases bucket pick with h | ⟨i, b, hb2, h⟩
    · left; simp only [Power2Pool.getn, hb, h]
    · right; exact ⟨i, b, hb2, by simp only [Power2Pool.getn, hb, h, recycle_eq]⟩

theorem ReservedPool.reserved_Get_cases (rp : ReservedPool) :
    (rp.size = 0 ∧ rp.Get = (make 0 rp.targetCap, rp)) ∨
    (rp.size ≠ 0 ∧ rp.Get = (none, rp)) ∨
    (rp.size ≠ 0 ∧ 0 ≤ wrapInt (rp.size - 1) ∧
      wrapInt (rp.size - 1) < (rp.pool.length : Int) ∧
      ∃ buf, rp.pool[(wrapInt (rp.size - 1)).toNat]? = some buf ∧
        rp.Get = (some { zeroRange buf with len := 0 },
          { rp with pool := rp.pool.set (wrapInt (rp.size - 1)).toNat nilSlice,
                    size := wrapInt (rp.size - 1) })) := by
  unfold ReservedPool.Get
  by_cases hz : rp.size = 0
  · left; exact ⟨hz, by rw [if_pos hz]⟩
  · right
    rw [if_neg hz]
    dsimp only
    by_cases hi : 0 ≤ wrapInt (rp.size - 1) ∧ wrapInt (rp.size - 1) < (rp.pool.length : Int)
    · rw [if_pos hi]
      cases hb : rp.pool[(wrapInt (rp.size - 1)).toNat]? with
      | none => left; exact ⟨hz, rfl⟩
      | some buf => right; exact ⟨hz, hi.1, hi.2, buf, rfl, by simp only [recycle_eq]⟩
    · left; rw [if_neg hi]; exact ⟨hz, rfl⟩

theorem BytePool.Get_len (pool : BytePool) (c : Int) (pick : Option Nat) (b : Slice)
    (h : (pool.Get c pick).1 = some b) : b.len = 0 := by
  cases pool with
  | null np => exact (make_zero_len c b h).1
  | sync sp =>
    simp only [BytePool.Get] at h
    rcases sp.sync_Get_cases c pick with hg | ⟨i, buf, _, hg⟩ <;> rw [hg] at h
    · exact (make_zero_len c b h).1
    · simp only [Option.some.injEq] at h; subst h; rfl
  | leaky sp =>
    simp only [BytePool.Get] at h
    rcases sp.leaky_Get_cases c pick with hg | ⟨i, buf, _, hg⟩ <;> rw [hg] at h
    · exact (make_zero_len c b h).1
    · simp only [Option.some.injEq] at h; subst h; rfl
  | power2 sp =>
    simp only [BytePool.Get, Power2Pool.Get] at h
    rcases sp.getn_cases c pick with ⟨_, hg⟩ | ⟨bucket, _, hg | ⟨i, buf, _, hg⟩⟩ <;> rw [hg] at h
    · simp at h
    · exact (make_zero_len _ b h).1
    · simp only [Option.some.injEq] at h; subst h; rfl
  | reserved rp =>
    simp only [BytePool.Get] at h
    rcases rp.reserved_Get_cases with ⟨_, hg⟩ | ⟨_, hg⟩ | ⟨_, _, _, buf, _, hg⟩ <;> rw [hg] at h
    · exact (make_zero_len _ b h).1
    · simp at h
    · simp only [Option.some.injEq] at h; subst h; rfl

theorem BytePool.Get_returns (pool : BytePool) (c : Int) (pick : Option Nat)
    (h : pool.CanGet c) : ∃ b, (pool.Get c pick).1 = some b := by
  cases pool with
  | null np =>
    exact ⟨_, make_of_le 0 c (le_refl _) h.1 h.2⟩
  | sync sp =>
    simp only [BytePool.Get]
    rcases sp.sync_Get_cases c pick with hg | ⟨i, buf, _, hg⟩ <;> rw [hg]
    · exact ⟨_, make_of_le 0 c (le_refl _) h.1 h.2⟩
    · exact ⟨_, rfl⟩
  | leaky sp =>
    simp only [BytePool.Get]
    rcases sp.leaky_Get_cases c pick with hg | ⟨i, buf, _, hg⟩ <;> rw [hg]
    · exact ⟨_, make_of_le 0 c (le_refl _) h.1 h.2⟩
    · exact ⟨_, rfl⟩
  | power2 sp =>
    obtain ⟨hl, h1, h2⟩ := h
    have hp : powerOfTwo c ≤ 48 :=
      powerOfTwo_le c 48 h1 (by omega) (by unfold maxAlloc at h2; norm_num; exact_mod_cast h2)
    simp only [BytePool.Get, Power2Pool.Get]
    rcases sp.getn_cases c pick with ⟨hn, _⟩ | ⟨bucket, _, hg | ⟨i, buf, _, hg⟩⟩
    · rw [List.getElem?_eq_none_iff] at hn; omega
    · rw [hg, shiftOne_eq _ (by omega)]
      have h3 : (2 : Int) ^ powerOfTwo c ≤ 2 ^ 48 := by
        have : (2 : Nat) ^ powerOfTwo c ≤ 2 ^ 48 := Nat.pow_le_pow_right (by omega) hp
        exact_mod_cast this
      exact ⟨_, make_of_le 0 _ (le_refl _) (by positivity)
        (by unfold maxAlloc; norm_num at h3 ⊢; exact h3)⟩
    · rw [hg]; exact ⟨_, rfl⟩
  | reserved rp =>
    obtain ⟨hl, h0, h20, ht0, ht1⟩ := h
    simp only [BytePool.Get]
    rcases rp.reserved_Get_cases with ⟨_, hg⟩ | ⟨hz, hg⟩ | ⟨_, _, _, buf, _, hg⟩
    · rw [hg]; exact ⟨_, make_of_le 0 _ (le_refl _) ht0 ht1⟩
    · exfalso
      have hw : wrapInt (rp.size - 1) = rp.size - 1 :=
        wrapInt_of_range _ (by omega) (by omega)
      have hi : 0 ≤ wrapInt (rp.size - 1) ∧ wrapInt (rp.size - 1) < (rp.pool.length : Int) := by
        rw [hw, hl]; omega
      have hlt : (wrapInt (rp.size - 1)).toNat < rp.pool.length := by
        rw [hw, hl]; omega
      unfold ReservedPool.Get at hg
      rw [if_neg hz] at hg
      dsimp only at hg
      rw [if_pos hi, List.getElem?_eq_getElem hlt] at hg
      simp [recycle_eq] at hg
    · rw [hg]; exact ⟨_, rfl⟩

/-- C4: for every pool variant and every pool state, a buffer returned by
`Get` has length 0; and `Get` does return one whenever the pool has the shape
its constructor gave it and the capacity of a fresh buffer is one the runtime
allocates. -/
theorem Get_len_zero (pool : BytePool) (StartCap : Int) (pick : Option Nat) :
    (∀ b, (pool.Get StartCap pick).1 = some b → b.len = 0) ∧
      (pool.CanGet StartCap → ∃ b, (pool.Get StartCap pick).1 = some b ∧ b.len = 0) := by
  refine ⟨fun b h => BytePool.Get_len pool StartCap pick b h, fun h => ?_⟩
  obtain ⟨b, hb⟩ := BytePool.Get_returns pool StartCap pick h
  exact ⟨b, hb, BytePool.Get_len pool StartCap pick b hb⟩

/-- Witness of `Get_len_zero`: a `SyncPool` holding a recycled buffer of
length 3 hands it out with length 0. -/
theorem Get_len_zero_witness :
    ∃ b, ((BytePool.sync ⟨[⟨[1, 2, 3, 0], 3⟩]⟩).Get 4 (some 0)).1 = some b ∧ b.len = 0 :=
  (Get_len_zero (BytePool.sync ⟨[⟨[1, 2, 3, 0], 3⟩]⟩) 4 (some 0)).2 (by decide)

/-- C3 (the code at the failing input): on each recycling pool, the calls
`b := Get()`, `b = Resize(b, 2)`, `b[1] = 7`, `b = Resize(b, 0)`, `Put(b)`,
`Get()` end with `Get` handing out the recycled buffer with the byte 7 still
in its storage: the zeroing loop covers `len(buf)`, which is 0 here, and not
the capacity 4. A following `Resize` to 2, served in place, shows it. -/
theorem Get_recycled_not_zeroed :
    (Sys.run ⟨Variant.sync.new 4, []⟩
        [.get 4 none, .resize 0 2 none, .write 0 1 7, .resize 0 0 none, .put 0,
          .get 4 (some 0)]).map Sys.held = some [⟨[0, 7, 0, 0], 0⟩] ∧
    (Sys.run ⟨Variant.sync.new 4, []⟩
        [.get 4 none, .resize 0 2 none, .write 0 1 7, .resize 0 0 none, .put 0,
          .get 4 (some 0), .resize 0 2 none]).map
      (fun s => s.held.map Slice.bytes) = some [[0, 7]] ∧
    (Sys.run ⟨Variant.power2.new 4, []⟩
        [.get 4 none, .resize 0 2 none, .write 0 1 7, .resize 0 0 none, .put 0,
          .get 4 (some 0)]).map Sys.held = some [⟨[0, 7, 0, 0], 0⟩] ∧
    (Sys.run ⟨Variant.power2.new 4, []⟩
        [.get 4 none, .resize 0 2 none, .write 0 1 7, .resize 0 0 none, .put 0,
          .get 4 (some 0), .resize 0 2 none]).map
      (fun s => s.held.map Slice.bytes) = some [[0, 7]] ∧
    (Sys.run ⟨Variant.reserved.new 4, []⟩
        [.get 4 none, .resize 0 2 none, .write 0 1 7, .resize 0 0 none, .put 0,
          .get 4 (some 0)]).map Sys.held = some [⟨[0, 7, 0, 0], 0⟩] ∧
    (Sys.run ⟨Variant.reserved.new 4, []⟩
        [.get 4 none, .resize 0 2 none, .write 0 1 7, .resize 0 0 none, .put 0,
          .get 4 (some 0), .resize 0 2 none]).map
      (fun s => s.held.map Slice.bytes) = some [[0, 7]] ∧
    (Sys.run ⟨Variant.leaky.new 4, []⟩
        [.get 4 none, .resize 0 2 none, .write 0 1 7, .resize 0 0 none, .put 0,
          .get 4 (some 0)]).map Sys.held = some [⟨[0, 7, 0, 0], 0⟩] ∧
    (Sys.run ⟨Variant.leaky.new 4, []⟩
        [.get 4 none, .resize 0 2 none, .write 0 1 7, .resize 0 0 none, .put 0,
          .get 4 (some 0), .resize 0 2 none]).map
      (fun s => s.held.map Slice.bytes) = some [[0, 7]] := by
  decide

/-! ## The invariant of a pool and its callers -/

theorem getElem?_lt {α : Type} (l : List α) (i : Nat) (a : α) (h : l[i]? = some a) :
    i < l.length := by
  by_contra hn
  rw [List.getElem?_eq_none (by omega)] at h
  simp at h

theorem BytePool.Owns_WF (pool : BytePool) (b : Slice) (h : pool.Owns b) : b.WF := by
  cases pool <;> first | exact h | exact h.1

theorem BytePool.Owns_congr (pool : BytePool) (b b1 : Slice) (h : pool.Owns b)
    (hc : b1.cap = b.cap) (hl : b1.len ≤ b1.cap) : pool.Owns b1 := by
  have hwf : b1.WF := ⟨hl, by rw [hc]; exact (pool.Owns_WF b h).2⟩
  cases pool with
  | null np => exact hwf
  | sync sp => exact hwf
  | leaky sp => exact hwf
  | power2 sp => exact ⟨hwf, by rw [hc]; exact h.2⟩
  | reserved rp => exact ⟨hwf, by rw [hc]; exact h.2⟩

theorem recycled_WF (buf : Slice) (h : buf.WF) :
    ({ zeroRange buf with len := 0 } : Slice).WF ∧
      ({ zeroRange buf with len := 0 } : Slice).cap = buf.cap := by
  have hc : ({ zeroRange buf with len := 0 } : Slice).cap = buf.cap := zeroRange_cap buf h.1
  exact ⟨⟨Nat.zero_le _, by rw [hc]; exact h.2⟩, hc⟩

theorem Power2Pool.getn_inv (sp sp1 : Power2Pool) (n : Int) (pick : Option Nat) (b : Slice)
    (hinv : sp.Inv) (h : sp.getn n pick = (some b, sp1)) :
    sp1.Inv ∧ b.WF ∧ b.len = 0 ∧ powerOfTwo n ≤ 62 ∧ b.cap = 2 ^ powerOfTwo n := by
  rcases sp.getn_cases n pick with ⟨_, hg⟩ | ⟨bucket, hb, hg | ⟨i, buf, hbuf, hg⟩⟩ <;>
    rw [hg] at h
  · simp at h
  · have hp : powerOfTwo n ≤ 62 := by
      have := getElem?_lt _ _ _ hb; rw [hinv.1] at this; omega
    simp only [Prod.mk.injEq] at h
    obtain ⟨hm, hs⟩ := h
    subst hs
    obtain ⟨h1, h2, h3, _⟩ := make_zero_len _ _ hm
    rw [shiftOne_eq _ hp] at h2
    exact ⟨hinv, h3, h1, hp, by exact_mod_cast h2⟩
  · have hp : powerOfTwo n ≤ 62 := by
      have := getElem?_lt _ _ _ hb; rw [hinv.1] at this; omega
    simp only [Prod.mk.injEq, Option.some.injEq] at h
    obtain ⟨hm, hs⟩ := h
    subst hs
    obtain ⟨hwf, hcap⟩ := hinv.2 _ _ hb buf (List.getElem?_mem hbuf)
    obtain ⟨hr1, hr2⟩ := recycled_WF buf hwf
    subst hm
    refine ⟨⟨by simp only [List.length_set]; exact hinv.1, ?_⟩, hr1, rfl, hp, by rw [hr2, hcap]⟩
    intro q bk hq x hx
    rw [List.getElem?_set] at hq
    by_cases hqp : powerOfTwo n = q
    · rw [if_pos hqp] at hq
      split at hq
      · simp only [Option.some.injEq] at hq
        subst hq
        rw [← hqp]
        exact hinv.2 _ _ hb x (List.mem_of_mem_eraseIdx hx)
      · simp at hq
    · rw [if_neg hqp] at hq
      exact hinv.2 _ _ hq x hx

theorem Power2Pool.Put_inv (sp sp1 : Power2Pool) (b : Slice) (k : Nat) (hinv : sp.Inv)
    (hwf : b.WF) (hk : b.cap = 2 ^ k) (h : sp.Put b = some sp1) : sp1.Inv := by
  have hk48 : k ≤ 62 := by
    by_contra hn
    have h1 : (2 : Nat) ^ 63 ≤ 2 ^ k := Nat.pow_le_pow_right (by omega) (by omega)
    have h2 := hwf.2
    rw [hk] at h2
    unfold maxAlloc at h2
    omega
  have hp : powerOfTwo (b.cap : Int) = k := by
    rw [hk]; push_cast; exact powerOfTwo_pow k hk48
  unfold Power2Pool.Put at h
  rw [hp] at h
  dsimp only at h
  cases hb : sp.pools[k]? with
  | none => rw [hb] at h; simp at h
  | some bucket =>
    rw [hb] at h
    simp only [Option.some.injEq] at h
    subst h
    refine ⟨by simp only [List.length_set]; exact hinv.1, ?_⟩
    intro q bk hq x hx
    rw [List.getElem?_set] at hq
    by_cases hqp : k = q
    · rw [if_pos hqp] at hq
      split at hq
      · simp only [Option.some.injEq] at hq
        subst hq
        unfold syncPut at hx
        rcases List.mem_append.mp hx with hx | hx
        · rw [← hqp]; exact hinv.2 _ _ hb x hx
        · simp only [List.mem_singleton] at hx
          subst hx
          rw [← hqp]
          exact ⟨hwf, hk⟩
      · simp at hq
    · rw [if_neg hqp] at hq
      exact hinv.2 _ _ hq x hx

theorem copy_spec (dst src : Slice) (hd : dst.len ≤ dst.cap) (hs : src.len ≤ src.cap) :
    (copy dst src).len = dst.len ∧ (copy dst src).cap = dst.cap ∧
      (copy dst src).arr.take (min src.len dst.len) = src.arr.take (min src.len dst.len) := by
  refine ⟨rfl, copy_cap dst src hd hs, ?_⟩
  unfold copy
  simp only
  rw [Nat.min_comm dst.len src.len]
  apply List.take_left'
  simp only [List.length_take]
  unfold Slice.cap at hs
  omega

/-- The result of the allocate-and-copy path shared by the variants. -/
theorem growCopy_spec (orig temp : Slice) (size c : Int) (hwf : orig.WF)
    (hm : make size c = some temp) :
    0 ≤ size ∧ size ≤ c ∧ c ≤ (maxAlloc : Int) ∧
    (copy temp orig).len = size.toNat ∧ ((copy temp orig).cap : Int) = c ∧ (copy temp orig).WF ∧
      (copy temp orig).arr.take (min orig.len size.toNat) =
        orig.arr.take (min orig.len size.toNat) := by
  obtain ⟨h0, h1, h2, ht⟩ := make_eq_some _ _ _ hm
  have htl : temp.len = size.toNat := by rw [ht]
  have htc : temp.cap = c.toNat := by rw [ht]; simp [Slice.cap]
  have htwf : temp.len ≤ temp.cap := by rw [htl, htc]; omega
  obtain ⟨hl, hc, hp⟩ := copy_spec temp orig htwf hwf.1
  rw [htl] at hl hp
  rw [htc] at hc
  refine ⟨h0, h1, h2, hl, by rw [hc]; omega, ⟨by rw [hl, hc]; omega, ?_⟩, hp⟩
  rw [hc]
  have : (c.toNat : Int) ≤ (maxAlloc : Int) := by omega
  exact_mod_cast this

theorem BytePool.Resize_lt_eq (pool : BytePool) (orig : Slice) (size : Int)
    (pick : Option Nat) (h1 : size < (orig.cap : Int)) :
    pool.Resize orig size pick = (reslice orig size, pool) := by
  cases pool <;>
    simp [BytePool.Resize, NullPool.Resize, SyncPool.Resize, Power2Pool.Resize,
      ReservedPool.Resize, LeakySyncPool.Resize, h1]

theorem ResizeOK_of_grow (orig temp : Slice) (size c : Int) (hwf : orig.WF)
    (hm : make size c = some temp) : ResizeOK orig size (copy temp orig) := by
  obtain ⟨h0, _, _, hl, _, hw, hp⟩ := growCopy_spec orig temp size c hwf hm
  exact ⟨h0, by rw [hl]; omega, hw, hp⟩

theorem BytePool.Resize_spec (pool pool1 : BytePool) (orig r : Slice) (size : Int)
    (pick : Option Nat) (hinv : pool.Inv) (hown : pool.Owns orig)
    (h : pool.Resize orig size pick = (some r, pool1)) :
    pool1.Inv ∧ pool1.Owns r ∧ (∀ x, pool.Owns x → pool1.Owns x) ∧ ResizeOK orig size r := by
  have hwf := pool.Owns_WF orig hown
  by_cases hlt : size < (orig.cap : Int)
  · rw [pool.Resize_lt_eq orig size pick hlt] at h
    simp only [Prod.mk.injEq] at h
    obtain ⟨hr, hp⟩ := h
    subst hp
    obtain ⟨h0, h1, hr⟩ := reslice_eq_some _ _ _ hr
    subst hr
    have hl : size.toNat ≤ orig.cap := by omega
    exact ⟨hinv, pool.Owns_congr orig _ hown rfl hl, fun x hx => hx,
      h0, by simp only; omega, ⟨hl, hwf.2⟩, rfl⟩
  · cases pool with
    | null np =>
      simp only [BytePool.Resize, NullPool.Resize, if_neg hlt, Prod.mk.injEq] at h
      obtain ⟨h, hp⟩ := h
      subst hp
      cases hm : make size (max size (wrapInt ((orig.cap : Int) * 2))) with
      | none => rw [hm] at h; simp at h
      | some temp =>
        rw [hm] at h
        simp only [Option.some.injEq] at h
        subst h
        have hok := ResizeOK_of_grow orig temp size _ hwf hm
        exact ⟨hinv, hok.2.2.1, fun x hx => hx, hok⟩
    | leaky sp =>
      simp only [BytePool.Resize, LeakySyncPool.Resize, if_neg hlt, Prod.mk.injEq] at h
      obtain ⟨h, hp⟩ := h
      subst hp
      cases hm : make size (max size (wrapInt ((orig.cap : Int) * 2))) with
      | none => rw [hm] at h; simp at h
      | some temp =>
        rw [hm] at h
        simp only [Option.some.injEq] at h
        subst h
        have hok := ResizeOK_of_grow orig temp size _ hwf hm
        exact ⟨hinv, hok.2.2.1, fun x hx => hx, hok⟩
    | sync sp =>
      simp only [BytePool.Resize, SyncPool.Resize, if_neg hlt, Prod.mk.injEq] at h
      cases hm : make size (max size (wrapInt ((orig.cap : Int) * 2))) with
      | none => rw [hm] at h; simp at h
      | some temp =>
        rw [hm] at h
        obtain ⟨h, hp⟩ := h
        simp only [Option.some.injEq] at h
        subst h
        subst hp
        have hok := ResizeOK_of_grow orig temp size _ hwf hm
        refine ⟨?_, hok.2.2.1, fun x hx => hx, hok⟩
        intro b hb
        simp only [SyncPool.Put, syncPut, List.mem_append, List.mem_singleton] at hb
        rcases hb with hb | hb
        · exact hinv b hb
        · subst hb; exact hwf
    | power2 sp =>
      simp only [BytePool.Resize, Power2Pool.Resize, if_neg hlt, Prod.mk.injEq] at h
      rcases hq : sp.getn size pick with ⟨_ | temp, sp1⟩
      · rw [hq] at h; simp at h
      · rw [hq] at h
        simp only at h
        obtain ⟨hi1, hwt, hlen, hp62, hcap⟩ := sp.getn_inv sp1 size pick temp hinv hq
        cases hr : reslice temp size with
        | none => rw [hr] at h; simp at h
        | some temp1 =>
          rw [hr] at h
          simp only at h
          obtain ⟨k, hk⟩ := hown.2
          cases hput : sp1.Put orig with
          | none => rw [hput] at h; simp at h
          | some sp2 =>
            rw [hput] at h
            simp only at h
            obtain ⟨h, hp⟩ := h
            simp only [Option.some.injEq] at h
            subst h
            subst hp
            obtain ⟨h0, h1, ht1⟩ := reslice_eq_some _ _ _ hr
            have ht1l : temp1.len = size.toNat := by rw [ht1]
            have ht1c : temp1.cap = temp.cap := by rw [ht1]; rfl
            have ht1w : temp1.len ≤ temp1.cap := by rw [ht1l, ht1c]; omega
            obtain ⟨hl, hc, hpre⟩ := copy_spec temp1 orig ht1w hwf.1
            have hw : (copy temp1 orig).WF :=
              ⟨by rw [hl, hc]; exact ht1w, by rw [hc, ht1c]; exact hwt.2⟩
            refine ⟨Power2Pool.Put_inv sp1 sp2 orig k hi1 hwf hk hput,
              ⟨hw, powerOfTwo size, by rw [hc, ht1c]; exact hcap⟩,
              fun x hx => hx, h0, by rw [hl, ht1l]; omega, hw, ?_⟩
            rw [ht1l] at hpre
            exact hpre
    | reserved rp =>
      simp only [BytePool.Resize, ReservedPool.Resize, if_neg hlt, Prod.mk.injEq] at h
      cases hm : make size (max size (wrapInt (rp.targetCap * 2))) with
      | none => rw [hm] at h; simp at h
      | some temp =>
        rw [hm] at h
        obtain ⟨h, hp⟩ := h
        simp only [Option.some.injEq] at h
        subst h
        subst hp
        have hok := ResizeOK_of_grow orig temp size _ hwf hm
        obtain ⟨_, _, hmax, _, hc, _, _⟩ := growCopy_spec orig temp size _ hwf hm
        obtain ⟨_, hoc, hT⟩ := hown
        have hT2 : rp.targetCap ≤ 281474976710656 := by unfold maxAlloc at hT; exact_mod_cast hT
        have hT0 : 0 ≤ rp.targetCap := by omega
        have hw : wrapInt (rp.targetCap * 2) = rp.targetCap * 2 :=
          wrapInt_of_range _ (by omega) (by omega)
        have hge : rp.targetCap ≤ max size (wrapInt (rp.targetCap * 2)) := by
          rw [hw, max_eq]; omega
        refine ⟨⟨hinv.1, hinv.2.1, hinv.2.2.1, hinv.2.2.2.1, ?_⟩,
          ⟨hok.2.2.1, by rw [hc], hmax⟩, ?_, hok⟩
        · intro b hb
          have := hinv.2.2.2.2 b hb
          exact ⟨by simp only; omega, hmax⟩
        · intro x hx
          exact ⟨hx.1, by simp only; have := hx.2.1; omega, hmax⟩

theorem take_set_of_le {α : Type} (l : List α) (a : α) (m n : Nat) (h : m ≤ n) :
    (l.set n a).take m = l.take m := by
  apply List.ext_getElem?
  intro i
  rw [List.getElem?_take, List.getElem?_take]
  split
  · rw [List.getElem?_set_ne (by omega)]
  · rfl

theorem BytePool.Get_spec (pool pool1 : BytePool) (c : Int) (pick : Option Nat) (b : Slice)
    (hinv : pool.Inv) (h : pool.Get c pick = (some b, pool1)) :
    pool1.Inv ∧ pool1.Owns b ∧ (∀ x, pool.Owns x → pool1.Owns x) := by
  cases pool with
  | null np =>
    simp only [BytePool.Get, NullPool.Get, Prod.mk.injEq] at h
    obtain ⟨h, hp⟩ := h
    subst hp
    exact ⟨hinv, (make_zero_len c b h).2.2.1, fun x hx => hx⟩
  | sync sp =>
    simp only [BytePool.Get] at h
    rcases sp.sync_Get_cases c pick with hg | ⟨i, buf, hbuf, hg⟩ <;> rw [hg] at h <;>
      simp only [Prod.mk.injEq] at h <;> obtain ⟨h, hp⟩ := h <;> subst hp
    · exact ⟨hinv, (make_zero_len c b h).2.2.1, fun x hx => hx⟩
    · simp only [Option.some.injEq] at h
      subst h
      exact ⟨fun x hx => hinv x (List.mem_of_mem_eraseIdx hx),
        (recycled_WF buf (hinv buf (List.getElem?_mem hbuf))).1, fun x hx => hx⟩
  | leaky sp =>
    simp only [BytePool.Get] at h
    rcases sp.leaky_Get_cases c pick with hg | ⟨i, buf, hbuf, hg⟩ <;> rw [hg] at h <;>
      simp only [Prod.mk.injEq] at h <;> obtain ⟨h, hp⟩ := h <;> subst hp
    · exact ⟨hinv, (make_zero_len c b h).2.2.1, fun x hx => hx⟩
    · simp only [Option.some.injEq] at h
      subst h
      exact ⟨fun x hx => hinv x (List.mem_of_mem_eraseIdx hx),
        (recycled_WF buf (hinv buf (List.getElem?_mem hbuf))).1, fun x hx => hx⟩
  | power2 sp =>
    simp only [BytePool.Get, Power2Pool.Get, Prod.mk.injEq] at h
    obtain ⟨h, hp⟩ := h
    subst hp
    have hq : sp.getn c pick = (some b, (sp.getn c pick).2) := by rw [← h]
    obtain ⟨hi1, hwt, _, _, hcap⟩ := sp.getn_inv _ c pick b hinv hq
    exact ⟨hi1, ⟨hwt, _, hcap⟩, fun x hx => hx⟩
  | reserved rp =>
    simp only [BytePool.Get] at h
    rcases rp.reserved_Get_cases with ⟨hz, hg⟩ | ⟨_, hg⟩ | ⟨hz, hi0, hi1, buf, hbuf, hg⟩ <;>
      rw [hg] at h <;> simp only [Prod.mk.injEq] at h <;> obtain ⟨h, hp⟩ := h <;> subst hp
    · obtain ⟨_, hc, hw, _⟩ := make_zero_len _ b h
      have hT : rp.targetCap ≤ (maxAlloc : Int) := by
        rw [← hc]; exact_mod_cast hw.2
      exact ⟨hinv, ⟨hw, by rw [hc], hT⟩, fun x hx => hx⟩
    · simp at h
    · simp only [Option.some.injEq] at h
      subst h
      obtain ⟨hl, h0, h20, hwf, hcap⟩ := hinv
      have hw : wrapInt (rp.size - 1) = rp.size - 1 :=
        wrapInt_of_range _ (by omega) (by omega)
      rw [hw] at hbuf hi0 hi1 ⊢
      have hmem : buf ∈ rp.pool.take rp.size.toNat := by
        rw [List.mem_iff_getElem?]
        refine ⟨(rp.size - 1).toNat, ?_⟩
        rw [List.getElem?_take, if_pos (by omega)]
        exact hbuf
      obtain ⟨hbc, hT⟩ := hcap buf hmem
      obtain ⟨hr1, hr2⟩ := recycled_WF buf (hwf buf (List.getElem?_mem hbuf))
      refine ⟨⟨by simp only [List.length_set]; exact hl, by simp only; omega,
        by simp only; omega, ?_, ?_⟩, ⟨hr1, by rw [hr2]; exact hbc, hT⟩, fun x hx => hx⟩
      · intro x hx
        rcases List.mem_or_eq_of_mem_set hx with hx | hx
        · exact hwf x hx
        · subst hx; decide
      · intro x hx
        simp only at hx
        rw [take_set_of_le _ _ _ _ (le_refl _)] at hx
        have hsub : x ∈ rp.pool.take rp.size.toNat := by
          have : rp.pool.take (rp.size - 1).toNat =
              (rp.pool.take rp.size.toNat).take (rp.size - 1).toNat := by
            rw [List.take_take, Nat.min_eq_left (by omega)]
          rw [this] at hx
          exact List.mem_of_mem_take hx
        exact hcap x hsub

theorem BytePool.Put_spec (pool pool1 : BytePool) (b : Slice) (hinv : pool.Inv)
    (hown : pool.Owns b) (h : pool.Put b = some pool1) :
    pool1.Inv ∧ (∀ x, pool.Owns x → pool1.Owns x) := by
  have hwf := pool.Owns_WF b hown
  cases pool with
  | null np =>
    simp only [BytePool.Put, Option.some.injEq] at h
    subst h
    exact ⟨hinv, fun x hx => hx⟩
  | sync sp =>
    simp only [BytePool.Put, Option.some.injEq] at h
    subst h
    refine ⟨?_, fun x hx => hx⟩
    intro x hx
    simp only [SyncPool.Put, syncPut, List.mem_append, List.mem_singleton] at hx
    rcases hx with hx | hx
    · exact hinv x hx
    · subst hx; exact hwf
  | leaky sp =>
    simp only [BytePool.Put, Option.some.injEq] at h
    subst h
    refine ⟨?_, fun x hx => hx⟩
    intro x hx
    simp only [LeakySyncPool.Put, syncPut, List.mem_append, List.mem_singleton] at hx
    rcases hx with hx | hx
    · exact hinv x hx
    · subst hx; exact hwf
  | power2 sp =>
    simp only [BytePool.Put, Option.map_eq_some'] at h
    obtain ⟨sp1, h, hp⟩ := h
    subst hp
    obtain ⟨k, hk⟩ := hown.2
    exact ⟨Power2Pool.Put_inv sp sp1 b k hinv hwf hk h, fun x hx => hx⟩
  | reserved rp =>
    simp only [BytePool.Put, Option.map_eq_some'] at h
    obtain ⟨rp1, h, hp⟩ := h
    subst hp
    unfold ReservedPool.Put at h
    split at h
    · simp only [Option.some.injEq] at h
      subst h
      exact ⟨hinv, fun x hx => hx⟩
    · split at h
      · rename_i hr
        simp only [Option.some.injEq] at h
        subst h
        obtain ⟨hl, h0, h20, hwfs, hcap⟩ := hinv
        have hw : wrapInt (rp.size + 1) = rp.size + 1 :=
          wrapInt_of_range _ (by omega) (by omega)
        rw [hw]
        have hlt : rp.size.toNat < rp.pool.length := by omega
        refine ⟨⟨by simp only [List.length_set]; exact hl, by simp only; omega,
          by simp only; omega, ?_, ?_⟩, fun x hx => hx⟩
        · intro x hx
          rcases List.mem_or_eq_of_mem_set hx with hx | hx
          · exact hwfs x hx
          · subst hx; exact hwf
        · intro x hx
          simp only at hx
          have h1 : (rp.size + 1).toNat = rp.size.toNat + 1 := by omega
          rw [h1, List.take_succ, take_set_of_le _ _ _ _ (le_refl _),
            List.getElem?_set_self hlt] at hx
          simp only [Option.toList_some, List.mem_append, List.mem_singleton] at hx
          rcases hx with hx | hx
          · exact hcap x hx
          · subst hx; exact hown.2
      · simp at h

theorem Sys.sys_step_inv (s s1 : Sys) (op : Op) (hinv : s.Inv) (h : s.step op = some s1) :
    s1.Inv := by
  obtain ⟨hp, hh⟩ := hinv
  cases op with
  | get c pick =>
    simp only [Sys.step] at h
    cases hg : (s.pool.Get c pick).1 with
    | none => rw [hg] at h; simp at h
    | some b =>
      rw [hg] at h
      simp only [Option.some.injEq] at h
      subst h
      have hq : s.pool.Get c pick = (some b, (s.pool.Get c pick).2) := by rw [← hg]
      obtain ⟨h1, h2, h3⟩ := s.pool.Get_spec _ c pick b hp hq
      refine ⟨h1, fun x hx => ?_⟩
      simp only [List.mem_append, List.mem_singleton] at hx
      rcases hx with hx | hx
      · exact h3 x (hh x hx)
      · subst hx; exact h2
  | put i =>
    simp only [Sys.step] at h
    cases hb : s.held[i]? with
    | none => rw [hb] at h; simp at h
    | some b =>
      rw [hb] at h
      simp only at h
      cases hput : s.pool.Put b with
      | none => rw [hput] at h; simp at h
      | some p1 =>
        rw [hput] at h
        simp only [Option.some.injEq] at h
        subst h
        obtain ⟨h1, h3⟩ := s.pool.Put_spec p1 b hp (hh b (List.getElem?_mem hb)) hput
        exact ⟨h1, fun x hx => h3 x (hh x (List.mem_of_mem_eraseIdx hx))⟩
  | resize i size pick =>
    simp only [Sys.step] at h
    cases hb : s.held[i]? with
    | none => rw [hb] at h; simp at h
    | some b =>
      rw [hb] at h
      simp only at h
      cases hg : (s.pool.Resize b size pick).1 with
      | none => rw [hg] at h; simp at h
      | some r =>
        rw [hg] at h
        simp only [Option.some.injEq] at h
        subst h
        have hq : s.pool.Resize b size pick = (some r, (s.pool.Resize b size pick).2) := by
          rw [← hg]
        obtain ⟨h1, h2, h3, _⟩ :=
          s.pool.Resize_spec _ b r size pick hp (hh b (List.getElem?_mem hb)) hq
        refine ⟨h1, fun x hx => ?_⟩
        rcases List.mem_or_eq_of_mem_set hx with hx | hx
        · exact h3 x (hh x hx)
        · subst hx; exact h2
  | write i pos v =>
    simp only [Sys.step] at h
    cases hb : s.held[i]? with
    | none => rw [hb] at h; simp at h
    | some b =>
      rw [hb] at h
      simp only at h
      split at h
      · simp only [Option.some.injEq] at h
        subst h
        have hob := hh b (List.getElem?_mem hb)
        refine ⟨hp, fun x hx => ?_⟩
        rcases List.mem_or_eq_of_mem_set hx with hx | hx
        · exact hh x hx
        · subst hx
          have hc : ({ b with arr := b.arr.set pos v } : Slice).cap = b.cap := by
            simp [Slice.cap]
          exact s.pool.Owns_congr b _ hob hc (by rw [hc]; exact (s.pool.Owns_WF b hob).1)
      · simp at h

theorem Sys.sys_run_inv (ops : List Op) : ∀ s s1 : Sys, s.Inv → s.run ops = some s1 → s1.Inv := by
  induction ops with
  | nil =>
    intro s s1 hinv h
    simp only [Sys.run, Option.some.injEq] at h
    subst h; exact hinv
  | cons op ops ih =>
    intro s s1 hinv h
    simp only [Sys.run] at h
    cases hs : s.step op with
    | none => rw [hs] at h; simp at h
    | some s2 =>
      rw [hs] at h
      exact ih s2 s1 (s.sys_step_inv s2 op hinv hs) h

theorem Variant.new_inv (v : Variant) (c : Int) : (v.new c).Inv := by
  cases v with
  | null => trivial
  | sync => intro b hb; simp [NewSyncPool] at hb
  | leaky => intro b hb; simp [NewLeakySyncPool] at hb
  | power2 =>
    refine ⟨by simp [NewPower2Pool], ?_⟩
    intro p bucket hb x hx
    simp only [NewPower2Pool, List.getElem?_replicate] at hb
    split at hb
    · simp only [Option.some.injEq] at hb
      subst hb; simp at hx
    · simp at hb
  | reserved =>
    refine ⟨by simp [NewReservedPool], le_refl _, by simp [NewReservedPool], ?_, ?_⟩
    · intro b hb
      simp only [NewReservedPool] at hb
      rw [(List.mem_replicate.mp hb).2]
      decide
    · intro b hb
      simp [NewReservedPool] at hb

theorem Reachable.sys_inv (v : Variant) (s : Sys) (h : Reachable v s) : s.Inv := by
  obtain ⟨c, ops, hr⟩ := h
  exact Sys.sys_run_inv ops _ s ⟨v.new_inv c, fun x hx => by simp at hx⟩ hr

/-! ## When `Resize` returns -/

theorem Power2Pool.getn_returns (sp : Power2Pool) (n : Int) (pick : Option Nat)
    (hl : sp.pools.length = 63) (h1 : 1 ≤ n) (h2 : n ≤ (maxAlloc : Int)) :
    ∃ b, (sp.getn n pick).1 = some b := by
  have hp : powerOfTwo n ≤ 48 :=
    powerOfTwo_le n 48 h1 (by omega) (by unfold maxAlloc at h2; norm_num; exact_mod_cast h2)
  rcases sp.getn_cases n pick with ⟨hn, _⟩ | ⟨bucket, _, hg | ⟨i, buf, _, hg⟩⟩
  · rw [List.getElem?_eq_none_iff] at hn; omega
  · rw [hg, shiftOne_eq _ (by omega)]
    have h3 : (2 : Int) ^ powerOfTwo n ≤ 2 ^ 48 := by
      have : (2 : Nat) ^ powerOfTwo n ≤ 2 ^ 48 := Nat.pow_le_pow_right (by omega) hp
      exact_mod_cast this
    exact ⟨_, make_of_le 0 _ (le_refl _) (by positivity)
      (by unfold maxAlloc; norm_num at h3 ⊢; exact h3)⟩
  · rw [hg]; exact ⟨_, rfl⟩

theorem Power2Pool.Put_returns (sp : Power2Pool) (b : Slice) (k : Nat)
    (hl : sp.pools.length = 63) (hwf : b.WF) (hk : b.cap = 2 ^ k) :
    ∃ sp1, sp.Put b = some sp1 := by
  have hk62 : k ≤ 62 := by
    by_contra hn
    have h1 : (2 : Nat) ^ 63 ≤ 2 ^ k := Nat.pow_le_pow_right (by omega) (by omega)
    have h2 := hwf.2
    rw [hk] at h2
    unfold maxAlloc at h2
    omega
  have hp : powerOfTwo (b.cap : Int) = k := by
    rw [hk]; push_cast; exact powerOfTwo_pow k hk62
  unfold Power2Pool.Put
  rw [hp]
  dsimp only
  rw [List.getElem?_eq_getElem (by omega)]
  exact ⟨_, rfl⟩

theorem le_max_left (x y : Int) : x ≤ max x y := by rw [max_eq]; omega

theorem BytePool.Resize_returns (pool : BytePool) (orig : Slice) (size : Int)
    (pick : Option Nat) (hinv : pool.Inv) (hown : pool.Owns orig) (h0 : 0 ≤ size)
    (hg : size < (orig.cap : Int) ∨ pool.CanGrow orig size) :
    ∃ r, (pool.Resize orig size pick).1 = some r := by
  have hwf := pool.Owns_WF orig hown
  by_cases hlt : size < (orig.cap : Int)
  · rw [pool.Resize_of_lt orig size pick h0 hlt]; exact ⟨_, rfl⟩
  · have hg : pool.CanGrow orig size := by
      rcases hg with hg | hg
      · exact absurd hg hlt
      · exact hg
    cases pool with
    | null np =>
      simp only [BytePool.Resize, NullPool.Resize, if_neg hlt]
      rw [make_of_le _ _ h0 (le_max_left _ _) hg]; exact ⟨_, rfl⟩
    | leaky sp =>
      simp only [BytePool.Resize, LeakySyncPool.Resize, if_neg hlt]
      rw [make_of_le _ _ h0 (le_max_left _ _) hg]; exact ⟨_, rfl⟩
    | sync sp =>
      simp only [BytePool.Resize, SyncPool.Resize, if_neg hlt]
      rw [make_of_le _ _ h0 (le_max_left _ _) hg]; exact ⟨_, rfl⟩
    | reserved rp =>
      simp only [BytePool.Resize, ReservedPool.Resize, if_neg hlt]
      rw [make_of_le _ _ h0 (le_max_left _ _) hg]; exact ⟨_, rfl⟩
    | power2 sp =>
      obtain ⟨k, hk⟩ := hown.2
      have hpos : (1 : Int) ≤ (orig.cap : Int) := by
        have : (1 : Nat) ≤ 2 ^ k := Nat.one_le_two_pow
        rw [hk]; exact_mod_cast this
      have hg2 : size ≤ (maxAlloc : Int) := hg
      obtain ⟨temp, htemp⟩ := sp.getn_returns size pick hinv.1 (by omega) hg2
      have hq : sp.getn size pick = (some temp, (sp.getn size pick).2) := by rw [← htemp]
      obtain ⟨hi1, hwt, _, hp62, hcap⟩ := sp.getn_inv _ size pick temp hinv hq
      have hsz : size ≤ (temp.cap : Int) := by
        unfold maxAlloc at hg2
        have := (powerOfTwo_spec size (by omega) (by omega)).1
        rw [hcap]; push_cast; exact this
      obtain ⟨sp2, hput⟩ := Power2Pool.Put_returns (sp.getn size pick).2 orig k hi1.1 hwf hk
      simp only [BytePool.Resize, Power2Pool.Resize, if_neg hlt]
      rw [hq]
      simp only
      rw [reslice_of_le temp size h0 hsz]
      simp only
      rw [hput]
      exact ⟨_, rfl⟩

theorem ReservedPool.Resize_grow_cap (rp : ReservedPool) (orig r : Slice) (size : Int)
    (hwf : orig.WF) (hge : (orig.cap : Int) ≤ size) (h : (rp.Resize orig size).1 = some r) :
    (r.cap : Int) = max size (wrapInt (rp.targetCap * 2)) := by
  have hlt : ¬ size < (orig.cap : Int) := by omega
  simp only [ReservedPool.Resize, if_neg hlt] at h
  cases hm : make size (max size (wrapInt (rp.targetCap * 2))) with
  | none => rw [hm] at h; simp at h
  | some temp =>
    rw [hm] at h
    simp only [Option.some.injEq] at h
    subst h
    exact (growCopy_spec orig temp size _ hwf hm).2.2.2.2.1

theorem pow2_lt_double (k k1 : Nat) (h : 2 ^ k < 2 ^ k1) : 2 * 2 ^ k ≤ 2 ^ k1 := by
  have hk : k < k1 := by
    by_contra hn
    have : 2 ^ k1 ≤ 2 ^ k := Nat.pow_le_pow_right (by omega) (by omega)
    omega
  have : 2 ^ (k + 1) ≤ 2 ^ k1 := Nat.pow_le_pow_right (by omega) hk
  rw [Nat.pow_succ] at this
  omega

theorem BytePool.Resize_grow_ge (pool pool1 : BytePool) (orig r : Slice) (size : Int)
    (pick : Option Nat) (hinv : pool.Inv) (hown : pool.Owns orig)
    (hv : pool.variant = .power2 ∨ pool.variant = .reserved)
    (hgt : (orig.cap : Int) < size) (h : pool.Resize orig size pick = (some r, pool1)) :
    Max.max size (2 * (orig.cap : Int)) ≤ (r.cap : Int) := by
  obtain ⟨_, hor, _, hok⟩ := pool.Resize_spec pool1 orig r size pick hinv hown h
  have hsz : size ≤ (r.cap : Int) := by
    have := hok.2.2.1.1
    have := hok.2.1
    omega
  cases pool with
  | null np => simp [BytePool.variant] at hv
  | sync sp => simp [BytePool.variant] at hv
  | leaky sp => simp [BytePool.variant] at hv
  | power2 sp =>
    obtain ⟨k, hk⟩ := hown.2
    have hp1 : pool1 = .power2 (sp.Resize orig size pick).2 := by
      simp only [BytePool.Resize, Prod.mk.injEq] at h
      exact h.2.symm
    subst hp1
    obtain ⟨k1, hk1⟩ := hor.2
    have hlt : (2 : Nat) ^ k < 2 ^ k1 := by
      rw [← hk, ← hk1]
      have : (orig.cap : Int) < (r.cap : Int) := by omega
      exact_mod_cast this
    have := pow2_lt_double k k1 hlt
    rw [← hk, ← hk1] at this
    have h2 : 2 * (orig.cap : Int) ≤ (r.cap : Int) := by exact_mod_cast this
    omega
  | reserved rp =>
    have h1 : (rp.Resize orig size).1 = some r := by
      simp only [BytePool.Resize, Prod.mk.injEq] at h
      exact h.1
    have hc := rp.Resize_grow_cap orig r size hown.1 (by omega) h1
    obtain ⟨_, hoc, hT⟩ := hown
    have hT2 : rp.targetCap ≤ 281474976710656 := by unfold maxAlloc at hT; exact_mod_cast hT
    rw [wrapInt_of_range _ (by omega) (by omega), max_eq] at hc
    omega

/-! ## `Resize` on buffers obtained from the pool -/

/-- C5: in every state reachable from a new pool of any variant, for every
buffer `orig` a caller holds and every `size`: a buffer returned by
`Resize(orig, size)` has length `size` and its first `min(len(orig), size)`
bytes are those of `orig`, on the in-place path and on the allocating or
reusing path alike; and for `0 ≤ size` the call does return, provided that a
capacity it has to allocate is one the runtime grants. -/
theorem Resize_len_prefix (v : Variant) (s : Sys) (hr : Reachable v s) (orig : Slice)
    (ho : orig ∈ s.held) (size : Int) (pick : Option Nat) :
    (∀ r, (s.pool.Resize orig size pick).1 = some r →
      (r.len : Int) = size ∧
        r.arr.take (min orig.len size.toNat) = orig.arr.take (min orig.len size.toNat)) ∧
    (0 ≤ size → (size < (orig.cap : Int) ∨ s.pool.CanGrow orig size) →
      ∃ r, (s.pool.Resize orig size pick).1 = some r) := by
  obtain ⟨hinv, hown⟩ := Reachable.sys_inv v s hr
  refine ⟨fun r h => ?_, fun h0 hg => ?_⟩
  · have hq : s.pool.Resize orig size pick = (some r, (s.pool.Resize orig size pick).2) := by
      rw [← h]
    obtain ⟨_, _, _, hok⟩ := s.pool.Resize_spec _ orig r size pick hinv (hown orig ho) hq
    exact ⟨hok.2.1, hok.2.2.2⟩
  · exact s.pool.Resize_returns orig size pick hinv (hown orig ho) h0 hg

/-- Witness of `Resize_len_prefix`: on a `Power2Pool`, a buffer of capacity 4
holding `[1, 2, 3]` is resized to 6. -/
theorem Resize_len_prefix_witness :
    ∃ r, ((BytePool.power2 NewPower2Pool).Resize ⟨[1, 2, 3, 0], 3⟩ 6 none).1 = some r ∧
      (r.len : Int) = 6 ∧ r.arr.take 3 = [1, 2, 3] := by
  have h := Resize_len_prefix .power2 ⟨.power2 NewPower2Pool, [⟨[1, 2, 3, 0], 3⟩]⟩
    ⟨4, [.get 4 none, .resize 0 3 none, .write 0 0 1, .write 0 1 2, .write 0 2 3], by decide⟩
    ⟨[1, 2, 3, 0], 3⟩ (by simp) 6 none
  obtain ⟨r, hr⟩ := h.2 (by decide) (Or.inr (by decide))
  exact ⟨r, hr, (h.1 r hr).1, by simpa using (h.1 r hr).2⟩

/-! ## Calls that panic -/

theorem Power2Pool.getn_state_inv (sp : Power2Pool) (n : Int) (pick : Option Nat)
    (hinv : sp.Inv) : (sp.getn n pick).2.Inv := by
  rcases sp.getn_cases n pick with ⟨_, hg⟩ | ⟨bucket, hb, hg | ⟨i, buf, hbuf, hg⟩⟩
  · rw [hg]; exact hinv
  · rw [hg]; exact hinv
  · have := (sp.getn_inv _ n pick _ hinv hg).1
    rw [hg]; exact this

theorem Power2Pool.Resize_state_inv (sp : Power2Pool) (orig : Slice) (size : Int)
    (pick : Option Nat) (hinv : sp.Inv) (hwf : orig.WF) (k : Nat) (hk : orig.cap = 2 ^ k) :
    (sp.Resize orig size pick).2.Inv := by
  unfold Power2Pool.Resize
  split
  · exact hinv
  · have h1 := sp.getn_state_inv size pick hinv
    generalize sp.getn size pick = q at h1 ⊢
    obtain ⟨o, sp1⟩ := q
    cases o with
    | none => exact h1
    | some temp =>
      simp only
      cases reslice temp size with
      | none => exact h1
      | some temp1 =>
        simp only
        cases hput : sp1.Put orig with
        | none => exact h1
        | some sp2 => exact Power2Pool.Put_inv sp1 sp2 orig k h1 hwf hk hput

theorem BytePool.Get_loose (pool : BytePool) (c : Int) (pick : Option Nat)
    (hinv : pool.LooseInv) :
    (pool.Get c pick).2.LooseInv ∧
    (∀ x, pool.LooseOwns x → (pool.Get c pick).2.LooseOwns x) ∧
    ∀ b, (pool.Get c pick).1 = some b → (pool.Get c pick).2.LooseOwns b := by
  cases pool with
  | null np => exact ⟨trivial, fun _ _ => trivial, fun _ _ => trivial⟩
  | sync sp => exact ⟨trivial, fun _ _ => trivial, fun _ _ => trivial⟩
  | leaky sp => exact ⟨trivial, fun _ _ => trivial, fun _ _ => trivial⟩
  | power2 sp =>
    refine ⟨sp.getn_state_inv c pick hinv, fun x hx => hx, fun b hb => ?_⟩
    have hq : sp.getn c pick = (some b, (sp.getn c pick).2) := by
      have : (sp.getn c pick).1 = some b := hb
      rw [← this]
    obtain ⟨_, hwf, _, _, hcap⟩ := sp.getn_inv _ c pick b hinv hq
    exact ⟨hwf, _, hcap⟩
  | reserved rp =>
    obtain ⟨hl, h0, h20, hwf, hcap⟩ := hinv
    have hgoal : rp.Get.2.pool.length = 20 ∧ 0 ≤ rp.Get.2.size ∧ rp.Get.2.size ≤ 20 ∧
        (∀ b ∈ rp.Get.2.pool, b.WF) ∧
        (∀ b ∈ rp.Get.2.pool.take rp.Get.2.size.toNat, (b.cap : Int) ≤ rp.Get.2.targetCap) ∧
        rp.Get.2.targetCap = rp.targetCap ∧
        ∀ b, rp.Get.1 = some b → b.WF ∧ (b.cap : Int) ≤ rp.targetCap := by
      rcases rp.reserved_Get_cases with ⟨hz, hg⟩ | ⟨hz, hg⟩ | ⟨hz, hi0, hi1, buf, hbuf, hg⟩
      · rw [hg]
        refine ⟨hl, h0, h20, hwf, hcap, rfl, fun b hb => ?_⟩
        obtain ⟨_, h2, h3, _⟩ := make_zero_len _ _ hb
        exact ⟨h3, by rw [h2]⟩
      · rw [hg]
        exact ⟨hl, h0, h20, hwf, hcap, rfl, fun b hb => by simp at hb⟩
      · rw [hg]
        have hw : wrapInt (rp.size - 1) = rp.size - 1 :=
          wrapInt_of_range _ (by omega) (by omega)
        have hmem : buf ∈ rp.pool.take rp.size.toNat := by
          rw [List.mem_take_iff_getElem]
          have hlt := getElem?_lt _ _ _ hbuf
          refine ⟨(wrapInt (rp.size - 1)).toNat, ?_, ?_⟩
          · rw [hw]; omega
          · exact (List.getElem?_eq_some_iff.mp hbuf).2
        obtain ⟨hr1, hr2⟩ := recycled_WF buf (hwf buf (List.mem_of_mem_take hmem))
        refine ⟨by simp only [List.length_set]; exact hl, by simp only; omega,
          by simp only; omega, ?_, ?_, rfl, fun b hb => ?_⟩
        · intro b hb
          rcases List.mem_or_eq_of_mem_set hb with hb | hb
          · exact hwf b hb
          · rw [hb]; decide
        · intro b hb
          simp only at hb
          rw [take_set_of_le _ _ _ _ (le_refl _)] at hb
          apply hcap
          rw [hw] at hb
          exact (List.take_subset_take_left _ (by omega)) hb
        · simp only [Option.some.injEq] at hb
          subst hb
          exact ⟨hr1, by rw [hr2]; exact hcap buf hmem⟩
    obtain ⟨g1, g2, g3, g4, g5, g6, g7⟩ := hgoal
    refine ⟨⟨g1, g2, g3, g4, g5⟩, fun x hx => ⟨hx.1, ?_⟩, fun b hb => ?_⟩
    · show (x.cap : Int) ≤ rp.Get.2.targetCap
      rw [g6]; exact hx.2
    · obtain ⟨w1, w2⟩ := g7 b hb
      exact ⟨w1, by show (b.cap : Int) ≤ rp.Get.2.targetCap; rw [g6]; exact w2⟩

theorem BytePool.Put_loose (pool pool1 : BytePool) (b : Slice) (hinv : pool.LooseInv)
    (hown : pool.LooseOwns b) (h : pool.Put b = some pool1) :
    pool1.LooseInv ∧ (∀ x, pool.LooseOwns x → pool1.LooseOwns x) := by
  cases pool with
  | null np =>
    simp only [BytePool.Put, Option.some.injEq] at h
    subst h
    exact ⟨trivial, fun _ _ => trivial⟩
  | sync sp =>
    simp only [BytePool.Put, Option.some.injEq] at h
    subst h
    exact ⟨trivial, fun _ _ => trivial⟩
  | leaky sp =>
    simp only [BytePool.Put, Option.some.injEq] at h
    subst h
    exact ⟨trivial, fun _ _ => trivial⟩
  | power2 sp =>
    simp only [BytePool.Put, Option.map_eq_some'] at h
    obtain ⟨sp1, h, hp⟩ := h
    subst hp
    obtain ⟨k, hk⟩ := hown.2
    exact ⟨Power2Pool.Put_inv sp sp1 b k hinv hown.1 hk h, fun x hx => hx⟩
  | reserved rp =>
    simp only [BytePool.Put, Option.map_eq_some'] at h
    obtain ⟨rp1, h, hp⟩ := h
    subst hp
    unfold ReservedPool.Put at h
    split at h
    · simp only [Option.some.injEq] at h
      subst h
      exact ⟨hinv, fun x hx => hx⟩
    · split at h
      · rename_i hr
        simp only [Option.some.injEq] at h
        subst h
        obtain ⟨hl, h0, h20, hwfs, hcap⟩ := hinv
        have hw : wrapInt (rp.size + 1) = rp.size + 1 :=
          wrapInt_of_range _ (by omega) (by omega)
        rw [hw]
        have hlt : rp.size.toNat < rp.pool.length := by omega
        refine ⟨⟨by simp only [List.length_set]; exact hl, by simp only; omega,
          by simp only; omega, ?_, ?_⟩, fun x hx => hx⟩
        · intro x hx
          rcases List.mem_or_eq_of_mem_set hx with hx | hx
          · exact hwfs x hx
          · subst hx; exact hown.1
        · intro x hx
          simp only at hx
          have h1 : (rp.size + 1).toNat = rp.size.toNat + 1 := by omega
          rw [h1, List.take_succ, take_set_of_le _ _ _ _ (le_refl _),
            List.getElem?_set_self hlt] at hx
          simp only [Option.toList_some, List.mem_append, List.mem_singleton] at hx
          rcases hx with hx | hx
          · exact hcap x hx
          · subst hx; exact hown.2
      · simp at h

theorem ReservedPool.reserved_Resize_loose (rp : ReservedPool) (orig : Slice) (size : Int)
    (hwf : orig.WF) (hoc : (orig.cap : Int) ≤ rp.targetCap)
    (hhi : rp.targetCap < 4611686018427387904) :
    (rp.Resize orig size).2.pool = rp.pool ∧ (rp.Resize orig size).2.size = rp.size ∧
    rp.targetCap ≤ (rp.Resize orig size).2.targetCap ∧
    ∀ r, (rp.Resize orig size).1 = some r →
      r.WF ∧ (r.cap : Int) ≤ (rp.Resize orig size).2.targetCap := by
  have hw : wrapInt (rp.targetCap * 2) = rp.targetCap * 2 :=
    wrapInt_of_range _ (by omega) (by omega)
  by_cases hlt : size < (orig.cap : Int)
  · simp only [ReservedPool.Resize, if_pos hlt]
    refine ⟨trivial, trivial, le_refl _, fun r hr => ?_⟩
    obtain ⟨h0, h1, hr⟩ := reslice_eq_some _ _ _ hr
    subst hr
    exact ⟨⟨by show size.toNat ≤ orig.cap; omega, hwf.2⟩, hoc⟩
  · have hge : rp.targetCap ≤ max size (wrapInt (rp.targetCap * 2)) := by
      rw [hw, max_eq]; omega
    simp only [ReservedPool.Resize, if_neg hlt]
    cases hm : make size (max size (wrapInt (rp.targetCap * 2))) with
    | none => exact ⟨rfl, rfl, hge, fun r hr => by simp at hr⟩
    | some temp =>
      refine ⟨rfl, rfl, hge, fun r hr => ?_⟩
      simp only [Option.some.injEq] at hr
      subst hr
      obtain ⟨_, _, _, _, hc, hwr, _⟩ := growCopy_spec orig temp size _ hwf hm
      exact ⟨hwr, by rw [hc]⟩

theorem BytePool.Resize_loose (pool : BytePool) (orig : Slice) (size : Int)
    (pick : Option Nat) (hinv : pool.LooseInv) (hown : pool.LooseOwns orig) (hf : pool.Fits) :
    (pool.Resize orig size pick).2.LooseInv ∧
    (∀ x, pool.LooseOwns x → (pool.Resize orig size pick).2.LooseOwns x) ∧
    ∀ r, (pool.Resize orig size pick).1 = some r →
      (pool.Resize orig size pick).2.LooseOwns r := by
  cases pool with
  | null np => exact ⟨trivial, fun _ _ => trivial, fun _ _ => trivial⟩
  | sync sp => exact ⟨trivial, fun _ _ => trivial, fun _ _ => trivial⟩
  | leaky sp => exact ⟨trivial, fun _ _ => trivial, fun _ _ => trivial⟩
  | power2 sp =>
    obtain ⟨k, hk⟩ := hown.2
    refine ⟨sp.Resize_state_inv orig size pick hinv hown.1 k hk, fun x hx => hx,
      fun r hr => ?_⟩
    have hq : (BytePool.power2 sp).Resize orig size pick =
        (some r, ((BytePool.power2 sp).Resize orig size pick).2) := by
      rw [← hr]
    exact ((BytePool.power2 sp).Resize_spec _ orig r size pick hinv hown hq).2.1
  | reserved rp =>
    obtain ⟨hl, h0, h20, hwfs, hcap⟩ := hinv
    obtain ⟨g1, g2, g3, g4⟩ := rp.reserved_Resize_loose orig size hown.1 hown.2 hf
    refine ⟨⟨by rw [g1]; exact hl, by rw [g2]; exact h0, by rw [g2]; exact h20,
      by rw [g1]; exact hwfs, ?_⟩, fun x hx => ⟨hx.1, le_trans hx.2 g3⟩, fun r hr => g4 r hr⟩
    intro b hb
    rw [g1, g2] at hb
    exact le_trans (hcap b hb) g3

theorem Sys.after_loose (s : Sys) (op : Op) (hinv : s.LooseInv) (hf : s.pool.Fits) :
    (s.after op).LooseInv := by
  obtain ⟨hp, hh⟩ := hinv
  cases op with
  | get c pick =>
    obtain ⟨h1, h2, h3⟩ := s.pool.Get_loose c pick hp
    simp only [Sys.after]
    cases hg : (s.pool.Get c pick).1 with
    | none => exact ⟨h1, fun x hx => h2 x (hh x hx)⟩
    | some b =>
      refine ⟨h1, fun x hx => ?_⟩
      simp only [List.mem_append, List.mem_singleton] at hx
      rcases hx with hx | hx
      · exact h2 x (hh x hx)
      · subst hx; exact h3 x hg
  | put i =>
    simp only [Sys.after]
    cases hb : s.held[i]? with
    | none => exact ⟨hp, hh⟩
    | some b =>
      simp only
      cases hput : s.pool.Put b with
      | none => exact ⟨hp, hh⟩
      | some p1 =>
        obtain ⟨h1, h3⟩ := s.pool.Put_loose p1 b hp (hh b (List.getElem?_mem hb)) hput
        exact ⟨h1, fun x hx => h3 x (hh x (List.mem_of_mem_eraseIdx hx))⟩
  | resize i size pick =>
    simp only [Sys.after]
    cases hb : s.held[i]? with
    | none => exact ⟨hp, hh⟩
    | some b =>
      simp only
      obtain ⟨h1, h2, h3⟩ :=
        s.pool.Resize_loose b size pick hp (hh b (List.getElem?_mem hb)) hf
      cases hg : (s.pool.Resize b size pick).1 with
      | none => exact ⟨h1, fun x hx => h2 x (hh x hx)⟩
      | some r =>
        refine ⟨h1, fun x hx => ?_⟩
        rcases List.mem_or_eq_of_mem_set hx with hx | hx
        · exact h2 x (hh x hx)
        · subst hx; exact h3 x hg
  | write i pos v =>
    simp only [Sys.after]
    cases hb : s.held[i]? with
    | none => exact ⟨hp, hh⟩
    | some b =>
      simp only
      split
      · rename_i hpos
        have hob := hh b (List.getElem?_mem hb)
        refine ⟨hp, fun x hx => ?_⟩
        rcases List.mem_or_eq_of_mem_set hx with hx | hx
        · exact hh x hx
        · subst hx
          have hc : ({ b with arr := b.arr.set pos v } : Slice).cap = b.cap := by
            simp [Slice.cap]
          cases hpool : s.pool with
          | null np => trivial
          | sync sp => trivial
          | leaky sp => trivial
          | power2 sp =>
            rw [hpool] at hob
            exact ⟨⟨by rw [hc]; exact hob.1.1, by rw [hc]; exact hob.1.2⟩, by rw [hc]; exact hob.2⟩
          | reserved rp =>
            rw [hpool] at hob
            exact ⟨⟨by rw [hc]; exact hob.1.1, by rw [hc]; exact hob.1.2⟩, by rw [hc]; exact hob.2⟩
      · exact ⟨hp, hh⟩

theorem Sys.afterAll_loose (ops : List Op) : ∀ s : Sys, s.LooseInv → s.FitsAlong ops →
    (s.afterAll ops).LooseInv ∧ (s.afterAll ops).pool.Fits := by
  induction ops with
  | nil => intro s hinv hf; exact ⟨hinv, hf⟩
  | cons op ops ih =>
    intro s hinv hf
    exact ih (s.after op) (s.after_loose op hinv hf.1) hf.2

theorem Variant.new_loose (v : Variant) (c : Int) : (Sys.mk (v.new c) []).LooseInv := by
  refine ⟨?_, fun x hx => by simp at hx⟩
  cases v with
  | null => trivial
  | sync => trivial
  | leaky => trivial
  | power2 => exact Variant.new_inv .power2 c
  | reserved =>
    obtain ⟨a1, a2, a3, a4, _⟩ := Variant.new_inv .reserved c
    refine ⟨a1, a2, a3, a4, ?_⟩
    intro b hb
    simp [Variant.new, NewReservedPool] at hb

/-- C8 (amended): for `Power2Pool` and `ReservedPool`, in every state reached
from a new pool by `Get`, `Resize` and `Put` of buffers obtained from that pool
(and stores into them), calls that panicked included, such that in every state
passed the target capacity of a `ReservedPool` is below `2^62` (its double has
not overflowed a 64-bit `int`): a buffer returned by `Resize(orig, size)` with
`size > cap(orig)` has capacity at least `max(size, 2 * cap(orig))`; and the
call does return when the capacity it allocates is one the runtime grants. -/
theorem Resize_grow_cap_ge (v : Variant) (c : Int) (ops : List Op) (s : Sys)
    (hs : (Sys.mk (v.new c) []).afterAll ops = s)
    (hf : (Sys.mk (v.new c) []).FitsAlong ops)
    (hv : s.pool.variant = .power2 ∨ s.pool.variant = .reserved) (orig : Slice)
    (ho : orig ∈ s.held) (size : Int) (hgt : (orig.cap : Int) < size) (pick : Option Nat) :
    (∀ r, (s.pool.Resize orig size pick).1 = some r →
      Max.max size (2 * (orig.cap : Int)) ≤ (r.cap : Int)) ∧
    (s.pool.CanGrow orig size → ∃ r, (s.pool.Resize orig size pick).1 = some r) := by
  have hI := Sys.afterAll_loose ops _ (v.new_loose c) hf
  rw [hs] at hI
  obtain ⟨⟨hp, hh⟩, hfit⟩ := hI
  have hown := hh orig ho
  obtain ⟨pool, held⟩ := s
  cases pool with
  | null np => simp [BytePool.variant] at hv
  | sync sp => simp [BytePool.variant] at hv
  | leaky sp => simp [BytePool.variant] at hv
  | power2 sp =>
    have hinv : (BytePool.power2 sp).Inv := hp
    have hown1 : (BytePool.power2 sp).Owns orig := hown
    refine ⟨fun r h => ?_, fun hg => ?_⟩
    · have hq : (BytePool.power2 sp).Resize orig size pick =
          (some r, ((BytePool.power2 sp).Resize orig size pick).2) := by rw [← h]
      exact (BytePool.power2 sp).Resize_grow_ge _ orig r size pick hinv hown1 hv hgt hq
    · exact (BytePool.power2 sp).Resize_returns orig size pick hinv hown1 (by omega)
        (Or.inr hg)
  | reserved rp =>
    obtain ⟨hwf, hoc⟩ := hown
    have hhi : rp.targetCap < 4611686018427387904 := hfit
    have hw : wrapInt (rp.targetCap * 2) = rp.targetCap * 2 :=
      wrapInt_of_range _ (by omega) (by omega)
    refine ⟨fun r h => ?_, fun hg => ?_⟩
    · have hc := rp.Resize_grow_cap orig r size hwf (by omega) h
      rw [hw, max_eq] at hc
      omega
    · have hlt : ¬ size < (orig.cap : Int) := by omega
      have hg1 : max size (wrapInt (rp.targetCap * 2)) ≤ (maxAlloc : Int) := hg
      simp only [BytePool.Resize, ReservedPool.Resize, if_neg hlt]
      rw [make_of_le _ _ (by omega) (le_max_left _ _) hg1]
      exact ⟨_, rfl⟩

/-- Witness of `Resize_grow_cap_ge`. On a `ReservedPool` created with
`StartCap = 4`, after `Get`, a store outside the length (which panics) and a
`Resize` to 5, the buffer held has capacity 8; resized to 9 it comes back with
capacity at least 16. On a `Power2Pool`, after `Get` with `StartCap = 4`, a
`Get` with `StartCap = 2^49` (which panics in `make`) and a `Resize` to 5, the
buffer held has capacity 8; resized to 9 it comes back with capacity at least
16. -/
theorem Resize_grow_cap_ge_witness :
    (∃ r, ((BytePool.reserved ⟨List.replicate 20 nilSlice, 0, 8⟩).Resize
        ⟨[0, 0, 0, 0, 0, 0, 0, 0], 5⟩ 9 none).1 = some r ∧
      (16 : Int) ≤ (r.cap : Int)) ∧
    (∃ r, ((BytePool.power2 ⟨(List.replicate 63 []).set 2 [⟨[0, 0, 0, 0], 0⟩]⟩).Resize
        ⟨[0, 0, 0, 0, 0, 0, 0, 0], 5⟩ 9 none).1 = some r ∧
      (16 : Int) ≤ (r.cap : Int)) := by
  have h := Resize_grow_cap_ge .reserved 4 [.get 4 none, .write 0 0 1, .resize 0 5 none]
    ⟨.reserved ⟨List.replicate 20 nilSlice, 0, 8⟩, [⟨[0, 0, 0, 0, 0, 0, 0, 0], 5⟩]⟩
    (by decide) (by decide) (Or.inr rfl) ⟨[0, 0, 0, 0, 0, 0, 0, 0], 5⟩ (by simp) 9
    (by decide) none
  have h2 := Resize_grow_cap_ge .power2 4
    [.get 4 none, .get 562949953421312 none, .resize 0 5 none]
    ⟨.power2 ⟨(List.replicate 63 []).set 2 [⟨[0, 0, 0, 0], 0⟩]⟩,
      [⟨[0, 0, 0, 0, 0, 0, 0, 0], 5⟩]⟩
    (by decide) (by decide) (Or.inl rfl) ⟨[0, 0, 0, 0, 0, 0, 0, 0], 5⟩ (by simp) 9
    (by decide) none
  obtain ⟨r, hr⟩ := h.2 (by decide)
  obtain ⟨r2, hr2⟩ := h2.2 (by decide)
  exact ⟨⟨r, hr, by have := h.1 r hr; simpa [Slice.cap] using this⟩,
    ⟨r2, hr2, by have := h2.1 r2 hr2; simpa [Slice.cap] using this⟩⟩

/-- C8 (counterexample): on a `ReservedPool` created with `StartCap = 4`, a
caller takes a buffer of capacity 4 with `Get` and calls `Resize` to `2^62`,
which panics in `make` after `targetCap` has been set to `2^62`. In the state
this leaves, with the buffer still held, `Resize` of that buffer to 5 computes
`max(5, 2^62 * 2)` with the product wrapped to `-2^63` and returns a buffer of
capacity 5, below `2 * 4`. -/
theorem Resize_after_panic_cap_small :
    ((BytePool.reserved (NewReservedPool 4)).Resize ⟨[0, 0, 0, 0], 0⟩
      4611686018427387904 none).1 = none ∧
    (Sys.mk (Variant.new .reserved 4) []).afterAll
        [.get 4 none, .resize 0 4611686018427387904 none] =
      ⟨.reserved ⟨List.replicate 20 nilSlice, 0, 4611686018427387904⟩, [⟨[0, 0, 0, 0], 0⟩]⟩ ∧
    ((BytePool.reserved ⟨List.replicate 20 nilSlice, 0, 4611686018427387904⟩).Resize
      ⟨[0, 0, 0, 0], 0⟩ 5 none).1 = some ⟨[0, 0, 0, 0, 0], 5⟩ ∧
    ((⟨[0, 0, 0, 0], 0⟩ : Slice).cap : Int) < 5 ∧
    ((⟨[0, 0, 0, 0, 0], 5⟩ : Slice).cap : Int) <
      Max.max 5 (2 * ((⟨[0, 0, 0, 0], 0⟩ : Slice).cap : Int)) := by
  decide

/-! ## Capacities of `Power2Pool` -/

/-- C9: for `Power2Pool`, in every state reachable from a new pool by `Get`,
`Resize` and `Put` of buffers obtained from that pool, and for every requested
size `S` (a Go `int`): a buffer returned by `Get` with `StartCap = S`, or by a
`Resize` to `S` that is not served in place, has a capacity that is a power of
two and at least `S`, whether it was allocated or popped from a bucket; and for
`1 ≤ S` within what the runtime allocates both calls do return. -/
theorem Power2Pool_cap_pow2 (v : Variant) (s : Sys) (hr : Reachable v s) (sp : Power2Pool)
    (hp : s.pool = .power2 sp) (S : Int) (hS : S < 9223372036854775808)
    (pick : Option Nat) :
    (∀ b, (sp.Get S pick).1 = some b → (∃ k : Nat, b.cap = 2 ^ k) ∧ S ≤ (b.cap : Int)) ∧
    (∀ orig ∈ s.held, (orig.cap : Int) ≤ S → ∀ r, (sp.Resize orig S pick).1 = some r →
      (∃ k : Nat, r.cap = 2 ^ k) ∧ S ≤ (r.cap : Int)) ∧
    (1 ≤ S → S ≤ (maxAlloc : Int) →
      (∃ b, (sp.Get S pick).1 = some b) ∧
        ∀ orig ∈ s.held, (orig.cap : Int) ≤ S → ∃ r, (sp.Resize orig S pick).1 = some r) := by
  obtain ⟨hinv, hown⟩ := Reachable.sys_inv v s hr
  rw [hp] at hinv hown
  refine ⟨fun b h => ?_, fun orig ho hge r h => ?_, fun h1 h2 => ⟨?_, fun orig ho hge => ?_⟩⟩
  · have hq : sp.getn S pick = (some b, (sp.getn S pick).2) := by
      rw [← show (sp.getn S pick).1 = some b from h]
    obtain ⟨_, _, _, hp62, hcap⟩ := sp.getn_inv _ S pick b hinv hq
    refine ⟨⟨_, hcap⟩, ?_⟩
    by_cases h1 : 1 ≤ S
    · have := (powerOfTwo_spec S h1 (by omega)).1
      rw [hcap]; push_cast; exact this
    · omega
  · have hq : (BytePool.power2 sp).Resize orig S pick =
        (some r, .power2 (sp.Resize orig S pick).2) := by
      simp only [BytePool.Resize, h]
    obtain ⟨_, hor, _, hok⟩ :=
      (BytePool.power2 sp).Resize_spec _ orig r S pick hinv (hown orig ho) hq
    refine ⟨hor.2, ?_⟩
    have := hok.2.2.1.1
    have := hok.2.1
    omega
  · exact sp.getn_returns S pick hinv.1 h1 h2
  · have := (BytePool.power2 sp).Resize_returns orig S pick hinv (hown orig ho) (by omega)
      (Or.inr h2)
    simpa only [BytePool.Resize] using this

/-- Witness of `Power2Pool_cap_pow2`: with one buffer of capacity 4 stored in
bucket 2 and another held, a request for 3 bytes pops the stored buffer and a
`Resize` of the held one to 5 allocates capacity 8. -/
theorem Power2Pool_cap_pow2_witness :
    (∃ b, ((Power2Pool.mk ((NewPower2Pool.pools).set 2 [⟨[0, 0, 0, 0], 0⟩])).Get 3 (some 0)).1
        = some b ∧ (3 : Int) ≤ (b.cap : Int)) ∧
    (∃ r, ((Power2Pool.mk ((NewPower2Pool.pools).set 2 [⟨[0, 0, 0, 0], 0⟩])).Resize
        ⟨[0, 0, 0, 0], 0⟩ 5 none).1 = some r ∧ (5 : Int) ≤ (r.cap : Int)) := by
  have hreach : Reachable .power2
      ⟨.power2 ⟨(NewPower2Pool.pools).set 2 [⟨[0, 0, 0, 0], 0⟩]⟩, [⟨[0, 0, 0, 0], 0⟩]⟩ :=
    ⟨4, [.get 4 none, .get 4 none, .put 0], by decide⟩
  constructor
  · have h := Power2Pool_cap_pow2 .power2 _ hreach _ rfl 3 (by decide) (some 0)
    obtain ⟨b, hb⟩ := (h.2.2 (by decide) (by decide)).1
    exact ⟨b, hb, (h.1 b hb).2⟩
  · have h := Power2Pool_cap_pow2 .power2 _ hreach _ rfl 5 (by decide) none
    obtain ⟨r, hr⟩ := (h.2.2 (by decide) (by decide)).2 ⟨[0, 0, 0, 0], 0⟩ (by simp) (by decide)
    exact ⟨r, hr, (h.2.1 ⟨[0, 0, 0, 0], 0⟩ (by simp) (by decide) r hr).2⟩

/-! ## The encoder -/

theorem wrapInt_range (x : Int) :
    -9223372036854775808 ≤ wrapInt x ∧ wrapInt x < 9223372036854775808 := by
  unfold wrapInt; omega

theorem le64_length (value : Int) : (le64 value).length = 8 := by
  simp [le64]

theorem writeCString_frame (dst d1 : Slice) (off o1 : Int) (v : List Nat)
    (hwf : dst.len ≤ dst.cap) (h : writeCString dst off v = some (d1, o1)) :
    d1.cap = dst.cap ∧ d1.len = dst.len ∧
      -9223372036854775808 ≤ o1 ∧ o1 < 9223372036854775808 := by
  unfold writeCString at h
  dsimp only at h
  split at h
  · rename_i hc
    obtain ⟨h0, h1, h2⟩ := hc
    have hl1 : (store dst.arr off.toNat
        (v.take (wrapInt (off + (v.length : Int)) - off).toNat)).length = dst.arr.length := by
      apply store_length
      simp only [List.length_take]
      unfold Slice.cap at h2
      omega
    split at h
    · rename_i hc2
      simp only [Option.some.injEq, Prod.mk.injEq] at h
      obtain ⟨hd, ho⟩ := h
      subst hd
      subst ho
      refine ⟨?_, rfl, (wrapInt_range _).1, (wrapInt_range _).2⟩
      simp only [Slice.cap]
      rw [store_length, hl1]
      rw [hl1]
      simp only [List.length_singleton]
      unfold Slice.cap at hwf
      omega
    · simp at h
  · simp at h

theorem writeInt64_frame (dst d1 : Slice) (off o1 : Int) (value : Int)
    (hlo : -9223372036854775808 ≤ off) (hhi : off < 9223372036854775808)
    (h : writeInt64 dst off value = some (d1, o1)) :
    d1.cap = dst.cap ∧ d1.len = dst.len := by
  unfold writeInt64 at h
  split at h
  · rename_i hc
    obtain ⟨h0, h1, h2⟩ := hc
    simp only [Option.some.injEq, Prod.mk.injEq] at h
    obtain ⟨hd, _⟩ := h
    subst hd
    refine ⟨?_, rfl⟩
    simp only [Slice.cap]
    apply store_length
    rw [le64_length]
    have hw : wrapInt (off + 8) = off + 8 := by
      unfold wrapInt at h2 ⊢; omega
    rw [hw] at h1
    unfold Slice.cap at h1
    omega
  · simp at h

theorem writeCString_eq (dst : Slice) (off : Nat) (v : List Nat) (hwf : dst.WF)
    (h : off + v.length < dst.len) :
    writeCString dst (off : Int) v =
      some (⟨store (store dst.arr off v) (off + v.length) [0], dst.len⟩,
        ((off + v.length + 1 : Nat) : Int)) := by
  obtain ⟨h1, h2⟩ := hwf
  unfold maxAlloc at h2
  have hw : wrapInt ((off : Int) + (v.length : Int)) = ((off + v.length : Nat) : Int) := by
    rw [wrapInt_of_range _ (by omega) (by omega)]; push_cast; rfl
  have hw2 : wrapInt (((off + v.length : Nat) : Int) + 1) = ((off + v.length + 1 : Nat) : Int) := by
    rw [wrapInt_of_range _ (by omega) (by omega)]; push_cast; rfl
  unfold writeCString
  dsimp only
  rw [hw, hw2]
  have hc : (0 : Int) ≤ (off : Int) ∧ (off : Int) ≤ ((off + v.length : Nat) : Int) ∧
      ((off + v.length : Nat) : Int) ≤ (dst.cap : Int) := by
    refine ⟨by omega, by omega, by omega⟩
  rw [if_pos hc]
  have hc2 : (0 : Int) ≤ ((off + v.length : Nat) : Int) ∧
      ((off + v.length : Nat) : Int) < (dst.len : Int) := by
    refine ⟨by omega, by omega⟩
  rw [if_pos hc2]
  have ht : (((off + v.length : Nat) : Int) - (off : Int)).toNat = v.length := by omega
  rw [ht, List.take_length]
  simp only [Int.toNat_ofNat]

theorem writeInt64_eq (dst : Slice) (off : Nat) (value : Int) (hwf : dst.WF)
    (h : off + 8 ≤ dst.cap) :
    writeInt64 dst (off : Int) value =
      some (⟨store dst.arr off (le64 value), dst.len⟩, ((off + 8 : Nat) : Int)) := by
  obtain ⟨h1, h2⟩ := hwf
  unfold maxAlloc at h2
  have hw : wrapInt ((off : Int) + 8) = ((off + 8 : Nat) : Int) := by
    rw [wrapInt_of_range _ (by omega) (by omega)]; push_cast; rfl
  unfold writeInt64
  rw [hw]
  have hc : (0 : Int) ≤ (off : Int) ∧ ((off + 8 : Nat) : Int) ≤ (dst.cap : Int) ∧
      (off : Int) ≤ ((off + 8 : Nat) : Int) := by
    refine ⟨by omega, by omega, by omega⟩
  rw [if_pos hc]
  simp only [Int.toNat_ofNat]

theorem poolEncoder.EncodeKV_inv (pe pe1 : poolEncoder) (pool pool1 : BytePool)
    (key : List Nat) (value : Int) (pick : Option Nat) (hinv : pool.Inv)
    (hown : pool.Owns pe.buf) (h : pe.EncodeKV pool key value pick = (some pe1, pool1)) :
    pool1.Inv ∧ pool1.Owns pe1.buf ∧ ∀ x, pool.Owns x → pool1.Owns x := by
  unfold poolEncoder.EncodeKV at h
  generalize wrapInt (wrapInt (wrapInt ((pe.buf.len : Int) + (key.length : Int)) + 1) + 8)
    = size at h
  rw [Prod.mk.injEq] at h
  obtain ⟨h, hp1⟩ := h
  rw [Option.bind_eq_some] at h
  obtain ⟨r, hr, h⟩ := h
  rw [Option.bind_eq_some] at h
  obtain ⟨w, hc, h⟩ := h
  rw [Option.map_eq_some'] at h
  obtain ⟨w2, hw, hpe⟩ := h
  obtain ⟨buf1, wp1⟩ := w
  obtain ⟨buf2, wp2⟩ := w2
  subst hpe
  subst hp1
  have hq : pool.Resize pe.buf size pick = (some r, (pool.Resize pe.buf size pick).2) := by
    rw [← hr]
  obtain ⟨hi1, ho1, hx1, hok⟩ := pool.Resize_spec _ pe.buf r size pick hinv hown hq
  obtain ⟨hc1, hl1, hlo, hhi⟩ := writeCString_frame r buf1 _ wp1 key hok.2.2.1.1 hc
  obtain ⟨hc2, hl2⟩ := writeInt64_frame buf1 buf2 wp1 wp2 value hlo hhi hw
  refine ⟨hi1, ?_, hx1⟩
  apply BytePool.Owns_congr _ r buf2 ho1 (by rw [hc2, hc1])
  rw [hl2, hl1, hc2, hc1]
  exact hok.2.2.1.1

theorem BytePool.CanGrow_le (pool : BytePool) (orig : Slice) (size : Int)
    (h : pool.CanGrow orig size) : size ≤ (maxAlloc : Int) := by
  cases pool with
  | power2 sp => exact h
  | null np => exact le_trans (le_max_left _ _) h
  | sync sp => exact le_trans (le_max_left _ _) h
  | leaky sp => exact le_trans (le_max_left _ _) h
  | reserved sp => exact le_trans (le_max_left _ _) h


theorem poolEncoder.EncodeKV_eq (pe : poolEncoder) (pool : BytePool) (key : List Nat)
    (value : Int) (pick : Option Nat) (size : Int) (r b1 b2 : Slice) (w1 w2 : Int)
    (hsz : wrapInt (wrapInt (wrapInt ((pe.buf.len : Int) + (key.length : Int)) + 1) + 8) = size)
    (hr : (pool.Resize pe.buf size pick).1 = some r)
    (hc : writeCString r (pe.buf.len : Int) key = some (b1, w1))
    (hw : writeInt64 b1 w1 value = some (b2, w2)) :
    pe.EncodeKV pool key value pick = (some ⟨b2⟩, (pool.Resize pe.buf size pick).2) := by
  unfold poolEncoder.EncodeKV
  rw [hsz, hr, Option.some_bind, hc, Option.some_bind]
  show (Option.map (fun w2 => poolEncoder.mk w2.1) (writeInt64 b1 w1 value), _) = _
  rw [hw, Option.map_some']

/-- `EncodeKV` on a buffer obtained from the pool, when the grown size fits the
buffer or can be allocated. -/
theorem poolEncoder.EncodeKV_core (pe : poolEncoder) (pool : BytePool) (key : List Nat)
    (value : Int) (pick : Option Nat) (hinv : pool.Inv) (hown : pool.Owns pe.buf)
    (hg : ((pe.buf.len + key.length + 9 : Nat) : Int) < (pe.buf.cap : Int) ∨
      pool.CanGrow pe.buf ((pe.buf.len + key.length + 9 : Nat) : Int)) :
    ∃ r pe1, (pool.Resize pe.buf ((pe.buf.len + key.length + 9 : Nat) : Int) pick).1 = some r ∧
      pe.EncodeKV pool key value pick =
        (some pe1, (pool.Resize pe.buf ((pe.buf.len + key.length + 9 : Nat) : Int) pick).2) ∧
      pe1.buf.cap = r.cap ∧ pe1.buf.len = pe.buf.len + key.length + 9 ∧
      pe1.Bytes = pe.Bytes ++ recordFormat key value := by
  have hwf := pool.Owns_WF pe.buf hown
  have hle : ((pe.buf.len + key.length + 9 : Nat) : Int) ≤ 281474976710656 := by
    rcases hg with hg | hg
    · have := hwf.2; unfold maxAlloc at this; omega
    · have := pool.CanGrow_le _ _ hg; unfold maxAlloc at this; exact_mod_cast this
  have hsz : wrapInt (wrapInt (wrapInt ((pe.buf.len : Int) + (key.length : Int)) + 1) + 8)
      = ((pe.buf.len + key.length + 9 : Nat) : Int) := by
    have e1 : wrapInt ((pe.buf.len : Int) + (key.length : Int))
        = (pe.buf.len : Int) + (key.length : Int) :=
      wrapInt_of_range _ (by omega) (by omega)
    have e2 : wrapInt ((pe.buf.len : Int) + (key.length : Int) + 1)
        = (pe.buf.len : Int) + (key.length : Int) + 1 :=
      wrapInt_of_range _ (by omega) (by omega)
    have e3 : wrapInt ((pe.buf.len : Int) + (key.length : Int) + 1 + 8)
        = (pe.buf.len : Int) + (key.length : Int) + 1 + 8 :=
      wrapInt_of_range _ (by omega) (by omega)
    rw [e1, e2, e3]
    push_cast; ring
  obtain ⟨r, hr⟩ := pool.Resize_returns pe.buf _ pick hinv hown (by omega) hg
  have hq : pool.Resize pe.buf ((pe.buf.len + key.length + 9 : Nat) : Int) pick =
      (some r, (pool.Resize pe.buf ((pe.buf.len + key.length + 9 : Nat) : Int) pick).2) := by
    rw [← hr]
  obtain ⟨_, _, _, h0, hlen, hrwf, hpre⟩ := pool.Resize_spec _ pe.buf r _ pick hinv hown hq
  have hrl : r.len = pe.buf.len + key.length + 9 := by exact_mod_cast hlen
  have hrc : pe.buf.len + key.length + 9 ≤ r.arr.length := by
    have := hrwf.1; unfold Slice.cap at this; omega
  simp only [Int.toNat_ofNat] at hpre
  rw [Nat.min_eq_left (by omega)] at hpre
  have hcs := writeCString_eq r pe.buf.len key hrwf (by omega)
  have hl1 : (store r.arr pe.buf.len key).length = r.arr.length :=
    store_length _ _ _ (by omega)
  have hl2 : (store (store r.arr pe.buf.len key) (pe.buf.len + key.length) [0]).length
      = r.arr.length := by
    rw [store_length _ _ _ (by rw [hl1]; simp only [List.length_singleton]; omega), hl1]
  have hwi : writeInt64
      ⟨store (store r.arr pe.buf.len key) (pe.buf.len + key.length) [0], r.len⟩
      ((pe.buf.len + key.length + 1 : Nat) : Int) value =
      some (⟨store (store (store r.arr pe.buf.len key) (pe.buf.len + key.length) [0])
        (pe.buf.len + key.length + 1) (le64 value), r.len⟩,
        ((pe.buf.len + key.length + 1 + 8 : Nat) : Int)) :=
    writeInt64_eq
      ⟨store (store r.arr pe.buf.len key) (pe.buf.len + key.length) [0], r.len⟩
      (pe.buf.len + key.length + 1) value
      ⟨by simp only [Slice.cap]; rw [hl2]; exact hrwf.1,
        by simp only [Slice.cap]; rw [hl2]; exact hrwf.2⟩
      (by simp only [Slice.cap]; rw [hl2]; omega)
  refine ⟨r, ⟨⟨store (store (store r.arr pe.buf.len key) (pe.buf.len + key.length) [0])
    (pe.buf.len + key.length + 1) (le64 value), r.len⟩⟩, hr, ?_, ?_, hrl, ?_⟩
  · exact poolEncoder.EncodeKV_eq pe pool key value pick _ r _ _ _ _ hsz hr hcs hwi
  · simp only [Slice.cap]
    rw [store_length _ _ _ (by rw [hl2, le64_length]; omega), hl2]
  · simp only [poolEncoder.Bytes, Slice.bytes, recordFormat]
    have e1 : (store r.arr pe.buf.len key).take (pe.buf.len + key.length)
        = r.arr.take pe.buf.len ++ key := store_take _ _ _ (by omega)
    have e2 : (store (store r.arr pe.buf.len key) (pe.buf.len + key.length) [0]).take
        (pe.buf.len + key.length + 1) = (store r.arr pe.buf.len key).take
          (pe.buf.len + key.length) ++ [0] := by
      have := store_take (store r.arr pe.buf.len key) (pe.buf.len + key.length) [0]
        (by rw [hl1]; omega)
      simpa using this
    have e3 : (store (store (store r.arr pe.buf.len key) (pe.buf.len + key.length) [0])
        (pe.buf.len + key.length + 1) (le64 value)).take (pe.buf.len + key.length + 1 + 8)
        = (store (store r.arr pe.buf.len key) (pe.buf.len + key.length) [0]).take
          (pe.buf.len + key.length + 1) ++ le64 value := by
      have := store_take (store (store r.arr pe.buf.len key) (pe.buf.len + key.length) [0])
        (pe.buf.len + key.length + 1) (le64 value) (by rw [hl2]; omega)
      rw [le64_length] at this
      exact this
    rw [hrl, show pe.buf.len + key.length + 9 = pe.buf.len + key.length + 1 + 8 from rfl,
      e3, e2, e1, hpre]
    simp only [List.append_assoc]

theorem EncSys.enc_step_inv (s s1 : EncSys) (op : EncOp) (hinv : s.Inv)
    (h : s.step op = some s1) : s1.Inv := by
  obtain ⟨hp, hh⟩ := hinv
  cases op with
  | new c pick =>
    simp only [EncSys.step] at h
    cases hg : (NewPoolEncoder (some s.pool) c pick).1 with
    | none => rw [hg] at h; simp at h
    | some pe =>
      rw [hg] at h
      simp only [Option.some.injEq] at h
      subst h
      simp only [NewPoolEncoder, Option.getD_some, Option.map_eq_some'] at hg
      obtain ⟨b, hb, hpe⟩ := hg
      subst hpe
      have hq : s.pool.Get c pick = (some b, (s.pool.Get c pick).2) := by rw [← hb]
      obtain ⟨h1, h2, h3⟩ := s.pool.Get_spec _ c pick b hp hq
      refine ⟨h1, fun x hx => ?_⟩
      simp only [List.mem_append, List.mem_singleton] at hx
      rcases hx with hx | hx
      · exact h3 _ (hh x hx)
      · subst hx; exact h2
  | encode i key value pick =>
    simp only [EncSys.step] at h
    cases hb : s.encs[i]? with
    | none => rw [hb] at h; simp at h
    | some pe =>
      rw [hb] at h
      simp only at h
      cases hg : (pe.EncodeKV s.pool key value pick).1 with
      | none => rw [hg] at h; simp at h
      | some pe1 =>
        rw [hg] at h
        simp only [Option.some.injEq] at h
        subst h
        have hq : pe.EncodeKV s.pool key value pick =
            (some pe1, (pe.EncodeKV s.pool key value pick).2) := by rw [← hg]
        obtain ⟨h1, h2, h3⟩ :=
          pe.EncodeKV_inv pe1 s.pool _ key value pick hp (hh pe (List.getElem?_mem hb)) hq
        refine ⟨h1, fun x hx => ?_⟩
        rcases List.mem_or_eq_of_mem_set hx with hx | hx
        · exact h3 _ (hh x hx)
        · subst hx; exact h2
  | release i =>
    simp only [EncSys.step] at h
    cases hb : s.encs[i]? with
    | none => rw [hb] at h; simp at h
    | some pe =>
      rw [hb] at h
      simp only at h
      cases hput : pe.Release s.pool with
      | none => rw [hput] at h; simp at h
      | some p1 =>
        rw [hput] at h
        simp only [Option.some.injEq] at h
        subst h
        obtain ⟨h1, h3⟩ := s.pool.Put_spec p1 pe.buf hp (hh pe (List.getElem?_mem hb)) hput
        exact ⟨h1, fun x hx => h3 _ (hh x (List.mem_of_mem_eraseIdx hx))⟩

theorem EncSys.enc_run_inv (ops : List EncOp) :
    ∀ s s1 : EncSys, s.Inv → s.run ops = some s1 → s1.Inv := by
  induction ops with
  | nil =>
    intro s s1 hinv h
    simp only [EncSys.run, Option.some.injEq] at h
    subst h; exact hinv
  | cons op ops ih =>
    intro s s1 hinv h
    simp only [EncSys.run] at h
    cases hs : s.step op with
    | none => rw [hs] at h; simp at h
    | some s2 =>
      rw [hs] at h
      exact ih s2 s1 (s.enc_step_inv s2 op hinv hs) h

theorem EncReachable.enc_inv (v : Variant) (s : EncSys) (h : EncReachable v s) : s.Inv := by
  obtain ⟨c, ops, hr⟩ := h
  exact EncSys.enc_run_inv ops _ s ⟨v.new_inv c, fun x hx => by simp at hx⟩ hr

theorem ReservedPool.Resize_state (rp : ReservedPool) (orig : Slice) (size : Int)
    (hge : ¬ size < (orig.cap : Int)) :
    (rp.Resize orig size).2 = { rp with targetCap := max size (wrapInt (rp.targetCap * 2)) } := by
  simp only [ReservedPool.Resize, if_neg hge]
  cases make size (max size (wrapInt (rp.targetCap * 2))) <;> rfl

theorem BytePool.Roomy_after (pool : BytePool) (orig r b : Slice) (size : Int)
    (pick : Option Nat) (hown : pool.Owns orig)
    (hr : (pool.Resize orig size pick).1 = some r) (hroom : pool.Roomy orig)
    (hb : b.cap = r.cap) : (pool.Resize orig size pick).2.Roomy b := by
  cases pool with
  | null np => trivial
  | sync sp => trivial
  | leaky sp => trivial
  | power2 sp => trivial
  | reserved rp =>
    by_cases hlt : size < (orig.cap : Int)
    · rw [BytePool.Resize_lt_eq _ orig size pick hlt] at hr ⊢
      obtain ⟨_, _, hr2⟩ := reslice_eq_some _ _ _ hr
      have hc : b.cap = orig.cap := by rw [hb, hr2]; rfl
      simp only [BytePool.Roomy] at hroom ⊢
      rw [hc]; exact hroom
    · simp only [BytePool.Resize] at hr ⊢
      have hc := rp.Resize_grow_cap orig r size hown.1 (by omega) hr
      rw [rp.Resize_state orig size hlt]
      simp only [BytePool.Roomy]
      right
      rw [hb, hc]

theorem BytePool.canGrow_of_roomy (pool : BytePool) (orig : Slice) (size : Int)
    (hown : pool.Owns orig) (hroom : pool.Roomy orig) (h2 : 2 * size ≤ (maxAlloc : Int)) :
    size < (orig.cap : Int) ∨ pool.CanGrow orig size := by
  by_cases hlt : size < (orig.cap : Int)
  · left; exact hlt
  · right
    have hwf := pool.Owns_WF orig hown
    have hcap : (orig.cap : Int) ≤ 281474976710656 := by
      have := hwf.2; unfold maxAlloc at this; exact_mod_cast this
    have hm : ((maxAlloc : Nat) : Int) = 281474976710656 := by unfold maxAlloc; rfl
    have hw : wrapInt ((orig.cap : Int) * 2) = (orig.cap : Int) * 2 :=
      wrapInt_of_range _ (by omega) (by omega)
    cases pool with
    | null np => simp only [BytePool.CanGrow]; rw [hw, max_eq]; omega
    | sync sp => simp only [BytePool.CanGrow]; rw [hw, max_eq]; omega
    | leaky sp => simp only [BytePool.CanGrow]; rw [hw, max_eq]; omega
    | power2 sp => simp only [BytePool.CanGrow]; omega
    | reserved rp =>
      obtain ⟨_, hoc, hT⟩ := hown
      simp only [BytePool.CanGrow]
      simp only [BytePool.Roomy] at hroom
      rw [wrapInt_of_range (rp.targetCap * 2) (by omega) (by omega), max_eq]
      omega

theorem encodeAll_cons (pe pe1 : poolEncoder) (pool pool1 : BytePool) (key : List Nat)
    (value : Int) (pick : Option Nat) (rest : List (List Nat × Int × Option Nat))
    (h : pe.EncodeKV pool key value pick = (some pe1, pool1)) :
    encodeAll pe pool ((key, value, pick) :: rest) = encodeAll pe1 pool1 rest := by
  rw [encodeAll, h]

theorem encodeAll_spec (recs : List (List Nat × Int × Option Nat)) :
    ∀ (pe : poolEncoder) (pool : BytePool), pool.Inv → pool.Owns pe.buf → pool.Roomy pe.buf →
      2 * (((pe.buf.len + (encodingFormat recs).length : Nat)) : Int) ≤ (maxAlloc : Int) →
      ∃ pe2 pool2, encodeAll pe pool recs = (some pe2, pool2) ∧
        pe2.Bytes = pe.Bytes ++ encodingFormat recs ∧ pool2.Inv ∧ pool2.Owns pe2.buf := by
  induction recs with
  | nil =>
    intro pe pool hinv hown _ _
    exact ⟨pe, pool, rfl, by simp [encodingFormat], hinv, hown⟩
  | cons rec rest ih =>
    obtain ⟨key, value, pick⟩ := rec
    intro pe pool hinv hown hroom hlen
    have hfl : (encodingFormat ((key, value, pick) :: rest)).length
        = key.length + 9 + (encodingFormat rest).length := by
      simp only [encodingFormat, recordFormat, List.length_append, le64_length,
        List.length_singleton]
    rw [hfl] at hlen
    have hg := pool.canGrow_of_roomy pe.buf ((pe.buf.len + key.length + 9 : Nat) : Int)
      hown hroom (by push_cast at hlen ⊢; omega)
    obtain ⟨r, pe1, hr, hE, hc, hl, hB⟩ := pe.EncodeKV_core pool key value pick hinv hown hg
    obtain ⟨hi1, ho1, _⟩ := pe.EncodeKV_inv pe1 pool _ key value pick hinv hown hE
    have hroom1 := pool.Roomy_after pe.buf r pe1.buf _ pick hown hr hroom hc
    obtain ⟨pe2, pool2, h2, hB2, hi2, ho2⟩ := ih pe1 _ hi1 ho1 hroom1
      (by rw [hl]; push_cast at hlen ⊢; omega)
    refine ⟨pe2, pool2, ?_, ?_, hi2, ho2⟩
    · rw [encodeAll_cons pe pe1 pool _ key value pick rest hE]; exact h2
    · rw [hB2, hB]
      simp only [encodingFormat, List.append_assoc]

theorem ReservedPool.Get_targetCap (rp : ReservedPool) : rp.Get.2.targetCap = rp.targetCap := by
  rcases rp.reserved_Get_cases with ⟨_, hg⟩ | ⟨_, hg⟩ | ⟨_, _, _, buf, _, hg⟩ <;> rw [hg]

theorem BytePool.Get_roomy (pool : BytePool) (c : Int) (pick : Option Nat) (b : Slice)
    (h : pool.CanDouble) : (pool.Get c pick).2.Roomy b := by
  cases pool with
  | null np => trivial
  | sync sp => trivial
  | leaky sp => trivial
  | power2 sp => trivial
  | reserved rp =>
    simp only [BytePool.Get, BytePool.Roomy]
    left
    rw [rp.Get_targetCap]
    exact h

/-- A new encoder on a pool, then `EncodeKV` of a list of records. -/
theorem encoder_run (pool : BytePool) (c : Int) (pick : Option Nat)
    (recs : List (List Nat × Int × Option Nat)) (hinv : pool.Inv) (hget : pool.CanGet c)
    (hroom : pool.CanDouble)
    (hlen : 2 * ((encodingFormat recs).length : Int) ≤ (maxAlloc : Int)) :
    ∃ pe pool1 pe2 pool2, NewPoolEncoder (some pool) c pick = (some pe, pool1) ∧
      encodeAll pe pool1 recs = (some pe2, pool2) ∧ pe2.Bytes = encodingFormat recs := by
  obtain ⟨b, hb⟩ := pool.Get_returns c pick hget
  have hq : pool.Get c pick = (some b, (pool.Get c pick).2) := by rw [← hb]
  obtain ⟨h1, h2, _⟩ := pool.Get_spec _ c pick b hinv hq
  have hl := pool.Get_len c pick b hb
  obtain ⟨pe2, pool2, hE, hB, _, _⟩ := encodeAll_spec recs ⟨b⟩ _ h1 h2
    (pool.Get_roomy c pick b hroom) (by simp only [hl]; push_cast; omega)
  refine ⟨⟨b⟩, _, pe2, pool2, ?_, hE, ?_⟩
  · simp only [NewPoolEncoder, Option.getD_some, hb, Option.map_some']
  · rw [hB]
    simp [poolEncoder.Bytes, Slice.bytes, hl]

/-- C1: for every pool variant and every state of the pool reached by earlier
encoder use (encoders with arbitrary content released into it included), and
for every list of (key, value) records: a new encoder on that pool, after
`EncodeKV` of the records in order, has `Bytes()` equal to the concatenation
of key bytes, a zero byte and the 8-byte little-endian value of each record.
The encoder is created and every call returns provided the allocations are
ones the runtime grants (fresh buffer, twice the encoded length, and for
`ReservedPool` twice the target capacity, within `maxAlloc`). -/
theorem encode_records (v : Variant) (s : EncSys) (hr : EncReachable v s) (StartCap : Int)
    (pick : Option Nat) (recs : List (List Nat × Int × Option Nat))
    (hget : s.pool.CanGet StartCap) (hroom : s.pool.CanDouble)
    (hlen : 2 * ((encodingFormat recs).length : Int) ≤ (maxAlloc : Int)) :
    ∃ pe pool1 pe2 pool2, NewPoolEncoder (some s.pool) StartCap pick = (some pe, pool1) ∧
      encodeAll pe pool1 recs = (some pe2, pool2) ∧ pe2.Bytes = encodingFormat recs :=
  encoder_run s.pool StartCap pick recs (EncReachable.enc_inv v s hr).1 hget hroom hlen

/-- Witness of `encode_records`, for each of the five variants with
`StartCap = 4`: on a new pool the records ("A", 0), ("B", 2) encode to the 20
bytes of the test; and in the state reached by encoding them and releasing the
encoder, a new encoder (handed the released buffer back where the pool stores
it) encodes ("A", 0) to `[65, 0, 0, 0, 0, 0, 0, 0, 0, 0]`. -/
theorem encode_records_witness :
    (∃ pe pool1 pe2 pool2,
      NewPoolEncoder (some (Variant.null.new 4)) 4 none = (some pe, pool1) ∧
      encodeAll pe pool1 [([65], 0, none), ([66], 2, none)] = (some pe2, pool2) ∧
      pe2.Bytes = [65, 0, 0, 0, 0, 0, 0, 0, 0, 0, 66, 0, 2, 0, 0, 0, 0, 0, 0, 0]) ∧
    (∃ pe pool1 pe2 pool2,
      NewPoolEncoder (some ((EncSys.run ⟨Variant.null.new 4, []⟩
        [.new 4 none, .encode 0 [65] 0 none, .encode 0 [66] 2 none, .release 0]).getD
          ⟨Variant.null.new 4, []⟩).pool) 4 (some 0) = (some pe, pool1) ∧
      encodeAll pe pool1 [([65], 0, none)] = (some pe2, pool2) ∧
      pe2.Bytes = [65, 0, 0, 0, 0, 0, 0, 0, 0, 0]) ∧
    (∃ pe pool1 pe2 pool2,
      NewPoolEncoder (some (Variant.sync.new 4)) 4 none = (some pe, pool1) ∧
      encodeAll pe pool1 [([65], 0, none), ([66], 2, none)] = (some pe2, pool2) ∧
      pe2.Bytes = [65, 0, 0, 0, 0, 0, 0, 0, 0, 0, 66, 0, 2, 0, 0, 0, 0, 0, 0, 0]) ∧
    (∃ pe pool1 pe2 pool2,
      NewPoolEncoder (some ((EncSys.run ⟨Variant.sync.new 4, []⟩
        [.new 4 none, .encode 0 [65] 0 none, .encode 0 [66] 2 none, .release 0]).getD
          ⟨Variant.sync.new 4, []⟩).pool) 4 (some 0) = (some pe, pool1) ∧
      encodeAll pe pool1 [([65], 0, none)] = (some pe2, pool2) ∧
      pe2.Bytes = [65, 0, 0, 0, 0, 0, 0, 0, 0, 0]) ∧
    (∃ pe pool1 pe2 pool2,
      NewPoolEncoder (some (Variant.power2.new 4)) 4 none = (some pe, pool1) ∧
      encodeAll pe pool1 [([65], 0, none), ([66], 2, none)] = (some pe2, pool2) ∧
      pe2.Bytes = [65, 0, 0, 0, 0, 0, 0, 0, 0, 0, 66, 0, 2, 0, 0, 0, 0, 0, 0, 0]) ∧
    (∃ pe pool1 pe2 pool2,
      NewPoolEncoder (some ((EncSys.run ⟨Variant.power2.new 4, []⟩
        [.new 4 none, .encode 0 [65] 0 none, .encode 0 [66] 2 none, .release 0]).getD
          ⟨Variant.power2.new 4, []⟩).pool) 4 (some 0) = (some pe, pool1) ∧
      encodeAll pe pool1 [([65], 0, none)] = (some pe2, pool2) ∧
      pe2.Bytes = [65, 0, 0, 0, 0, 0, 0, 0, 0, 0]) ∧
    (∃ pe pool1 pe2 pool2,
      NewPoolEncoder (some (Variant.reserved.new 4)) 4 none = (some pe, pool1) ∧
      encodeAll pe pool1 [([65], 0, none), ([66], 2, none)] = (some pe2, pool2) ∧
      pe2.Bytes = [65, 0, 0, 0, 0, 0, 0, 0, 0, 0, 66, 0, 2, 0, 0, 0, 0, 0, 0, 0]) ∧
    (∃ pe pool1 pe2 pool2,
      NewPoolEncoder (some ((EncSys.run ⟨Variant.reserved.new 4, []⟩
        [.new 4 none, .encode 0 [65] 0 none, .encode 0 [66] 2 none, .release 0]).getD
          ⟨Variant.reserved.new 4, []⟩).pool) 4 (some 0) = (some pe, pool1) ∧
      encodeAll pe pool1 [([65], 0, none)] = (some pe2, pool2) ∧
      pe2.Bytes = [65, 0, 0, 0, 0, 0, 0, 0, 0, 0]) ∧
    (∃ pe pool1 pe2 pool2,
      NewPoolEncoder (some (Variant.leaky.new 4)) 4 none = (some pe, pool1) ∧
      encodeAll pe pool1 [([65], 0, none), ([66], 2, none)] = (some pe2, pool2) ∧
      pe2.Bytes = [65, 0, 0, 0, 0, 0, 0, 0, 0, 0, 66, 0, 2, 0, 0, 0, 0, 0, 0, 0]) ∧
    (∃ pe pool1 pe2 pool2,
      NewPoolEncoder (some ((EncSys.run ⟨Variant.leaky.new 4, []⟩
        [.new 4 none, .encode 0 [65] 0 none, .encode 0 [66] 2 none, .release 0]).getD
          ⟨Variant.leaky.new 4, []⟩).pool) 4 (some 0) = (some pe, pool1) ∧
      encodeAll pe pool1 [([65], 0, none)] = (some pe2, pool2) ∧
      pe2.Bytes = [65, 0, 0, 0, 0, 0, 0, 0, 0, 0]) :=
  ⟨encode_records .null ⟨Variant.null.new 4, []⟩ ⟨4, [], rfl⟩ 4 none
      [([65], 0, none), ([66], 2, none)] (by decide) (by decide) (by decide),
    encode_records .null
      ((EncSys.run ⟨Variant.null.new 4, []⟩
        [.new 4 none, .encode 0 [65] 0 none, .encode 0 [66] 2 none, .release 0]).getD
          ⟨Variant.null.new 4, []⟩)
      ⟨4, [.new 4 none, .encode 0 [65] 0 none, .encode 0 [66] 2 none, .release 0],
        by decide⟩ 4 (some 0) [([65], 0, none)] (by decide) (by decide) (by decide),
    encode_records .sync ⟨Variant.sync.new 4, []⟩ ⟨4, [], rfl⟩ 4 none
      [([65], 0, none), ([66], 2, none)] (by decide) (by decide) (by decide),
    encode_records .sync
      ((EncSys.run ⟨Variant.sync.new 4, []⟩
        [.new 4 none, .encode 0 [65] 0 none, .encode 0 [66] 2 none, .release 0]).getD
          ⟨Variant.sync.new 4, []⟩)
      ⟨4, [.new 4 none, .encode 0 [65] 0 none, .encode 0 [66] 2 none, .release 0],
        by decide⟩ 4 (some 0) [([65], 0, none)] (by decide) (by decide) (by decide),
    encode_records .power2 ⟨Variant.power2.new 4, []⟩ ⟨4, [], rfl⟩ 4 none
      [([65], 0, none), ([66], 2, none)] (by decide) (by decide) (by decide),
    encode_records .power2
      ((EncSys.run ⟨Variant.power2.new 4, []⟩
        [.new 4 none, .encode 0 [65] 0 none, .encode 0 [66] 2 none, .release 0]).getD
          ⟨Variant.power2.new 4, []⟩)
      ⟨4, [.new 4 none, .encode 0 [65] 0 none, .encode 0 [66] 2 none, .release 0],
        by decide⟩ 4 (some 0) [([65], 0, none)] (by decide) (by decide) (by decide),
    encode_records .reserved ⟨Variant.reserved.new 4, []⟩ ⟨4, [], rfl⟩ 4 none
      [([65], 0, none), ([66], 2, none)] (by decide) (by decide) (by decide),
    encode_records .reserved
      ((EncSys.run ⟨Variant.reserved.new 4, []⟩
        [.new 4 none, .encode 0 [65] 0 none, .encode 0 [66] 2 none, .release 0]).getD
          ⟨Variant.reserved.new 4, []⟩)
      ⟨4, [.new 4 none, .encode 0 [65] 0 none, .encode 0 [66] 2 none, .release 0],
        by decide⟩ 4 (some 0) [([65], 0, none)] (by decide) (by decide) (by decide),
    encode_records .leaky ⟨Variant.leaky.new 4, []⟩ ⟨4, [], rfl⟩ 4 none
      [([65], 0, none), ([66], 2, none)] (by decide) (by decide) (by decide),
    encode_records .leaky
      ((EncSys.run ⟨Variant.leaky.new 4, []⟩
        [.new 4 none, .encode 0 [65] 0 none, .encode 0 [66] 2 none, .release 0]).getD
          ⟨Variant.leaky.new 4, []⟩)
      ⟨4, [.new 4 none, .encode 0 [65] 0 none, .encode 0 [66] 2 none, .release 0],
        by decide⟩ 4 (some 0) [([65], 0, none)] (by decide) (by decide) (by decide)⟩

/-- C2: for every active encoder of every pool variant (an encoder of a state
reached by encoder use), every key and every integer value: `EncodeKV(key,
value)` returns, and afterwards `Bytes()` is the `Bytes()` from before followed
by the key bytes, one zero byte and the 8 bytes of `value mod 2^64` in
little-endian order; the length grows by exactly `len(key) + 1 + 8` and the
earlier content is unchanged. (The grown size fits the buffer or is one the
runtime can allocate.) -/
theorem EncodeKV_appends (v : Variant) (s : EncSys) (hr : EncReachable v s)
    (pe : poolEncoder) (hpe : pe ∈ s.encs) (key : List Nat) (value : Int)
    (pick : Option Nat)
    (hg : ((pe.buf.len + key.length + 9 : Nat) : Int) < (pe.buf.cap : Int) ∨
      s.pool.CanGrow pe.buf ((pe.buf.len + key.length + 9 : Nat) : Int)) :
    ∃ pe1, (pe.EncodeKV s.pool key value pick).1 = some pe1 ∧
      pe1.Bytes = pe.Bytes ++ key ++ [0] ++
        (List.range 8).map (fun i => (value % 2 ^ 64).toNat / 256 ^ i % 256) ∧
      pe1.Bytes.length = pe.Bytes.length + (key.length + 1 + 8) ∧
      pe1.Bytes.take pe.Bytes.length = pe.Bytes := by
  obtain ⟨hinv, hown⟩ := EncReachable.enc_inv v s hr
  obtain ⟨r, pe1, _, hE, _, hl, hB⟩ :=
    pe.EncodeKV_core s.pool key value pick hinv (hown pe hpe) hg
  have hrec : recordFormat key value = key ++ [0] ++
      (List.range 8).map (fun i => (value % 2 ^ 64).toNat / 256 ^ i % 256) := by
    simp only [recordFormat, le64, toUint]
    norm_num
  rw [hrec, ← List.append_assoc, ← List.append_assoc] at hB
  refine ⟨pe1, by rw [hE], hB, ?_, ?_⟩
  · rw [hB]
    simp only [List.length_append, List.length_map, List.length_range, List.length_singleton]
    omega
  · rw [hB]
    simp only [List.append_assoc]
    exact List.take_left _ _

/-- Witness of `EncodeKV_appends`: an encoder on a `Power2Pool` holding the
record ("A", 0) in a buffer of capacity 16 is given ("B", -1); the buffer is
replaced by one of capacity 32. -/
theorem EncodeKV_appends_witness :
    ∃ pe1, ((poolEncoder.mk ⟨[65, 0, 0, 0, 0, 0, 0, 0, 0, 0, 0, 0, 0, 0, 0, 0], 10⟩).EncodeKV
        ((EncSys.run ⟨Variant.power2.new 4, []⟩
          [.new 4 none, .encode 0 [65] 0 none]).getD ⟨Variant.power2.new 4, []⟩).pool
        [66] (-1) none).1 = some pe1 ∧
      pe1.Bytes = [65, 0, 0, 0, 0, 0, 0, 0, 0, 0, 66, 0, 255, 255, 255, 255, 255, 255, 255, 255]
      := by
  have h := EncodeKV_appends .power2
    ((EncSys.run ⟨Variant.power2.new 4, []⟩
      [.new 4 none, .encode 0 [65] 0 none]).getD ⟨Variant.power2.new 4, []⟩)
    ⟨4, [.new 4 none, .encode 0 [65] 0 none], by decide⟩
    ⟨⟨[65, 0, 0, 0, 0, 0, 0, 0, 0, 0, 0, 0, 0, 0, 0, 0], 10⟩⟩ (by decide) [66] (-1) none
    (Or.inr (by decide))
  obtain ⟨pe1, h1, h2, _, _⟩ := h
  exact ⟨pe1, h1, by rw [h2]; decide⟩

/-! ## `ReservedPool`: storing, and the target capacity -/

theorem ReservedPool.Put_eq (rp : ReservedPool) (bs : Slice) (hl : rp.pool.length = 20)
    (h0 : 0 ≤ rp.size) (h20 : rp.size ≤ 20) :
    (rp.size < 20 ∧ rp.targetCap ≤ (bs.cap : Int) →
      rp.Put bs = some { rp with pool := rp.pool.set rp.size.toNat bs, size := rp.size + 1 }) ∧
    (¬ (rp.size < 20 ∧ rp.targetCap ≤ (bs.cap : Int)) → rp.Put bs = some rp) := by
  constructor
  · intro ⟨hs, ht⟩
    have hc : ¬ ((bs.cap : Int) < rp.targetCap ∨ rp.size = (rp.pool.length : Int)) := by
      rw [hl]; push_cast; omega
    have hi : 0 ≤ rp.size ∧ rp.size < (rp.pool.length : Int) := by
      rw [hl]; push_cast; omega
    unfold ReservedPool.Put
    rw [if_neg hc, if_pos hi, wrapInt_of_range _ (by omega) (by omega)]
  · intro hn
    have hc : (bs.cap : Int) < rp.targetCap ∨ rp.size = (rp.pool.length : Int) := by
      rw [hl]; push_cast; omega
    unfold ReservedPool.Put
    rw [if_pos hc]

/-- C11: for `ReservedPool.Put(bs)` in any state of the pool (20 slots, count
between 0 and 20): if the count is below 20 and `cap(bs) ≥ targetCap` the buffer
is stored, that is, written to the slot on top (index `size`), the count grows
by one and the other slots and `targetCap` are unchanged; otherwise the buffer
is dropped and the whole state is unchanged. -/
theorem ReservedPool_Put_stores_iff (rp : ReservedPool) (bs : Slice)
    (hl : rp.pool.length = 20) (h0 : 0 ≤ rp.size) (h20 : rp.size ≤ 20) :
    (rp.size < 20 ∧ rp.targetCap ≤ (bs.cap : Int) →
      rp.Put bs = some { rp with pool := rp.pool.set rp.size.toNat bs, size := rp.size + 1 }) ∧
    (¬ (rp.size < 20 ∧ rp.targetCap ≤ (bs.cap : Int)) → rp.Put bs = some rp) :=
  ReservedPool.Put_eq rp bs hl h0 h20

/-- Witness of `ReservedPool_Put_stores_iff`: a new pool with target capacity
4 stores a buffer of capacity 4 in slot 0 and drops one of capacity 2. -/
theorem ReservedPool_Put_stores_iff_witness :
    (NewReservedPool 4).Put ⟨[0, 0, 0, 0], 0⟩ =
      some ⟨(List.replicate 20 nilSlice).set 0 ⟨[0, 0, 0, 0], 0⟩, 1, 4⟩ ∧
    (NewReservedPool 4).Put ⟨[0, 0], 0⟩ = some (NewReservedPool 4) :=
  ⟨(ReservedPool_Put_stores_iff (NewReservedPool 4) ⟨[0, 0, 0, 0], 0⟩ (by decide) (by decide)
      (by decide)).1 (by decide),
    (ReservedPool_Put_stores_iff (NewReservedPool 4) ⟨[0, 0], 0⟩ (by decide) (by decide)
      (by decide)).2 (by decide)⟩

theorem ReservedPool.Put_targetCap (rp rp1 : ReservedPool) (bs : Slice)
    (h : rp.Put bs = some rp1) : rp1.targetCap = rp.targetCap := by
  unfold ReservedPool.Put at h
  split at h
  · simp only [Option.some.injEq] at h; subst h; rfl
  · split at h
    · simp only [Option.some.injEq] at h; subst h; rfl
    · simp at h

theorem ReservedPool.Resize_targetCap (rp : ReservedPool) (orig : Slice) (size : Int)
    (hlo : -4611686018427387904 ≤ rp.targetCap) (hhi : rp.targetCap < 4611686018427387904) :
    rp.targetCap ≤ (rp.Resize orig size).2.targetCap ∧
    ((orig.cap : Int) ≤ size →
      (rp.Resize orig size).2.targetCap = Max.max size (2 * rp.targetCap) ∧
      (∀ r, orig.WF → (rp.Resize orig size).1 = some r →
        (r.cap : Int) = Max.max size (2 * rp.targetCap)) ∧
      (Max.max size (2 * rp.targetCap) ≤ (maxAlloc : Int) →
        ∃ r, (rp.Resize orig size).1 = some r)) := by
  have hw : wrapInt (rp.targetCap * 2) = rp.targetCap * 2 :=
    wrapInt_of_range _ (by omega) (by omega)
  by_cases hlt : size < (orig.cap : Int)
  · constructor
    · simp only [ReservedPool.Resize, if_pos hlt]; exact le_refl _
    · intro hge; omega
  · have hst := rp.Resize_state orig size hlt
    rw [hw, max_eq] at hst
    constructor
    · rw [hst]; simp only; omega
    · intro hge
      refine ⟨by rw [hst]; simp only [mul_comm], ?_, ?_⟩
      · intro r hwf hr
        have := rp.Resize_grow_cap orig r size hwf hge hr
        rw [hw, max_eq] at this
        rw [this, mul_comm]
      · intro hm
        simp only [ReservedPool.Resize, if_neg hlt, hw, max_eq]
        rw [make_of_le size _ (by omega) (by omega) (by rw [mul_comm]; exact hm)]
        exact ⟨_, rfl⟩

/-- C12 (amended): for `ReservedPool`, `targetCap` equals `StartCap` after
`NewReservedPool`; `Get` and `Put` leave it unchanged; and while `2 * targetCap`
fits a 64-bit `int` (`-2^62 ≤ targetCap < 2^62`) a `Resize` never decreases it:
a growing `Resize(orig, size)` (`cap(orig) ≤ size`) sets it to
`max(size, 2 * targetCap)` and a buffer it returns has exactly that capacity
(it does return when that capacity is one the runtime allocates). -/
theorem ReservedPool_targetCap_monotone (rp : ReservedPool) (bs orig : Slice) (size c : Int)
    (hlo : -4611686018427387904 ≤ rp.targetCap) (hhi : rp.targetCap < 4611686018427387904) :
    (NewReservedPool c).targetCap = c ∧
    rp.Get.2.targetCap = rp.targetCap ∧
    (∀ rp1, rp.Put bs = some rp1 → rp1.targetCap = rp.targetCap) ∧
    rp.targetCap ≤ (rp.Resize orig size).2.targetCap ∧
    ((orig.cap : Int) ≤ size →
      (rp.Resize orig size).2.targetCap = Max.max size (2 * rp.targetCap) ∧
      (∀ r, orig.WF → (rp.Resize orig size).1 = some r →
        (r.cap : Int) = Max.max size (2 * rp.targetCap)) ∧
      (Max.max size (2 * rp.targetCap) ≤ (maxAlloc : Int) →
        ∃ r, (rp.Resize orig size).1 = some r)) :=
  ⟨rfl, rp.Get_targetCap, fun rp1 h => rp.Put_targetCap rp1 bs h,
    (rp.Resize_targetCap orig size hlo hhi).1, (rp.Resize_targetCap orig size hlo hhi).2⟩

/-- Witness of `ReservedPool_targetCap_monotone`: with target capacity 4, a
`Resize` of a buffer of capacity 4 to 5 sets the target capacity to 8 and
returns a buffer of capacity 8. -/
theorem ReservedPool_targetCap_monotone_witness :
    ((NewReservedPool 4).Resize ⟨[0, 0, 0, 0], 0⟩ 5).2.targetCap = 8 ∧
      ∃ r, ((NewReservedPool 4).Resize ⟨[0, 0, 0, 0], 0⟩ 5).1 = some r ∧ (r.cap : Int) = 8 := by
  have h := (ReservedPool_targetCap_monotone (NewReservedPool 4) nilSlice ⟨[0, 0, 0, 0], 0⟩ 5 4
    (by decide) (by decide)).2.2.2.2 (by decide)
  obtain ⟨r, hr⟩ := h.2.2 (by decide)
  exact ⟨by rw [h.1]; decide, r, hr, by rw [h.2.1 r (by decide) hr]; decide⟩

/-- C12 (counterexample): with `StartCap = 2^62` the doubling overflows: on
the new pool `Resize(nil, 0)` returns an empty buffer and leaves `targetCap`
at 0, below its value `2^62` before the call. -/
theorem ReservedPool_targetCap_overflow :
    (NewReservedPool 4611686018427387904).targetCap = 4611686018427387904 ∧
    ((NewReservedPool 4611686018427387904).Resize nilSlice 0).1 = some ⟨[], 0⟩ ∧
    ((NewReservedPool 4611686018427387904).Resize nilSlice 0).2.targetCap = 0 := by
  decide

/-! ## What `Resize` does with the replaced buffer -/

/-- C13: a `Resize` on `LeakySyncPool` or `ReservedPool` never returns the
replaced buffer to the pool: for every buffer and size `LeakySyncPool.Resize`
leaves the free list unchanged, and `ReservedPool.Resize` leaves the slot array
and the count of stored buffers unchanged. -/
theorem Resize_keeps_stored (sp : LeakySyncPool) (rp : ReservedPool) (orig : Slice)
    (size : Int) (pick : Option Nat) :
    ((BytePool.leaky sp).Resize orig size pick).2 = BytePool.leaky sp ∧
    (rp.Resize orig size).2.pool = rp.pool ∧ (rp.Resize orig size).2.size = rp.size :=
  ⟨rfl, (rp.Resize_bounds orig size).1, (rp.Resize_bounds orig size).2⟩

theorem Power2Pool.Resize_put (sp : Power2Pool) (orig r : Slice) (size : Int)
    (pick : Option Nat) (hge : (orig.cap : Int) ≤ size)
    (h : (sp.Resize orig size pick).1 = some r) :
    ∃ bucket, (sp.getn size pick).2.pools[powerOfTwo (orig.cap : Int)]? = some bucket ∧
      (sp.Resize orig size pick).2.pools =
        (sp.getn size pick).2.pools.set (powerOfTwo (orig.cap : Int)) (bucket ++ [orig]) := by
  have hlt : ¬ size < (orig.cap : Int) := by omega
  simp only [Power2Pool.Resize, if_neg hlt] at h ⊢
  generalize sp.getn size pick = q at h ⊢
  obtain ⟨o, sp1⟩ := q
  cases o with
  | none => simp at h
  | some temp =>
    simp only at h ⊢
    generalize reslice temp size = o2 at h ⊢
    cases o2 with
    | none => simp at h
    | some temp1 =>
      simp only at h ⊢
      cases hb : sp1.pools[powerOfTwo (orig.cap : Int)]? with
      | none =>
        have hput : sp1.Put orig = none := by simp only [Power2Pool.Put, hb]
        rw [hput] at h; simp at h
      | some bucket =>
        have hput : sp1.Put orig =
            some ⟨sp1.pools.set (powerOfTwo (orig.cap : Int)) (syncPut bucket orig)⟩ := by
          simp only [Power2Pool.Put, hb]
        rw [hput]
        exact ⟨bucket, rfl, rfl⟩

/-- C14: a growing `Resize` on `SyncPool` (`cap(orig) ≤ size`) returns the old
buffer to the pool at once: when it returns, the free list afterwards is the
free list before plus exactly `orig`, and the buffer returned is the one
`NullPool.Resize` and `LeakySyncPool.Resize` return for the same arguments. A
growing `Resize` on `Power2Pool` that returns has put `orig` into the bucket
indexed by `powerOfTwo(cap(orig))`, its capacity and not its length. -/
theorem Resize_recycles_orig (sp : SyncPool) (p2 : Power2Pool) (orig : Slice) (size : Int)
    (pick : Option Nat) (hge : (orig.cap : Int) ≤ size) :
    (sp.Resize orig size).1 = NewNullPool.Resize orig size ∧
    (sp.Resize orig size).1 = (LeakySyncPool.mk sp.pool).Resize orig size ∧
    (∀ r, (sp.Resize orig size).1 = some r → (sp.Resize orig size).2.pool = sp.pool ++ [orig]) ∧
    (∀ r, (p2.Resize orig size pick).1 = some r →
      ∃ bucket, (p2.getn size pick).2.pools[powerOfTwo (orig.cap : Int)]? = some bucket ∧
        (p2.Resize orig size pick).2.pools =
          (p2.getn size pick).2.pools.set (powerOfTwo (orig.cap : Int)) (bucket ++ [orig])) := by
  have hlt : ¬ size < (orig.cap : Int) := by omega
  refine ⟨?_, ?_, ?_, fun r h => p2.Resize_put orig r size pick hge h⟩
  · simp only [SyncPool.Resize, NullPool.Resize, if_neg hlt]
    cases make size (max size (wrapInt ((orig.cap : Int) * 2))) <;> rfl
  · simp only [SyncPool.Resize, LeakySyncPool.Resize, if_neg hlt]
    cases make size (max size (wrapInt ((orig.cap : Int) * 2))) <;> rfl
  · intro r h
    simp only [SyncPool.Resize, if_neg hlt] at h ⊢
    cases hm : make size (max size (wrapInt ((orig.cap : Int) * 2))) with
    | none => rw [hm] at h; simp at h
    | some temp => rfl

/-- Witness of `Resize_recycles_orig`: a buffer of capacity 4 and length 1
resized to 4 on an empty `SyncPool` and on a new `Power2Pool`, where it lands
in bucket 2. -/
theorem Resize_recycles_orig_witness :
    (NewSyncPool.Resize ⟨[7, 0, 0, 0], 1⟩ 4).2.pool = [⟨[7, 0, 0, 0], 1⟩] ∧
    (NewPower2Pool.Resize ⟨[7, 0, 0, 0], 1⟩ 4 none).2.pools =
      NewPower2Pool.pools.set 2 [⟨[7, 0, 0, 0], 1⟩] := by
  have h := Resize_recycles_orig NewSyncPool NewPower2Pool ⟨[7, 0, 0, 0], 1⟩ 4 none (by decide)
  constructor
  · exact h.2.2.1 ⟨[7, 0, 0, 0, 0, 0, 0, 0], 4⟩ (by decide)
  · obtain ⟨bucket, hb, he⟩ := h.2.2.2 ⟨[7, 0, 0, 0], 4⟩ (by decide)
    rw [he]
    have h2 : powerOfTwo ((Slice.cap ⟨[7, 0, 0, 0], 1⟩ : Nat) : Int) = 2 := by decide
    rw [h2] at hb ⊢
    have h3 : bucket = [] := by
      have : (NewPower2Pool.getn 4 none).2.pools[2]? = some [] := by decide
      rw [this] at hb
      exact (Option.some.inj hb).symm
    rw [h3]
    decide

/-! ## Absence of panics -/

theorem BytePool.pool_Put_returns (pool : BytePool) (b : Slice) (hinv : pool.Inv)
    (hown : pool.Owns b) : ∃ p, pool.Put b = some p := by
  cases pool with
  | null np => exact ⟨_, rfl⟩
  | sync sp => exact ⟨_, rfl⟩
  | leaky sp => exact ⟨_, rfl⟩
  | power2 sp =>
    obtain ⟨k, hk⟩ := hown.2
    obtain ⟨sp1, h⟩ := Power2Pool.Put_returns sp b k hinv.1 hown.1 hk
    exact ⟨.power2 sp1, by simp only [BytePool.Put, h, Option.map_some']⟩
  | reserved rp =>
    obtain ⟨hl, h0, h20, _, _⟩ := hinv
    by_cases hc : rp.size < 20 ∧ rp.targetCap ≤ (b.cap : Int)
    · refine ⟨.reserved { rp with pool := rp.pool.set rp.size.toNat b, size := rp.size + 1 }, ?_⟩
      simp only [BytePool.Put, (rp.Put_eq b hl h0 h20).1 hc, Option.map_some']
    · refine ⟨.reserved rp, ?_⟩
      simp only [BytePool.Put, (rp.Put_eq b hl h0 h20).2 hc, Option.map_some']

theorem BytePool.CanGet_of_inv (pool : BytePool) (c : Int) (hinv : pool.Inv) (h1 : 1 ≤ c)
    (h2 : c ≤ (maxAlloc : Int))
    (h3 : ∀ rp, pool = .reserved rp → 0 ≤ rp.targetCap ∧ rp.targetCap ≤ (maxAlloc : Int)) :
    pool.CanGet c := by
  cases pool with
  | null np => exact ⟨by omega, h2⟩
  | sync sp => exact ⟨by omega, h2⟩
  | leaky sp => exact ⟨by omega, h2⟩
  | power2 sp => exact ⟨hinv.1, h1, h2⟩
  | reserved rp => exact ⟨hinv.1, hinv.2.1, hinv.2.2.1, (h3 rp rfl).1, (h3 rp rfl).2⟩

/-- C15 (amended): under correct usage no pool or encoder operation panics as
long as every capacity a call asks `make` for is at most `maxAlloc = 2^48`.
The bucket index of `Power2Pool` is inside its 63 buckets for every size from 1
to 2^62. In every state reached by `Get`, `Put`, `Resize` on buffers obtained
from the pool: `Get` returns for `1 ≤ StartCap ≤ 2^48` (for `ReservedPool`, which
allocates `targetCap`: `0 ≤ targetCap ≤ 2^48`), `Put` of a held buffer returns,
and `Resize` of a held buffer to a `size ≥ 0` returns (the reslices
`orig[0:size]`, `temp[0:size]` are within capacity) when the size is below the
capacity or the capacity of the new buffer is at most `2^48` (`BytePool.CanGrow`).
In every state reached by encoder use: `EncodeKV` returns under the same
condition (its writes are inside the resized buffer), and `Release` returns. -/
theorem no_panic_in_correct_use (v : Variant) (s : Sys) (hr : Reachable v s) (es : EncSys)
    (her : EncReachable v es) :
    (∀ n : Int, 1 ≤ n → n ≤ 2 ^ 62 → powerOfTwo n < NewPower2Pool.pools.length) ∧
    (∀ c pick, 1 ≤ c → c ≤ (maxAlloc : Int) →
      (∀ rp, s.pool = .reserved rp → 0 ≤ rp.targetCap ∧ rp.targetCap ≤ (maxAlloc : Int)) →
      ∃ b, (s.pool.Get c pick).1 = some b) ∧
    (∀ orig ∈ s.held, ∃ p, s.pool.Put orig = some p) ∧
    (∀ orig ∈ s.held, ∀ size pick, 0 ≤ size →
      (size < (orig.cap : Int) ∨ s.pool.CanGrow orig size) →
      ∃ r, (s.pool.Resize orig size pick).1 = some r) ∧
    (∀ pe ∈ es.encs, ∀ key value pick,
      (((pe.buf.len + key.length + 9 : Nat) : Int) < (pe.buf.cap : Int) ∨
        es.pool.CanGrow pe.buf ((pe.buf.len + key.length + 9 : Nat) : Int)) →
      ∃ pe1, (pe.EncodeKV es.pool key value pick).1 = some pe1) ∧
    (∀ pe ∈ es.encs, ∃ p, pe.Release es.pool = some p) := by
  obtain ⟨hinv, hown⟩ := Reachable.sys_inv v s hr
  obtain ⟨heinv, heown⟩ := EncReachable.enc_inv v es her
  refine ⟨?_, ?_, ?_, ?_, ?_, ?_⟩
  · intro n h1 h2
    have := powerOfTwo_le n 62 h1 (le_refl _) h2
    simp only [NewPower2Pool, List.length_replicate]
    omega
  · intro c pick h1 h2 h3
    exact s.pool.Get_returns c pick (s.pool.CanGet_of_inv c hinv h1 h2 h3)
  · intro orig ho
    exact s.pool.pool_Put_returns orig hinv (hown orig ho)
  · intro orig ho size pick h0 hg
    exact s.pool.Resize_returns orig size pick hinv (hown orig ho) h0 hg
  · intro pe hpe key value pick hg
    obtain ⟨r, pe1, _, hE, _⟩ := pe.EncodeKV_core es.pool key value pick heinv (heown pe hpe) hg
    exact ⟨pe1, by rw [hE]⟩
  · intro pe hpe
    exact es.pool.pool_Put_returns pe.buf heinv (heown pe hpe)

/-- Witness of `no_panic_in_correct_use` on a `Power2Pool`: with one buffer
held and one encoder active, `Put`, a growing `Resize`, `EncodeKV` and
`Release` all return. -/
theorem no_panic_in_correct_use_witness :
    (∃ p, (BytePool.power2 NewPower2Pool).Put ⟨[0, 0, 0, 0], 0⟩ = some p) ∧
    (∃ r, ((BytePool.power2 NewPower2Pool).Resize ⟨[0, 0, 0, 0], 0⟩ 100 none).1 = some r) ∧
    (∃ pe1, ((poolEncoder.mk ⟨[0, 0, 0, 0], 0⟩).EncodeKV (BytePool.power2 NewPower2Pool)
      [65] 0 none).1 = some pe1) := by
  have h := no_panic_in_correct_use .power2 ⟨.power2 NewPower2Pool, [⟨[0, 0, 0, 0], 0⟩]⟩
    ⟨4, [.get 4 none], by decide⟩ ⟨.power2 NewPower2Pool, [⟨⟨[0, 0, 0, 0], 0⟩⟩]⟩
    ⟨4, [.new 4 none], by decide⟩
  exact ⟨h.2.2.1 _ (by simp), h.2.2.2.1 _ (by simp) 100 none (by decide) (Or.inr (by decide)),
    h.2.2.2.2.1 _ (by simp) [65] 0 none (Or.inr (by decide))⟩

/-- C15 (counterexample): `StartCap = 2^49` lies between 1 and 2^62, and on a
new pool of every variant `Get` with that `StartCap` panics: `make` refuses a
capacity above `maxAlloc = 2^48`. Likewise `Resize` of a buffer of capacity 4
to the size `2^49` panics on every variant. -/
theorem Get_above_maxAlloc_panics :
    (1 : Int) ≤ 562949953421312 ∧ (562949953421312 : Int) ≤ 2 ^ 62 ∧
    ((Variant.new .null 562949953421312).Get 562949953421312 none).1 = none ∧
    ((Variant.new .sync 562949953421312).Get 562949953421312 none).1 = none ∧
    ((Variant.new .power2 562949953421312).Get 562949953421312 none).1 = none ∧
    ((Variant.new .reserved 562949953421312).Get 562949953421312 none).1 = none ∧
    ((Variant.new .leaky 562949953421312).Get 562949953421312 none).1 = none ∧
    ((Variant.new .null 4).Resize ⟨[0, 0, 0, 0], 0⟩ 562949953421312 none).1 = none ∧
    ((Variant.new .sync 4).Resize ⟨[0, 0, 0, 0], 0⟩ 562949953421312 none).1 = none ∧
    ((Variant.new .power2 4).Resize ⟨[0, 0, 0, 0], 0⟩ 562949953421312 none).1 = none ∧
    ((Variant.new .reserved 4).Resize ⟨[0, 0, 0, 0], 0⟩ 562949953421312 none).1 = none ∧
    ((Variant.new .leaky 4).Resize ⟨[0, 0, 0, 0], 0⟩ 562949953421312 none).1 = none := by
  decide

/-! ## `powerOfTwo` and the buckets -/

/-- C17: for every `n` with `1 ≤ n ≤ 2^62`, `powerOfTwo(n)` is the ceiling of
`log2(n)`: the least `p` with `2^p ≥ n`; it is at most 62 and so a valid index
into the 63 buckets made by `NewPower2Pool`. For `n = 0` and for `n > 2^62`
(below `2^63`, a Go `int`) the result is at least 63 and is not an index of a
bucket. -/
theorem powerOfTwo_ceil_log2 :
    (∀ n : Int, 1 ≤ n → n ≤ 2 ^ 62 →
      n ≤ 2 ^ powerOfTwo n ∧ (∀ q : Nat, n ≤ 2 ^ q → powerOfTwo n ≤ q) ∧
        powerOfTwo n ≤ 62 ∧ powerOfTwo n < NewPower2Pool.pools.length) ∧
    63 ≤ powerOfTwo 0 ∧
    (∀ n : Int, 2 ^ 62 < n → n < 2 ^ 63 → 63 ≤ powerOfTwo n) ∧
    (∀ p : Nat, 63 ≤ p → NewPower2Pool.pools[p]? = none) := by
  refine ⟨?_, by decide, ?_, ?_⟩
  · intro n h1 h2
    have hp := powerOfTwo_le n 62 h1 (le_refl _) h2
    refine ⟨(powerOfTwo_spec n h1 (by norm_num at h2 ⊢; omega)).1, ?_, hp, ?_⟩
    · intro q hq
      by_cases hq62 : q ≤ 62
      · exact powerOfTwo_le n q h1 hq62 hq
      · omega
    · simp only [NewPower2Pool, List.length_replicate]; omega
  · intro n h1 h2
    have := powerOfTwo_gt n 62 h1 (by norm_num at h2 ⊢; omega)
    omega
  · intro p hp
    simp only [NewPower2Pool, List.getElem?_eq_none_iff, List.length_replicate]
    exact hp

/-- Witness of `powerOfTwo_ceil_log2`: `powerOfTwo(5) = 3`, and `2^62 + 1` has
no bucket. -/
theorem powerOfTwo_ceil_log2_witness :
    (5 : Int) ≤ 2 ^ powerOfTwo 5 ∧ powerOfTwo 5 ≤ 3 ∧ 63 ≤ powerOfTwo (2 ^ 62 + 1) :=
  ⟨(powerOfTwo_ceil_log2.1 5 (by decide) (by decide)).1,
    (powerOfTwo_ceil_log2.1 5 (by decide) (by decide)).2.1 3 (by decide),
    powerOfTwo_ceil_log2.2.2.1 (2 ^ 62 + 1) (by decide) (by decide)⟩

/-! ## A stored buffer below the target capacity -/

/-- C20: on a new `ReservedPool` with `StartCap = 4` the calls `b1 := Get()`,
`b2 := Get()`, `Put(b1)`, `Resize(b2, 4)` lead to a state with `targetCap = 8`
in which `b1`, of capacity 4, is still stored; the next `Get` returns it: a
recycled buffer whose capacity is strictly below the current `targetCap`. -/
theorem ReservedPool_recycles_below_target :
    Sys.run ⟨Variant.reserved.new 4, []⟩
        [.get 4 none, .get 4 none, .put 0, .resize 0 4 none] =
      some ⟨.reserved ⟨(List.replicate 20 nilSlice).set 0 ⟨[0, 0, 0, 0], 0⟩, 1, 8⟩,
        [⟨[0, 0, 0, 0, 0, 0, 0, 0], 4⟩]⟩ ∧
    (ReservedPool.Get ⟨(List.replicate 20 nilSlice).set 0 ⟨[0, 0, 0, 0], 0⟩, 1, 8⟩).1 =
      some ⟨[0, 0, 0, 0], 0⟩ ∧
    (ReservedPool.Get ⟨(List.replicate 20 nilSlice).set 0 ⟨[0, 0, 0, 0], 0⟩, 1, 8⟩).2.targetCap
      = 8 ∧
    ((Slice.cap ⟨[0, 0, 0, 0], 0⟩ : Nat) : Int) < 8 := by
  decide

/-! ## Decoding -/

theorem append_zero_inj (a : List Nat) : ∀ (b x y : List Nat), 0 ∉ a → 0 ∉ b →
    a ++ 0 :: x = b ++ 0 :: y → a = b ∧ x = y := by
  induction a with
  | nil =>
    intro b x y _ hb h
    cases b with
    | nil => simp only [List.nil_append, List.cons.injEq, true_and] at h; exact ⟨rfl, h⟩
    | cons d b =>
      simp only [List.nil_append, List.cons_append, List.cons.injEq] at h
      simp only [List.mem_cons, not_or] at hb
      exact absurd h.1 hb.1
  | cons c a ih =>
    intro b x y ha hb h
    simp only [List.mem_cons, not_or] at ha
    cases b with
    | nil =>
      simp only [List.nil_append, List.cons_append, List.cons.injEq] at h
      exact absurd h.1.symm ha.1
    | cons d b =>
      simp only [List.mem_cons, not_or] at hb
      simp only [List.cons_append, List.cons.injEq] at h
      obtain ⟨r1, r2⟩ := ih b x y ha.2 hb.2 h.2
      exact ⟨by rw [h.1, r1], r2⟩

theorem digits_inj (a b : Nat) (ha : a < 18446744073709551616)
    (hb : b < 18446744073709551616) (h0 : a % 256 = b % 256)
    (h1 : a / 256 % 256 = b / 256 % 256) (h2 : a / 65536 % 256 = b / 65536 % 256)
    (h3 : a / 16777216 % 256 = b / 16777216 % 256)
    (h4 : a / 4294967296 % 256 = b / 4294967296 % 256)
    (h5 : a / 1099511627776 % 256 = b / 1099511627776 % 256)
    (h6 : a / 281474976710656 % 256 = b / 281474976710656 % 256)
    (h7 : a / 72057594037927936 % 256 = b / 72057594037927936 % 256) : a = b := by
  omega

theorem le64_inj (v1 v2 : Int) (h1 : -9223372036854775808 ≤ v1 ∧ v1 < 9223372036854775808)
    (h2 : -9223372036854775808 ≤ v2 ∧ v2 < 9223372036854775808) (h : le64 v1 = le64 v2) :
    v1 = v2 := by
  have hu1 : toUint v1 < 18446744073709551616 := by unfold toUint; omega
  have hu2 : toUint v2 < 18446744073709551616 := by unfold toUint; omega
  have hu : toUint v1 = toUint v2 := by
    unfold le64 at h
    generalize toUint v1 = a at h hu1
    generalize toUint v2 = b at h hu2
    simp only [List.range, List.range.loop, List.map_cons, List.map_nil,
      List.cons.injEq, and_true] at h
    norm_num at h
    obtain ⟨h0, h1, h2, h3, h4, h5, h6, h7⟩ := h
    exact digits_inj a b hu1 hu2 h0 h1 h2 h3 h4 h5 h6 h7
  unfold toUint at hu
  omega

theorem encodingFormat_inj (recs1 : List (List Nat × Int × Option Nat)) :
    ∀ recs2 : List (List Nat × Int × Option Nat),
      (∀ r ∈ recs1, 0 ∉ r.1 ∧ -9223372036854775808 ≤ r.2.1 ∧ r.2.1 < 9223372036854775808) →
      (∀ r ∈ recs2, 0 ∉ r.1 ∧ -9223372036854775808 ≤ r.2.1 ∧ r.2.1 < 9223372036854775808) →
      encodingFormat recs1 = encodingFormat recs2 →
      recs1.map (fun r => (r.1, r.2.1)) = recs2.map (fun r => (r.1, r.2.1)) := by
  induction recs1 with
  | nil =>
    intro recs2 _ _ h
    cases recs2 with
    | nil => rfl
    | cons r2 rest2 =>
      obtain ⟨k2, v2, p2⟩ := r2
      have := congrArg List.length h
      simp [encodingFormat, recordFormat] at this
      omega
  | cons r1 rest1 ih =>
    intro recs2 hr1 hr2 h
    obtain ⟨k1, v1, p1⟩ := r1
    cases recs2 with
    | nil =>
      have := congrArg List.length h
      simp [encodingFormat, recordFormat] at this
    | cons r2 rest2 =>
      obtain ⟨k2, v2, p2⟩ := r2
      have hk1 := hr1 (k1, v1, p1) (List.mem_cons_self _ _)
      have hk2 := hr2 (k2, v2, p2) (List.mem_cons_self _ _)
      simp only [encodingFormat, recordFormat, List.append_assoc, List.singleton_append] at h
      obtain ⟨hk, hrest⟩ := append_zero_inj k1 k2 _ _ hk1.1 hk2.1 h
      obtain ⟨hv, ht⟩ := List.append_inj hrest (by rw [le64_length, le64_length])
      have hvv := le64_inj v1 v2 hk1.2 hk2.2 hv
      have hi := ih rest2 (fun r hr => hr1 r (List.mem_cons_of_mem _ hr))
        (fun r hr => hr2 r (List.mem_cons_of_mem _ hr)) ht
      simp only [List.map_cons, hi]
      simp only at hk hvv
      rw [hk, hvv]

/-- C18: the record encoding is uniquely decodable when keys contain no zero
byte: for two lists of (key, value) records whose keys contain no byte 0 and
whose values are 64-bit integers, encoded with `EncodeKV` on new encoders of a
pool (both encodings return when their allocations are granted): if the two
`Bytes()` are equal then the two lists have the same keys and values. -/
theorem encoding_uniquely_decodable (v : Variant) (s : EncSys) (hr : EncReachable v s)
    (StartCap : Int) (pick1 pick2 : Option Nat)
    (recs1 recs2 : List (List Nat × Int × Option Nat))
    (hget : s.pool.CanGet StartCap) (hroom : s.pool.CanDouble)
    (hlen1 : 2 * ((encodingFormat recs1).length : Int) ≤ (maxAlloc : Int))
    (hlen2 : 2 * ((encodingFormat recs2).length : Int) ≤ (maxAlloc : Int))
    (hr1 : ∀ r ∈ recs1, 0 ∉ r.1 ∧ -9223372036854775808 ≤ r.2.1 ∧ r.2.1 < 9223372036854775808)
    (hr2 : ∀ r ∈ recs2, 0 ∉ r.1 ∧ -9223372036854775808 ≤ r.2.1 ∧ r.2.1 < 9223372036854775808) :
    ∃ pe1 p1 e1 q1 pe2 p2 e2 q2,
      NewPoolEncoder (some s.pool) StartCap pick1 = (some pe1, p1) ∧
      encodeAll pe1 p1 recs1 = (some e1, q1) ∧
      NewPoolEncoder (some s.pool) StartCap pick2 = (some pe2, p2) ∧
      encodeAll pe2 p2 recs2 = (some e2, q2) ∧
      (e1.Bytes = e2.Bytes →
        recs1.map (fun r => (r.1, r.2.1)) = recs2.map (fun r => (r.1, r.2.1))) := by
  have hinv := (EncReachable.enc_inv v s hr).1
  obtain ⟨pe1, p1, e1, q1, hn1, he1, hb1⟩ :=
    encoder_run s.pool StartCap pick1 recs1 hinv hget hroom hlen1
  obtain ⟨pe2, p2, e2, q2, hn2, he2, hb2⟩ :=
    encoder_run s.pool StartCap pick2 recs2 hinv hget hroom hlen2
  refine ⟨pe1, p1, e1, q1, pe2, p2, e2, q2, hn1, he1, hn2, he2, fun h => ?_⟩
  rw [hb1, hb2] at h
  exact encodingFormat_inj recs1 recs2 hr1 hr2 h

/-- Witness of `encoding_uniquely_decodable`: the records ("A", 0), ("B", 2)
encoded twice on a new `SyncPool`. -/
theorem encoding_uniquely_decodable_witness :
    ∃ pe1 p1 e1 q1 pe2 p2 e2 q2,
      NewPoolEncoder (some (BytePool.sync NewSyncPool)) 4 none = (some pe1, p1) ∧
      encodeAll pe1 p1 [([65], 0, none), ([66], 2, none)] = (some e1, q1) ∧
      NewPoolEncoder (some (BytePool.sync NewSyncPool)) 4 none = (some pe2, p2) ∧
      encodeAll pe2 p2 [([65], 0, none), ([66], 2, none)] = (some e2, q2) ∧
      (e1.Bytes = e2.Bytes →
        [([65], (0 : Int)), ([66], (2 : Int))] = [([65], (0 : Int)), ([66], (2 : Int))]) :=
  encoding_uniquely_decodable .sync ⟨.sync NewSyncPool, []⟩ ⟨4, [], rfl⟩ 4 none none
    [([65], 0, none), ([66], 2, none)] [([65], 0, none), ([66], 2, none)]
    (by decide) (by decide) (by decide) (by decide) (by decide) (by decide)

/-! ## Zero bytes beyond the length -/

theorem mem_drop_append {α : Type} (A B : List α) (m : Nat) (x : α) (hA : A.length ≤ m)
    (h : x ∈ (A ++ B).drop m) : x ∈ B := by
  rw [List.drop_append_eq_append_drop, List.drop_of_length_le hA, List.nil_append] at h
  exact List.mem_of_mem_drop h

theorem mem_drop_of_le {α : Type} (l : List α) (m n : Nat) (x : α) (hmn : m ≤ n)
    (h : x ∈ l.drop n) : x ∈ l.drop m := by
  have : l.drop n = (l.drop m).drop (n - m) := by
    rw [List.drop_drop]; congr 1; omega
  rw [this] at h
  exact List.mem_of_mem_drop h

theorem store_drop (arr : List Nat) (off : Nat) (bs : List Nat) (n : Nat)
    (ho : off ≤ arr.length) (hn : off + bs.length ≤ n) :
    (store arr off bs).drop n = arr.drop n := by
  unfold store
  have hl : (arr.take off ++ bs).length = off + bs.length := by
    simp only [List.length_append, List.length_take]; omega
  rw [List.drop_append_eq_append_drop, List.drop_of_length_le (by rw [hl]; exact hn),
    List.nil_append, hl, List.drop_drop]
  congr 1
  omega

theorem recycled_allZero (buf : Slice) (h : buf.ZeroTail) :
    ∀ x ∈ ({ zeroRange buf with len := 0 } : Slice).arr, x = 0 := by
  intro x hx
  simp only [zeroRange, List.mem_append] at hx
  rcases hx with hx | hx
  · exact (List.mem_replicate.mp hx).2
  · exact h x hx

theorem zeroTail_of_allZero (b : Slice) (h : ∀ x ∈ b.arr, x = 0) : b.ZeroTail :=
  fun x hx => h x (List.mem_of_mem_drop hx)

theorem copy_zeroTail (temp orig : Slice) (ht : ∀ x ∈ temp.arr, x = 0) :
    (copy temp orig).ZeroTail := by
  intro x hx
  simp only [copy] at hx
  have := mem_drop_append _ _ _ x (by simp only [List.length_take]; omega) hx
  exact ht x (List.mem_of_mem_drop this)

theorem make_allZero (len c : Int) (b : Slice) (h : make len c = some b) :
    ∀ x ∈ b.arr, x = 0 := by
  obtain ⟨_, _, _, hb⟩ := make_eq_some _ _ _ h
  subst hb
  intro x hx
  exact (List.mem_replicate.mp hx).2

theorem Power2Pool.getn_zero (sp : Power2Pool) (n : Int) (pick : Option Nat) (b : Slice)
    (hz : ∀ y ∈ sp.pools.flatten, y.ZeroTail) (h : (sp.getn n pick).1 = some b) :
    (∀ x ∈ b.arr, x = 0) ∧ ∀ y ∈ (sp.getn n pick).2.pools.flatten, y.ZeroTail := by
  rcases sp.getn_cases n pick with ⟨_, hg⟩ | ⟨bucket, hb, hg | ⟨i, buf, hbuf, hg⟩⟩ <;>
    rw [hg] at h ⊢
  · simp at h
  · exact ⟨make_allZero _ _ b h, hz⟩
  · simp only [Option.some.injEq] at h
    subst h
    have hmem : buf ∈ sp.pools.flatten :=
      List.mem_flatten_of_mem (List.getElem?_mem hb) (List.getElem?_mem hbuf)
    refine ⟨recycled_allZero buf (hz buf hmem), ?_⟩
    intro y hy
    simp only [List.mem_flatten] at hy
    obtain ⟨l, hl, hyl⟩ := hy
    rcases List.mem_or_eq_of_mem_set hl with hl | hl
    · exact hz y (List.mem_flatten_of_mem hl hyl)
    · subst hl
      exact hz y (List.mem_flatten_of_mem (List.getElem?_mem hb) (List.mem_of_mem_eraseIdx hyl))

theorem Power2Pool.Put_zero (sp sp1 : Power2Pool) (b : Slice)
    (hz : ∀ y ∈ sp.pools.flatten, y.ZeroTail) (hb : b.ZeroTail) (h : sp.Put b = some sp1) :
    ∀ y ∈ sp1.pools.flatten, y.ZeroTail := by
  unfold Power2Pool.Put at h
  dsimp only at h
  cases hq : sp.pools[powerOfTwo (b.cap : Int)]? with
  | none => rw [hq] at h; simp at h
  | some bucket =>
    rw [hq] at h
    simp only [Option.some.injEq] at h
    subst h
    intro y hy
    simp only [List.mem_flatten] at hy
    obtain ⟨l, hl, hyl⟩ := hy
    rcases List.mem_or_eq_of_mem_set hl with hl | hl
    · exact hz y (List.mem_flatten_of_mem hl hyl)
    · subst hl
      simp only [syncPut, List.mem_append, List.mem_singleton] at hyl
      rcases hyl with hyl | hyl
      · exact hz y (List.mem_flatten_of_mem (List.getElem?_mem hq) hyl)
      · subst hyl; exact hb

theorem BytePool.Get_zero (pool : BytePool) (c : Int) (pick : Option Nat) (b : Slice)
    (hz : ∀ y ∈ pool.stored, y.ZeroTail) (h : (pool.Get c pick).1 = some b) :
    (∀ x ∈ b.arr, x = 0) ∧ ∀ y ∈ (pool.Get c pick).2.stored, y.ZeroTail := by
  cases pool with
  | null np => exact ⟨make_allZero _ _ b h, hz⟩
  | sync sp =>
    simp only [BytePool.Get] at h ⊢
    rcases sp.sync_Get_cases c pick with hg | ⟨i, buf, hbuf, hg⟩ <;> rw [hg] at h ⊢
    · exact ⟨make_allZero _ _ b h, hz⟩
    · simp only [Option.some.injEq] at h
      subst h
      exact ⟨recycled_allZero buf (hz buf (List.getElem?_mem hbuf)),
        fun y hy => hz y (List.mem_of_mem_eraseIdx hy)⟩
  | leaky sp =>
    simp only [BytePool.Get] at h ⊢
    rcases sp.leaky_Get_cases c pick with hg | ⟨i, buf, hbuf, hg⟩ <;> rw [hg] at h ⊢
    · exact ⟨make_allZero _ _ b h, hz⟩
    · simp only [Option.some.injEq] at h
      subst h
      exact ⟨recycled_allZero buf (hz buf (List.getElem?_mem hbuf)),
        fun y hy => hz y (List.mem_of_mem_eraseIdx hy)⟩
  | power2 sp => exact sp.getn_zero c pick b hz h
  | reserved rp =>
    simp only [BytePool.Get] at h ⊢
    rcases rp.reserved_Get_cases with ⟨_, hg⟩ | ⟨_, hg⟩ | ⟨_, _, _, buf, hbuf, hg⟩ <;>
      rw [hg] at h ⊢
    · exact ⟨make_allZero _ _ b h, hz⟩
    · simp at h
    · simp only [Option.some.injEq] at h
      subst h
      refine ⟨recycled_allZero buf (hz buf (List.getElem?_mem hbuf)), ?_⟩
      intro y hy
      rcases List.mem_or_eq_of_mem_set hy with hy | hy
      · exact hz y hy
      · subst hy; decide

theorem BytePool.pool_Put_zero (pool pool1 : BytePool) (b : Slice)
    (hz : ∀ y ∈ pool.stored, y.ZeroTail) (hb : b.ZeroTail) (h : pool.Put b = some pool1) :
    ∀ y ∈ pool1.stored, y.ZeroTail := by
  cases pool with
  | null np =>
    simp only [BytePool.Put, Option.some.injEq] at h
    subst h; exact hz
  | sync sp =>
    simp only [BytePool.Put, Option.some.injEq] at h
    subst h
    intro y hy
    simp only [BytePool.stored, SyncPool.Put, syncPut, List.mem_append,
      List.mem_singleton] at hy
    rcases hy with hy | hy
    · exact hz y hy
    · subst hy; exact hb
  | leaky sp =>
    simp only [BytePool.Put, Option.some.injEq] at h
    subst h
    intro y hy
    simp only [BytePool.stored, LeakySyncPool.Put, syncPut, List.mem_append,
      List.mem_singleton] at hy
    rcases hy with hy | hy
    · exact hz y hy
    · subst hy; exact hb
  | power2 sp =>
    simp only [BytePool.Put, Option.map_eq_some'] at h
    obtain ⟨sp1, h, hp⟩ := h
    subst hp
    exact sp.Put_zero sp1 b hz hb h
  | reserved rp =>
    simp only [BytePool.Put, Option.map_eq_some'] at h
    obtain ⟨rp1, h, hp⟩ := h
    subst hp
    unfold ReservedPool.Put at h
    split at h
    · simp only [Option.some.injEq] at h
      subst h; exact hz
    · split at h
      · simp only [Option.some.injEq] at h
        subst h
        intro y hy
        rcases List.mem_or_eq_of_mem_set hy with hy | hy
        · exact hz y hy
        · subst hy; exact hb
      · simp at h

theorem BytePool.Resize_zero (pool : BytePool) (orig r : Slice) (size : Int)
    (pick : Option Nat) (hz : ∀ y ∈ pool.stored, y.ZeroTail) (ho : orig.ZeroTail)
    (hle : (orig.len : Int) ≤ size) (h : (pool.Resize orig size pick).1 = some r) :
    r.ZeroTail ∧ ∀ y ∈ (pool.Resize orig size pick).2.stored, y.ZeroTail := by
  by_cases hlt : size < (orig.cap : Int)
  · rw [pool.Resize_lt_eq orig size pick hlt] at h ⊢
    obtain ⟨_, _, hr⟩ := reslice_eq_some _ _ _ h
    subst hr
    refine ⟨fun x hx => ?_, hz⟩
    exact ho x (mem_drop_of_le orig.arr orig.len size.toNat x (by omega) hx)
  · cases pool with
    | null np =>
      simp only [BytePool.Resize, NullPool.Resize, if_neg hlt] at h ⊢
      cases hm : make size (max size (wrapInt ((orig.cap : Int) * 2))) with
      | none => rw [hm] at h; simp at h
      | some temp =>
        rw [hm] at h
        simp only [Option.some.injEq] at h
        subst h
        exact ⟨copy_zeroTail temp orig (make_allZero _ _ temp hm), hz⟩
    | leaky sp =>
      simp only [BytePool.Resize, LeakySyncPool.Resize, if_neg hlt] at h ⊢
      cases hm : make size (max size (wrapInt ((orig.cap : Int) * 2))) with
      | none => rw [hm] at h; simp at h
      | some temp =>
        rw [hm] at h
        simp only [Option.some.injEq] at h
        subst h
        exact ⟨copy_zeroTail temp orig (make_allZero _ _ temp hm), hz⟩
    | sync sp =>
      simp only [BytePool.Resize, SyncPool.Resize, if_neg hlt] at h ⊢
      cases hm : make size (max size (wrapInt ((orig.cap : Int) * 2))) with
      | none => rw [hm] at h; simp at h
      | some temp =>
        rw [hm] at h
        simp only [Option.some.injEq] at h
        subst h
        refine ⟨copy_zeroTail temp orig (make_allZero _ _ temp hm), ?_⟩
        intro y hy
        simp only [BytePool.stored, SyncPool.Put, syncPut, List.mem_append,
          List.mem_singleton] at hy
        rcases hy with hy | hy
        · exact hz y hy
        · subst hy; exact ho
    | reserved rp =>
      simp only [BytePool.Resize, ReservedPool.Resize, if_neg hlt] at h ⊢
      cases hm : make size (max size (wrapInt (rp.targetCap * 2))) with
      | none => rw [hm] at h; simp at h
      | some temp =>
        rw [hm] at h
        simp only [Option.some.injEq] at h
        subst h
        exact ⟨copy_zeroTail temp orig (make_allZero _ _ temp hm), hz⟩
    | power2 sp =>
      simp only [BytePool.Resize, Power2Pool.Resize, if_neg hlt] at h ⊢
      have hgz := sp.getn_zero size pick
      generalize sp.getn size pick = q at h hgz ⊢
      obtain ⟨o, sp1⟩ := q
      cases o with
      | none => simp at h
      | some temp =>
        obtain ⟨htz, hsz⟩ := hgz temp hz rfl
        simp only at h hsz ⊢
        have hre := reslice_eq_some temp size
        generalize reslice temp size = o2 at h hre ⊢
        cases o2 with
        | none => simp at h
        | some temp1 =>
          obtain ⟨_, _, ht1⟩ := hre temp1 rfl
          simp only at h ⊢
          have hpz := fun sp2 => sp1.Put_zero sp2 orig hsz ho
          generalize sp1.Put orig = o3 at h hpz ⊢
          cases o3 with
          | none => simp at h
          | some sp2 =>
            simp only [Option.some.injEq] at h ⊢
            subst h
            refine ⟨copy_zeroTail temp1 orig (by rw [ht1]; exact htz), ?_⟩
            exact hpz sp2 rfl

theorem writeCString_shape (dst d1 : Slice) (off o1 : Int) (v : List Nat)
    (hwf : dst.len ≤ dst.cap) (h : writeCString dst off v = some (d1, o1)) :
    0 ≤ off ∧ off ≤ wrapInt (off + (v.length : Int)) ∧
      wrapInt (off + (v.length : Int)) < (dst.len : Int) ∧
      o1 = wrapInt (wrapInt (off + (v.length : Int)) + 1) ∧
      ∀ n, (wrapInt (off + (v.length : Int))).toNat + 1 ≤ n → d1.arr.drop n = dst.arr.drop n := by
  unfold writeCString at h
  dsimp only at h
  generalize wrapInt (off + (v.length : Int)) = hi at h ⊢
  split at h
  · rename_i hc
    obtain ⟨h0, h1, h2⟩ := hc
    have hl1 : (store dst.arr off.toNat (v.take (hi - off).toNat)).length = dst.arr.length := by
      apply store_length
      simp only [List.length_take]
      unfold Slice.cap at h2
      omega
    split at h
    · rename_i hc2
      simp only [Option.some.injEq, Prod.mk.injEq] at h
      obtain ⟨hd, ho⟩ := h
      subst hd
      refine ⟨h0, h1, hc2.2, ho.symm, ?_⟩
      intro n hn
      unfold Slice.cap at hwf h2
      simp only
      rw [store_drop _ _ _ n (by rw [hl1]; omega)
        (by simp only [List.length_singleton]; omega),
        store_drop _ _ _ n (by omega) (by simp only [List.length_take]; omega)]
    · simp at h
  · simp at h

theorem writeInt64_shape (dst d1 : Slice) (off o1 : Int) (value : Int)
    (hlo : -9223372036854775808 ≤ off) (hhi : off < 9223372036854775808)
    (h : writeInt64 dst off value = some (d1, o1)) :
    ∀ n, off.toNat + 8 ≤ n → d1.arr.drop n = dst.arr.drop n := by
  unfold writeInt64 at h
  split at h
  · rename_i hc
    obtain ⟨h0, h1, h2⟩ := hc
    simp only [Option.some.injEq, Prod.mk.injEq] at h
    obtain ⟨hd, _⟩ := h
    subst hd
    have hw : wrapInt (off + 8) = off + 8 := by
      unfold wrapInt at h2 ⊢; omega
    rw [hw] at h1
    unfold Slice.cap at h1
    intro n hn
    simp only
    rw [store_drop _ _ _ n (by omega) (by rw [le64_length]; exact hn)]
  · simp at h

theorem wrapInt_small (x : Int) (h0 : 0 ≤ x) (h1 : x ≤ 281474976710656) :
    wrapInt (x + 1) = x + 1 ∧ wrapInt (x + 1 + 8) = x + 1 + 8 :=
  ⟨wrapInt_of_range _ (by omega) (by omega), wrapInt_of_range _ (by omega) (by omega)⟩

theorem poolEncoder.EncodeKV_zero (pe pe1 : poolEncoder) (pool pool1 : BytePool)
    (key : List Nat) (value : Int) (pick : Option Nat) (hinv : pool.Inv)
    (hown : pool.Owns pe.buf) (hz : ∀ y ∈ pool.stored, y.ZeroTail) (hb : pe.buf.ZeroTail)
    (h : pe.EncodeKV pool key value pick = (some pe1, pool1)) :
    pe1.buf.ZeroTail ∧ ∀ y ∈ pool1.stored, y.ZeroTail := by
  unfold poolEncoder.EncodeKV at h
  rw [Prod.mk.injEq] at h
  obtain ⟨h, hp1⟩ := h
  rw [Option.bind_eq_some] at h
  obtain ⟨r, hr, h⟩ := h
  rw [Option.bind_eq_some] at h
  obtain ⟨w, hc, h⟩ := h
  rw [Option.map_eq_some'] at h
  obtain ⟨w2, hw, hpe⟩ := h
  obtain ⟨buf1, wp1⟩ := w
  obtain ⟨buf2, wp2⟩ := w2
  subst hpe
  subst hp1
  have hq : pool.Resize pe.buf
      (wrapInt (wrapInt (wrapInt ((pe.buf.len : Int) + (key.length : Int)) + 1) + 8)) pick =
      (some r, (pool.Resize pe.buf
        (wrapInt (wrapInt (wrapInt ((pe.buf.len : Int) + (key.length : Int)) + 1) + 8)) pick).2)
      := by rw [← hr]
  obtain ⟨_, _, _, _, hrl, hrwf, _⟩ := pool.Resize_spec _ pe.buf r _ pick hinv hown hq
  obtain ⟨_, hoff, hhi, ho1, hd1⟩ := writeCString_shape r buf1 _ wp1 key hrwf.1 hc
  obtain ⟨hc1, hl1, hlo, hhi2⟩ := writeCString_frame r buf1 _ wp1 key hrwf.1 hc
  obtain ⟨hc2, hl2⟩ := writeInt64_frame buf1 buf2 wp1 wp2 value hlo hhi2 hw
  have hd2 := writeInt64_shape buf1 buf2 wp1 wp2 value hlo hhi2 hw
  have hcap : (r.cap : Int) ≤ 281474976710656 := by
    have := hrwf.2; unfold maxAlloc at this; exact_mod_cast this
  have hrlen : (r.len : Int) ≤ (r.cap : Int) := by exact_mod_cast hrwf.1
  generalize wrapInt ((pe.buf.len : Int) + (key.length : Int)) = hi at *
  have b0 : (0 : Int) ≤ hi := le_trans (Int.ofNat_nonneg _) hoff
  have b1 : hi ≤ 281474976710656 := le_of_lt (lt_of_lt_of_le hhi (le_trans hrlen hcap))
  obtain ⟨e1, e2⟩ := wrapInt_small hi b0 b1
  rw [e1] at ho1
  rw [e1, e2] at hrl hr
  subst ho1
  have hle : (pe.buf.len : Int) ≤ hi + 1 + 8 :=
    le_trans hoff (le_trans (Int.le_add_of_nonneg_right (by decide))
      (Int.le_add_of_nonneg_right (by decide)))
  have hn1 : hi.toNat + 1 ≤ r.len := by
    have h1 : ((hi.toNat + 1 : Nat) : Int) ≤ (r.len : Int) := by
      push_cast
      rw [Int.toNat_of_nonneg b0]
      exact Int.add_one_le_of_lt hhi
    exact_mod_cast h1
  have hn2 : (hi + 1).toNat + 8 ≤ r.len := by
    have h1 : (((hi + 1).toNat + 8 : Nat) : Int) ≤ (r.len : Int) := by
      push_cast
      rw [Int.toNat_of_nonneg (Int.add_nonneg b0 (by decide)), hrl]
    exact_mod_cast h1
  obtain ⟨hrz, hsz⟩ := pool.Resize_zero pe.buf r (hi + 1 + 8) pick hz hb hle hr
  refine ⟨?_, ?_⟩
  · intro x hx
    simp only at hx
    have hlen : buf2.len = r.len := by rw [hl2, hl1]
    rw [hlen, hd2 r.len hn2, hd1 r.len hn1] at hx
    exact hrz x hx
  · rw [e1, e2]; exact hsz

theorem EncSys.enc_step_zero (s s1 : EncSys) (op : EncOp) (hinv : s.Inv)
    (hz : (∀ y ∈ s.pool.stored, y.ZeroTail) ∧ ∀ pe ∈ s.encs, pe.buf.ZeroTail)
    (h : s.step op = some s1) :
    (∀ y ∈ s1.pool.stored, y.ZeroTail) ∧ ∀ pe ∈ s1.encs, pe.buf.ZeroTail := by
  obtain ⟨hp, hh⟩ := hinv
  obtain ⟨hzs, hze⟩ := hz
  cases op with
  | new c pick =>
    simp only [EncSys.step] at h
    cases hg : (NewPoolEncoder (some s.pool) c pick).1 with
    | none => rw [hg] at h; simp at h
    | some pe =>
      rw [hg] at h
      simp only [Option.some.injEq] at h
      subst h
      simp only [NewPoolEncoder, Option.getD_some, Option.map_eq_some'] at hg
      obtain ⟨b, hb, hpe⟩ := hg
      subst hpe
      obtain ⟨h1, h2⟩ := s.pool.Get_zero c pick b hzs hb
      refine ⟨by simpa only [NewPoolEncoder, Option.getD_some] using h2, fun x hx => ?_⟩
      simp only [List.mem_append, List.mem_singleton] at hx
      rcases hx with hx | hx
      · exact hze x hx
      · subst hx; exact zeroTail_of_allZero b h1
  | encode i key value pick =>
    simp only [EncSys.step] at h
    cases hb : s.encs[i]? with
    | none => rw [hb] at h; simp at h
    | some pe =>
      rw [hb] at h
      simp only at h
      cases hg : (pe.EncodeKV s.pool key value pick).1 with
      | none => rw [hg] at h; simp at h
      | some pe1 =>
        rw [hg] at h
        simp only [Option.some.injEq] at h
        subst h
        have hq : pe.EncodeKV s.pool key value pick =
            (some pe1, (pe.EncodeKV s.pool key value pick).2) := by rw [← hg]
        have hmem := List.getElem?_mem hb
        obtain ⟨h1, h2⟩ := pe.EncodeKV_zero pe1 s.pool _ key value pick hp (hh pe hmem) hzs
          (hze pe hmem) hq
        refine ⟨h2, fun x hx => ?_⟩
        rcases List.mem_or_eq_of_mem_set hx with hx | hx
        · exact hze x hx
        · subst hx; exact h1
  | release i =>
    simp only [EncSys.step] at h
    cases hb : s.encs[i]? with
    | none => rw [hb] at h; simp at h
    | some pe =>
      rw [hb] at h
      simp only at h
      cases hput : pe.Release s.pool with
      | none => rw [hput] at h; simp at h
      | some p1 =>
        rw [hput] at h
        simp only [Option.some.injEq] at h
        subst h
        exact ⟨s.pool.pool_Put_zero p1 pe.buf hzs (hze pe (List.getElem?_mem hb)) hput,
          fun x hx => hze x (List.mem_of_mem_eraseIdx hx)⟩

theorem EncSys.enc_run_zero (ops : List EncOp) :
    ∀ s s1 : EncSys, s.Inv →
      ((∀ y ∈ s.pool.stored, y.ZeroTail) ∧ ∀ pe ∈ s.encs, pe.buf.ZeroTail) →
      s.run ops = some s1 →
      (∀ y ∈ s1.pool.stored, y.ZeroTail) ∧ ∀ pe ∈ s1.encs, pe.buf.ZeroTail := by
  induction ops with
  | nil =>
    intro s s1 _ hz h
    simp only [EncSys.run, Option.some.injEq] at h
    subst h; exact hz
  | cons op ops ih =>
    intro s s1 hinv hz h
    simp only [EncSys.run] at h
    cases hs : s.step op with
    | none => rw [hs] at h; simp at h
    | some s2 =>
      rw [hs] at h
      exact ih s2 s1 (s.enc_step_inv s2 op hinv hs) (s.enc_step_zero s2 op hinv hz hs) h

theorem Variant.new_zero (v : Variant) (c : Int) : ∀ y ∈ (v.new c).stored, y.ZeroTail := by
  cases v with
  | null => intro y hy; simp [Variant.new, BytePool.stored] at hy
  | sync => intro y hy; simp [Variant.new, BytePool.stored, NewSyncPool] at hy
  | leaky => intro y hy; simp [Variant.new, BytePool.stored, NewLeakySyncPool] at hy
  | power2 =>
    intro y hy
    simp only [Variant.new, BytePool.stored, NewPower2Pool, List.mem_flatten] at hy
    obtain ⟨l, hl, hyl⟩ := hy
    rw [(List.mem_replicate.mp hl).2] at hyl
    simp at hyl
  | reserved =>
    intro y hy
    simp only [Variant.new, BytePool.stored, NewReservedPool] at hy
    rw [(List.mem_replicate.mp hy).2]
    decide

/-- C19: when a pool is used only through encoders (`NewPoolEncoder`,
`EncodeKV`, `Release`), in every reachable state every buffer held by the
pool and every buffer owned by an encoder has all bytes in `[length, capacity)`
equal to zero. Consequently a buffer returned by `Get` in such a state, zeroed
by `Get` over its length only, is zero over its whole capacity. -/
theorem zero_tail_invariant (v : Variant) (s : EncSys) (hr : EncReachable v s) :
    (∀ y ∈ s.pool.stored, y.ZeroTail) ∧ (∀ pe ∈ s.encs, pe.buf.ZeroTail) ∧
    (∀ c pick b, (s.pool.Get c pick).1 = some b → ∀ x ∈ b.arr, x = 0) := by
  obtain ⟨c, ops, hrun⟩ := hr
  obtain ⟨h1, h2⟩ := EncSys.enc_run_zero ops _ s ⟨v.new_inv c, fun x hx => by simp at hx⟩
    ⟨v.new_zero c, fun x hx => by simp at hx⟩ hrun
  exact ⟨h1, h2, fun c1 pick b hb => (s.pool.Get_zero c1 pick b h1 hb).1⟩

/-- Witness of `zero_tail_invariant`: a `SyncPool` after an encoder created with
`StartCap = 16` has encoded ("A", 7) and was released; the stored buffer has
length 10 and capacity 16, and `Get` hands it out all zero. -/
theorem zero_tail_invariant_witness :
    Slice.ZeroTail ⟨[65, 0, 7, 0, 0, 0, 0, 0, 0, 0, 0, 0, 0, 0, 0, 0], 10⟩ ∧
    ∀ x ∈ [0, 0, 0, 0, 0, 0, 0, 0, 0, 0, 0, 0, 0, 0, 0, (0 : Nat)], x = 0 := by
  have h := zero_tail_invariant .sync
    ⟨.sync ⟨[⟨[65, 0, 7, 0, 0, 0, 0, 0, 0, 0, 0, 0, 0, 0, 0, 0], 10⟩]⟩, []⟩
    ⟨16, [.new 16 none, .encode 0 [65] 7 none, .release 0], by decide⟩
  exact ⟨h.1 _ (by simp [BytePool.stored]),
    h.2.2 16 (some 0) ⟨[0, 0, 0, 0, 0, 0, 0, 0, 0, 0, 0, 0, 0, 0, 0, 0], 0⟩ (by decide)⟩

end Recycling
